import Mathlib

/-! # werf: cleanup configuration, reference matchers and the commit cache

A shallow embedding of

* `pkg/config/raw_meta_cleanup.go` (the `cleanup` section of the configuration and its
  validation while the YAML document is decoded),
* `pkg/cleaning/git_history_based_cleanup/repo_with_cache.go` (the memoising commit
  reader, for calls one after the other and for callers that interleave),
* `getNamespaceAndRelease` of `cmd/werf/dismiss/dismiss.go`,
* `getSshKeyConfig`, `validateSockPathLength` and `validateAgentSock` of
  `pkg/ssh_agent/ssh_agent.go`,
* `GetServiceValues` and `writeDockerConfigJsonValue` of
  `helpers_for_werf_helm/service_values.go`,

together with models of the library pieces these lean on: Go's `regexp` package, `%q`
formatting, some functions of `strings`, and the YAML decoder. The retention decision
engine (dependency closure and deletion plan) is not among the sources and is modelled
from the specification, §3 and §4.6.

What the libraries do is followed here as far as it is needed, and left open beyond:

* `regexp.Compile` is followed on the expressions made of literals, `.`, anchors, groups,
  alternation and the repetition operators, with the limit of Go 1.19 and later on the
  number of runes (the repository needs Go 1.23, for `sync.Map.Clear`). On every other
  expression the answer of the package is a parameter, `regexp.Library`, and each
  statement holds whatever it is.
* The YAML decoder is followed on the `cleanup` mapping: the keys in document order, each
  with its node as the decoder resolves it (`config.Scalar`), null items of a sequence
  included, which the decoder turns into nil pointers without calling a decoding method.
  What Go's conversion of a float outside the range of `uint64` gives depends on the
  platform and is the parameter `conv`.
* A Go run-time panic is an outcome of its own (`config.Run`, `ssh_agent`).

Go strings are modelled by Lean strings, sequences of Unicode characters: these are the Go
strings that are valid UTF-8. A string scalar of a YAML document is valid UTF-8 unless it
is written with the `!!binary` tag; such a string is outside this development.
-/

namespace Werf

/-! ## Go's `regexp` package, as far as the configuration uses it -/

namespace regexp

/-- The fourteen bytes `regexp.QuoteMeta` escapes (Go's `specialBytes`): backslash, dot,
plus, star, question mark, both parentheses, bar, both square brackets, both braces,
caret and dollar. -/
def special (c : Char) : Bool :=
  c = '\\' || c = '.' || c = '+' || c = '*' || c = '?' || c = '(' || c = ')' || c = '|' ||
  c = '[' || c = ']' || c = '\x7b' || c = '\x7d' || c = '^' || c = '$'

/-- Go `regexp.QuoteMeta`: every special byte gets a backslash in front, everything else
is copied. -/
def QuoteMeta : List Char → List Char
  | [] => []
  | c :: cs => if special c then '\\' :: c :: QuoteMeta cs else c :: QuoteMeta cs

/-- Parsed regular expressions, Go's `syntax.Regexp`, with the operators that the
modelled fragment produces. -/
inductive Tree where
  /-- `OpEmptyMatch`: matches the empty string. -/
  | emptyMatch
  /-- `OpLiteral`, one rune. -/
  | literal (c : Char)
  /-- `OpAnyCharNotNL`: what `.` means without the `s` flag. -/
  | anyCharNotNL
  /-- `OpBeginText`: what `^` means without the `m` flag. -/
  | beginText
  /-- `OpEndText`: what `$` means without the `m` flag. -/
  | endText
  /-- `OpConcat`. -/
  | concat (a b : Tree)
  /-- `OpAlternate`. -/
  | alternate (a b : Tree)
  /-- `OpStar`. -/
  | star (a : Tree)
  /-- `OpPlus`. -/
  | plus (a : Tree)
  /-- `OpQuest`. -/
  | quest (a : Tree)
  /-- `OpCapture`. -/
  | capture (a : Tree)
  deriving DecidableEq, Repr

/-- Go `syntax.Error`: an error code and the offending piece of the expression. -/
structure Error where
  Code : String
  Expr : String
  deriving DecidableEq, Repr

/-- Go `(*syntax.Error).Error`, the message of the error. -/
def Error.String (e : Error) : String :=
  "error parsing regexp: " ++ e.Code ++ ": " ++ "\x60" ++ e.Expr ++ "\x60"

/-- What the parser of this file makes of an expression: the tree, the error, or
`unmodelled` for an expression that uses syntax the parser here does not read (character
classes, counted repetition, flags and `(?` groups, backslash followed by a letter or
digit). Such an expression is handed to the library, see `Compile`. -/
inductive Parsed (α : Type) where
  /-- The expression parses to the tree. -/
  | ok (v : α)
  /-- The expression has the error. -/
  | error (e : Error)
  /-- The expression is outside the modelled fragment. -/
  | unmodelled
  deriving DecidableEq, Repr

/-- One nesting level of the parser's stack: the branches already closed by a `|` and the
pieces of the branch being read, both most recent first. -/
structure Frame where
  alts : List Tree
  seq : List Tree
  deriving DecidableEq, Repr

/-- Go `(*parser).concat` on the pieces of one branch (given most recent first): nothing
becomes `OpEmptyMatch`, one piece stays itself, more are concatenated left to right. -/
def collapseConcat : List Tree → Tree
  | [] => .emptyMatch
  | r :: rest => rest.foldl (fun acc x => .concat x acc) r

/-- Go `(*parser).alternate` on the branches of one level (given most recent first). -/
def collapseAlternate : List Tree → Tree
  | [] => .emptyMatch
  | r :: rest => rest.foldl (fun acc x => .alternate x acc) r

/-- Closes a nesting level: `concat`, then `alternate` over all its branches. -/
def Frame.close (f : Frame) : Tree :=
  collapseAlternate (collapseConcat f.seq :: f.alts)

/-- ASCII letters, digits and the underscore excluded: Go `isalnum`. -/
def isalnum (c : Char) : Bool :=
  ('0' ≤ c && c ≤ '9') || ('A' ≤ c && c ≤ 'Z') || ('a' ≤ c && c ≤ 'z')

/-- Applies a repetition operator to the last piece read. -/
def applyRepeat (op : Char) (r : Tree) : Tree :=
  if op = '*' then .star r else if op = '+' then .plus r else .quest r

/-- The text of a repetition operator for error messages: the operator and the `?`
after it, if there is one (Go reads that `?` as the non-greedy mark). -/
def repeatText (op : Char) (t : List Char) : List Char :=
  if t.head? = some '?' then [op, '?'] else [op]

/-- The main loop of Go `syntax.Parse` with the `Perl` flags, which is what
`regexp.Compile` runs. `whole` is the complete expression (quoted by two of the errors),
`cur` the innermost open nesting level, `outer` the enclosing ones and `lastRepeat` the
text of the repetition operator read immediately before (with its non-greedy mark once
that is read), empty when the previous token was something else. Go's limits on size
and nesting depth are the business of `Compile`. -/
def parseLoop (whole : List Char) :
    List Char → Frame → List Frame → List Char → Parsed Tree
  | [], cur, outer, _ =>
    match outer with
    | [] => .ok cur.close
    | _ :: _ => .error ⟨"missing closing )", String.mk whole⟩
  | '\\' :: [], _, _, _ => .error ⟨"trailing backslash at end of expression", ""⟩
  | '\\' :: c :: t, cur, outer, _ =>
    if isalnum c then .unmodelled
    else if c.toNat < 128 then parseLoop whole t ⟨cur.alts, .literal c :: cur.seq⟩ outer []
    else .error ⟨"invalid escape sequence", String.mk ['\\', c]⟩
  | c :: t, cur, outer, lastRepeat =>
    if c = '(' then
      if t.head? = some '?' then .unmodelled
      else parseLoop whole t ⟨[], []⟩ (cur :: outer) []
    else if c = '|' then
      parseLoop whole t ⟨collapseConcat cur.seq :: cur.alts, []⟩ outer []
    else if c = ')' then
      match outer with
      | [] => .error ⟨"unexpected )", String.mk whole⟩
      | up :: outer' => parseLoop whole t ⟨up.alts, .capture cur.close :: up.seq⟩ outer' []
    else if c = '^' then parseLoop whole t ⟨cur.alts, .beginText :: cur.seq⟩ outer []
    else if c = '$' then parseLoop whole t ⟨cur.alts, .endText :: cur.seq⟩ outer []
    else if c = '.' then parseLoop whole t ⟨cur.alts, .anyCharNotNL :: cur.seq⟩ outer []
    else if c = '[' ∨ c = '\x7b' then .unmodelled
    else if c = '?' ∧ lastRepeat.length = 1 then
      parseLoop whole t cur outer (lastRepeat ++ ['?'])
    else if c = '*' ∨ c = '+' ∨ c = '?' then
      if lastRepeat ≠ [] then
        .error ⟨"invalid nested repetition operator", String.mk (lastRepeat ++ repeatText c t)⟩
      else
        match cur.seq with
        | [] => .error ⟨"missing argument to repetition operator", String.mk (repeatText c t)⟩
        | r :: rest => parseLoop whole t ⟨cur.alts, applyRepeat c r :: rest⟩ outer [c]
    else parseLoop whole t ⟨cur.alts, .literal c :: cur.seq⟩ outer []

/-- Go's `regexp` package where this file does not follow it itself: on the expressions
the parser here does not read, and on the expressions so long or so deeply nested that
Go's limits on size and nesting depth can come into play. It is a parameter: every
statement holds whatever the package does there. -/
structure Library where
  /-- What `regexp.Compile` answers: `none` when the expression compiles, the error
  otherwise. -/
  Compile : String → Option Error
  /-- `MatchString` of the compiled expression on a text. -/
  MatchString : String → String → Bool

/-- Go `*regexp.Regexp`, a compiled expression: the tree of an expression parsed here, or
an expression the library compiled. -/
inductive Regexp where
  | parsed (tree : Tree)
  | library (expr : String)
  deriving DecidableEq, Repr

/-- Go `maxRunes`, `128 << 20 / runeSize`: the number of runes a parsed expression may
hold. The parser adds to a count the runes of every node it pushes, and fails with
`ErrLarge` once the count exceeds this. -/
def maxRunes : Nat := 33554432

/-- The runes of a tree: its literals. -/
def Tree.runes : Tree → Nat
  | .emptyMatch => 0
  | .literal _ => 1
  | .anyCharNotNL => 0
  | .beginText => 0
  | .endText => 0
  | .concat a b => a.runes + b.runes
  | .alternate a b => a.runes + b.runes
  | .star a => a.runes
  | .plus a => a.runes
  | .quest a => a.runes
  | .capture a => a.runes

/-- Whether the tree is a run of literals that ends with `$`. -/
def Tree.literals : Tree → Bool
  | .endText => true
  | .concat (.literal _) t => t.literals
  | _ => false

/-- Whether the tree is that of literals between `^` and `$` and nothing else, which is
what an expression made of `^`, literal characters (escaped or not) and `$` parses to. On
such an expression the parser pushes every literal once, and the three-item concatenation
it makes of them at the end holds no runes of its own: its count of runes is the number of
the literals. -/
def Tree.anchoredLiteral : Tree → Bool
  | .concat .beginText t => t.literals
  | _ => false

/-- The characters of an expression that are special and not escaped; `escaped` says that
the character before was the escaping backslash. Every node of the parse tree that is not
a literal comes from one of them. -/
def operatorsFrom : Bool → List Char → Nat
  | _, [] => 0
  | true, _ :: t => operatorsFrom false t
  | false, c :: t =>
    if c = '\\' then operatorsFrom true t
    else (if special c then 1 else 0) + operatorsFrom false t

/-- Up to this many operators Go's limits on nesting depth (`maxHeight`, 1000) and on the
size of the program (`maxSize`) stay out of play: the parser checks them only once it has
allocated a thousand nodes, and it allocates a bounded number per operator (literals that
follow one another are merged into one node, and their nodes reused). -/
def maxOperators : Nat := 50

/-- Up to this many characters, in an expression of at most `maxOperators` operators, the
limit `maxRunes` stays out of play. The parser counts a literal when it reads it, and once
more each time the literal with its neighbours ends up as the only item of a
concatenation or of an alternation and is pushed again as such, so at most three times; a
class it makes of alternatives that are single characters holds two runes per
alternative. Three times this number and two hundred more is below `maxRunes`. -/
def maxPlain : Nat := 10000000

/-- An expression handed to the library. -/
def Library.answer (lib : Library) (expr : String) : Except Error Regexp :=
  match lib.Compile expr with
  | none => .ok (.library expr)
  | some e => .error e

/-- Go `regexp.Compile` (Go 1.19 and later, which have the limits), on an expression of at
most `maxOperators` operators that the parser here reads. Literals between `^` and `$`
compile to their tree when there are no more than `maxRunes` of them, and are the error
`ErrLarge` otherwise. Any other expression of at most `maxPlain` characters compiles to
its tree, or has its parse error. Every other expression is the library's. -/
def Compile (lib : Library) (expr : String) : Except Error Regexp :=
  if operatorsFrom false expr.data ≤ maxOperators then
    match parseLoop expr.data expr.data ⟨[], []⟩ [] [] with
    | .ok tree =>
      if tree.anchoredLiteral then
        if tree.runes ≤ maxRunes then .ok (.parsed tree)
        else .error ⟨"expression too large", expr⟩
      else if expr.length ≤ maxPlain then .ok (.parsed tree)
      else lib.answer expr
    | .error e => if expr.length ≤ maxPlain then .error e else lib.answer expr
    | .unmodelled => lib.answer expr
  else lib.answer expr

/-- The expression a quoted literal parses to, without the leading `^`: its runes one
after the other, then the end of the text. -/
def litChain (p : List Char) : Tree :=
  (p.map Tree.literal).foldr Tree.concat Tree.endText

/-- A position in the text being searched: whether it is the very beginning, and what is
left to read. -/
abbrev Pos := Bool × List Char

/-- The positions reachable by repeating `step` any number of times. An iteration that
consumes nothing leads back to the position it started from, so only iterations that
consume text are followed, and there can be no more of those than characters left. -/
def starEnds (step : Bool → List Char → List Pos) : Nat → Bool → List Char → List Pos
  | 0, b, s => [(b, s)]
  | fuel + 1, b, s =>
    (b, s) :: ((step b s).filter (fun p => p.2.length < s.length)).flatMap
      (fun p => starEnds step fuel p.1 p.2)

/-- All positions at which a match of the expression that starts at the given position
can end. -/
def Tree.ends : Tree → Bool → List Char → List Pos
  | .emptyMatch, b, s => [(b, s)]
  | .literal c, _, s =>
    match s with
    | [] => []
    | x :: t => if x = c then [(false, t)] else []
  | .anyCharNotNL, _, s =>
    match s with
    | [] => []
    | x :: t => if x = '\n' then [] else [(false, t)]
  | .beginText, b, s => if b then [(b, s)] else []
  | .endText, b, s => if s.isEmpty then [(b, s)] else []
  | .concat a c, b, s => (a.ends b s).flatMap (fun p => c.ends p.1 p.2)
  | .alternate a c, b, s => a.ends b s ++ c.ends b s
  | .star a, b, s => starEnds a.ends s.length b s
  | .plus a, b, s => (a.ends b s).flatMap (fun p => starEnds a.ends p.2.length p.1 p.2)
  | .quest a, b, s => (b, s) :: a.ends b s
  | .capture a, b, s => a.ends b s

/-- Whether the expression matches somewhere at or after the given position. -/
def Tree.search (re : Tree) : Bool → List Char → Bool
  | b, [] => !(re.ends b []).isEmpty
  | b, x :: t => !(re.ends b (x :: t)).isEmpty || re.search false t

/-- Whether the whole of the text, from its first to its last character, is one match of
the expression. -/
def Tree.fullMatch (re : Tree) (s : String) : Bool :=
  (re.ends true s.data).any (fun p => p.2.isEmpty)

/-- Go `(*Regexp).MatchString`: whether the text contains any match of the expression. -/
def Regexp.MatchString (lib : Library) : Regexp → String → Bool
  | .parsed tree, s => tree.search true s.data
  | .library expr, s => lib.MatchString expr s

end regexp

/-! ## Go's `%q` verb -/

namespace strconv

/-- The sixteen digits Go's `lowerhex` holds. -/
def lowerhex (n : Nat) : Char :=
  "0123456789abcdef".data.getD (n % 16) '0'

/-- The `width` lowest hexadecimal digits of `n`, highest first. -/
def hexDigits (width n : Nat) : List Char :=
  (List.range width).reverse.map (fun i => lowerhex (n / 16 ^ i))

/-- Go `strconv.IsPrint`. Latin-1 is decided in the code itself; for the runes above
U+00FF Go consults tables generated from the Unicode data, which are taken here as the
parameter `table`. -/
def IsPrint (table : Char → Bool) (r : Char) : Bool :=
  if r.toNat ≤ 0xFF then
    if 0x20 ≤ r.toNat ∧ r.toNat ≤ 0x7E then true
    else if 0xA1 ≤ r.toNat ∧ r.toNat ≤ 0xFF then r.toNat ≠ 0xAD
    else false
  else table r

/-- Go `appendEscapedRune` with the double quote as quote character, as `Quote` uses
it. -/
def escapedRune (table : Char → Bool) (r : Char) : List Char :=
  if r = '"' ∨ r = '\\' then ['\\', r]
  else if IsPrint table r then [r]
  else if r.toNat = 7 then ['\\', 'a']
  else if r.toNat = 8 then ['\\', 'b']
  else if r.toNat = 12 then ['\\', 'f']
  else if r = '\n' then ['\\', 'n']
  else if r = '\r' then ['\\', 'r']
  else if r = '\t' then ['\\', 't']
  else if r.toNat = 11 then ['\\', 'v']
  else if r.toNat < 0x20 ∨ r.toNat = 0x7F then '\\' :: 'x' :: hexDigits 2 r.toNat
  else if r.toNat < 0x10000 then '\\' :: 'u' :: hexDigits 4 r.toNat
  else '\\' :: 'U' :: hexDigits 8 r.toNat

/-- Go `strconv.Quote`, which is what `%q` prints for a string: the text between double
quotes, with quotes, backslashes and non-printable runes escaped. -/
def Quote (table : Char → Bool) (s : String) : String :=
  String.mk ('"' :: s.data.flatMap (escapedRune table) ++ ['"'])

end strconv

/-! ## Go's `strings` package -/

namespace strings

/-- Go `strings.HasPrefix`. -/
def HasPrefix (s pre : String) : Bool :=
  pre.data.isPrefixOf s.data

/-- Go `strings.HasSuffix`. -/
def HasSuffix (s suf : String) : Bool :=
  suf.data.isSuffixOf s.data

/-- Go `strings.TrimPrefix`. -/
def TrimPrefix (s pre : String) : String :=
  if HasPrefix s pre then String.mk (s.data.drop pre.data.length) else s

/-- Go `strings.TrimSuffix`. -/
def TrimSuffix (s suf : String) : String :=
  if HasSuffix s suf then String.mk (s.data.take (s.data.length - suf.data.length)) else s

/-- Go `strings.Contains`. -/
def Contains (s substr : String) : Bool :=
  s.data.tails.any (fun t => substr.data.isPrefixOf t)

/-- Go `strings.Index`: where the first instance of `sep` starts, counted in runes. -/
def Index : List Char → List Char → Option Nat
  | [], sep => if sep.isEmpty then some 0 else none
  | c :: t, sep =>
    if sep.isPrefixOf (c :: t) then some 0 else (Index t sep).map (fun m => m + 1)

/-- Go `explode`: the text rune by rune, into at most `n` pieces, the last piece taking
what is left. -/
def explode : List Char → Nat → List (List Char)
  | [], _ => []
  | _ :: _, 0 => []
  | c :: t, 1 => [c :: t]
  | c :: t, n + 2 => [c] :: explode t (n + 1)

/-- The loop of Go `genSplit`: cuts at the first instance of the separator, at most
`k` times. -/
def genSplitLoop (sep : List Char) : Nat → List Char → List (List Char)
  | 0, s => [s]
  | k + 1, s =>
    match Index s sep with
    | none => [s]
    | some m => s.take m :: genSplitLoop sep k (s.drop (m + sep.length))

/-- Go `strings.SplitN` for a count `n` that is not negative. -/
def SplitN (s sep : String) (n : Nat) : List String :=
  if n = 0 then []
  else if sep.data.isEmpty then (explode s.data n).map String.mk
  else (genSplitLoop sep.data (n - 1) s.data).map String.mk

end strings

/-! ## `pkg/config`: the `cleanup` section -/

namespace config

/-- A value of Go type `interface{}` as the YAML decoder stores it in an inline map. -/
inductive YamlValue where
  | null
  | scalar (text : String)
  | sequence (items : List YamlValue)
  | mapping (entries : List (String × YamlValue))

/-- A configuration error. -/
structure ConfigError where
  message : String
  deriving DecidableEq, Repr

/-- Modelled from the spec: `newDetailedConfigError` is not among the sources. The spec
(§4.1, §6) asks for a structured error naming the offending field and its place in the
document; what the callers in this file decide is the message, which the error carries
as given. The dump of the section and of the document is left out. -/
def newDetailedConfigError (message : String) : ConfigError :=
  ⟨message⟩

/-- Modelled from the spec: `checkOverflow` is not among the sources. §4.1: "Unknown/
unrecognized fields anywhere in the policy tree are rejected"; §9: "an explicit
unknown-fields rejection pass at each nesting level". It answers with a configuration
error exactly when the inline map that collected the unnamed fields of a section is not
empty; the wording of the message is not specified. -/
def checkOverflow (m : List (String × YamlValue)) : Except ConfigError Unit :=
  if m.isEmpty then .ok ()
  else .error (newDetailedConfigError
    ("unknown fields: " ++ String.intercalate ", " (m.map (fun kv => kv.1))))

/-- What decoding a section gives: `ok` with the struct as filled in when the Go method
returns nil, `error` when it returns an error. -/
inductive Decoded (α : Type) where
  | ok (v : α)
  | error (e : ConfigError)

/-- Whether decoding succeeded. -/
def Decoded.isOk {α : Type} : Decoded α → Bool
  | .ok _ => true
  | _ => false

/-- The decoder on an optional nested section (a pointer field): an absent key, or a key
whose value is null, leaves the field nil; a mapping is decoded by `f`. -/
def decodeOptional {α β : Type} (f : α → Decoded β) : Option α → Decoded (Option β)
  | none => .ok none
  | some a =>
    match f a with
    | .ok b => .ok (some b)
    | .error e => .error e

/-- The decoder on a sequence of pointers to sections: item after item, stopping at the
first one that fails. For a null item (`none`) the decoder stores a nil pointer and does
not call the decoding method of the section. -/
def decodeList {α β : Type} (f : α → Decoded β) : List (Option α) → Decoded (List (Option β))
  | [] => .ok []
  | none :: rest =>
    match decodeList f rest with
    | .ok bs => .ok (none :: bs)
    | .error e => .error e
  | some a :: rest =>
    match f a with
    | .ok b =>
      match decodeList f rest with
      | .ok bs => .ok (some b :: bs)
      | .error e => .error e
    | .error e => .error e

/-- Go `type Operator string` (declared outside the sources shown). -/
abbrev Operator := String

def DefaultKeepImagesBuiltWithinLastNHours : Nat := 2

/-- The fields the decoder fills of `rawMetaCleanupKeepPolicyReferencesLimit`, each under
the key of its struct tag; `In` is a `time.Duration`, in nanoseconds. -/
structure rawMetaCleanupKeepPolicyReferencesLimit where
  /-- Key `last`. -/
  Last : Option Int
  /-- Key `in`. -/
  In : Option Int
  /-- Key `operator`. -/
  Operator : Option Operator
  /-- Every other key of the mapping (`yaml:",inline"`). -/
  UnsupportedAttributes : List (String × YamlValue)

/-- Go `type rawMetaCleanupKeepPolicyImagesPerReference rawMetaCleanupKeepPolicyReferencesLimit`:
a type of its own with the same fields and none of the methods. -/
structure rawMetaCleanupKeepPolicyImagesPerReference where
  Last : Option Int
  In : Option Int
  Operator : Option Operator
  UnsupportedAttributes : List (String × YamlValue)

/-- Go `rawMetaCleanupKeepPolicyReferences` after decoding; the two matchers carry the tag
`yaml:"-"` and are set by `UnmarshalYAML` only. -/
structure rawMetaCleanupKeepPolicyReferences where
  Tag : String
  Branch : String
  Limit : Option rawMetaCleanupKeepPolicyReferencesLimit
  TagRegexp : Option regexp.Regexp
  BranchRegexp : Option regexp.Regexp
  UnsupportedAttributes : List (String × YamlValue)

/-- Go `rawMetaCleanupKeepPolicy` after decoding. -/
structure rawMetaCleanupKeepPolicy where
  References : Option rawMetaCleanupKeepPolicyReferences
  ImagesPerReference : Option rawMetaCleanupKeepPolicyImagesPerReference
  UnsupportedAttributes : List (String × YamlValue)

/-- Go `rawMetaCleanup` after decoding. `KeepPolicies` is a slice of pointers, `none` the
nil pointer; `KeepImagesBuiltWithinLastNHours` is a pointer to a `uint64`. -/
structure rawMetaCleanup where
  DisableCleanup : Bool
  DisableKubernetesBasedPolicy : Bool
  DisableGitHistoryBasedPolicy : Bool
  DisableBuiltWithinLastNHoursPolicy : Bool
  KeepPolicies : List (Option rawMetaCleanupKeepPolicy)
  KeepImagesBuiltWithinLastNHours : Option Nat
  UnsupportedAttributes : List (String × YamlValue)

/-! The YAML mappings as the decoder reads them: each key a struct tag names, resolved to
the Go type of its field (an absent key gives the zero value, and so does a null), every
other key in the inline map, and the nested sections still to be decoded. A mapping whose
scalar does not fit the type of its field makes the decoder fail before any check below
and has no representation here; the scalars under the keys of the cleanup mapping itself
are decoded by `node.Cleanup.assign` further down. -/

namespace node

/-- The mapping under `references`. -/
structure References where
  /-- Key `tag`. -/
  Tag : String
  /-- Key `branch`. -/
  Branch : String
  /-- Key `limit`. -/
  Limit : Option rawMetaCleanupKeepPolicyReferencesLimit
  /-- Every other key of the mapping. -/
  UnsupportedAttributes : List (String × YamlValue)

/-- One item of the sequence under `keepPolicies`. -/
structure KeepPolicy where
  /-- Key `references`. -/
  References : Option References
  /-- Key `imagesPerReference`. -/
  ImagesPerReference : Option rawMetaCleanupKeepPolicyImagesPerReference
  /-- Every other key of the mapping. -/
  UnsupportedAttributes : List (String × YamlValue)

/-- The mapping of the cleanup section. -/
structure Cleanup where
  /-- Key `disable`. -/
  DisableCleanup : Bool
  /-- Key `disableKubernetesBasedPolicy`. -/
  DisableKubernetesBasedPolicy : Bool
  /-- Key `disableGitHistoryBasedPolicy`. -/
  DisableGitHistoryBasedPolicy : Bool
  /-- Key `disableBuiltWithinLastNHoursPolicy`. -/
  DisableBuiltWithinLastNHoursPolicy : Bool
  /-- Key `keepPolicies`: the items of the sequence, `none` for a null item. -/
  KeepPolicies : List (Option KeepPolicy)
  /-- Key `keepImagesBuiltWithinLastNHours`. -/
  KeepImagesBuiltWithinLastNHours : Option Nat
  /-- Every other key of the mapping. -/
  UnsupportedAttributes : List (String × YamlValue)

end node

/-- The first half of Go `(*rawMetaCleanupKeepPolicyReferences).processRegexpString`: the
expression `expr` that is handed to `regexp.Compile`. -/
def anchoredExpr (configValue : String) : String :=
  let value : String :=
    if strings.HasPrefix configValue "/" ∧ strings.HasSuffix configValue "/" then
      strings.TrimSuffix (strings.TrimPrefix configValue "/") "/"
    else
      String.mk (regexp.QuoteMeta configValue.data)
  "^" ++ value ++ "$"

/-- Go `(*rawMetaCleanupKeepPolicyReferences).processRegexpString`. `lib` is Go's
`regexp` package where `regexp.Compile` of this file hands over to it, `table` the table
behind `strconv.IsPrint`, which `%q` consults. -/
def processRegexpString (lib : regexp.Library) (table : Char → Bool)
    (name configValue : String) : Decoded regexp.Regexp :=
  match regexp.Compile lib (anchoredExpr configValue) with
  | .ok regex => .ok regex
  | .error err =>
    .error (newDetailedConfigError
      ("invalid value " ++ strconv.Quote table configValue ++ " for " ++
        strconv.Quote table name ++ ": " ++ err.String))

/-- Go `(*rawMetaCleanupKeepPolicyReferencesLimit).UnmarshalYAML`. -/
def rawMetaCleanupKeepPolicyReferencesLimit.UnmarshalYAML (table : Char → Bool)
    (c : rawMetaCleanupKeepPolicyReferencesLimit) :
    Decoded rawMetaCleanupKeepPolicyReferencesLimit :=
  match checkOverflow c.UnsupportedAttributes with
  | .error e => .error e
  | .ok _ =>
    match c.Operator with
    | some op =>
      if op ≠ "Or" ∧ op ≠ "And" then
        .error (newDetailedConfigError
          ("unsupported value " ++ strconv.Quote table op ++ " for `operator: Or|And`!"))
      else .ok c
    | none => .ok c

/-- Go `(*rawMetaCleanupKeepPolicyReferences).UnmarshalYAML`. The nested `limit` is
decoded during the `unmarshal` call, before the checks of this section. -/
def rawMetaCleanupKeepPolicyReferences.UnmarshalYAML (lib : regexp.Library)
    (table : Char → Bool) (n : node.References) : Decoded rawMetaCleanupKeepPolicyReferences :=
  match decodeOptional (rawMetaCleanupKeepPolicyReferencesLimit.UnmarshalYAML table) n.Limit with
  | .error e => .error e
  | .ok limit =>
    match checkOverflow n.UnsupportedAttributes with
    | .error e => .error e
    | .ok _ =>
      if n.Tag = "" ∧ n.Branch = "" then
        .error (newDetailedConfigError
          "tag `tag: string|REGEX` or branch `branch: string|REGEX` required for cleanup keep policy!")
      else if n.Tag ≠ "" ∧ n.Branch ≠ "" then
        .error (newDetailedConfigError
          "specify only tag `tag: string|REGEX` or branch `branch: string|REGEX` for cleanup keep policy!")
      else if n.Branch ≠ "" then
        match processRegexpString lib table "branch" n.Branch with
        | .error e => .error e
        | .ok regex => .ok ⟨n.Tag, n.Branch, limit, none, some regex, n.UnsupportedAttributes⟩
      else
        match processRegexpString lib table "tag" n.Tag with
        | .error e => .error e
        | .ok regex => .ok ⟨n.Tag, n.Branch, limit, some regex, none, n.UnsupportedAttributes⟩

/-- Go `(*rawMetaCleanupKeepPolicy).UnmarshalYAML`. `references` has a decoding method of
its own, which runs during the `unmarshal` call; `imagesPerReference` has none, so the
decoder fills its struct and nothing else happens to it. -/
def rawMetaCleanupKeepPolicy.UnmarshalYAML (lib : regexp.Library) (table : Char → Bool)
    (n : node.KeepPolicy) : Decoded rawMetaCleanupKeepPolicy :=
  match decodeOptional (rawMetaCleanupKeepPolicyReferences.UnmarshalYAML lib table)
      n.References with
  | .error e => .error e
  | .ok references =>
    match checkOverflow n.UnsupportedAttributes with
    | .error e => .error e
    | .ok _ =>
      match references with
      | none => .error (newDetailedConfigError "cleanup keep policy must have references section!")
      | some _ => .ok ⟨references, n.ImagesPerReference, n.UnsupportedAttributes⟩

/-- Go `(*rawMetaCleanup).UnmarshalYAML`. The items of `keepPolicies` are decoded during
the `unmarshal` call: each mapping by the method of the keep policy, each null item to a
nil pointer. -/
def rawMetaCleanup.UnmarshalYAML (lib : regexp.Library) (table : Char → Bool)
    (n : node.Cleanup) : Decoded rawMetaCleanup :=
  match decodeList (rawMetaCleanupKeepPolicy.UnmarshalYAML lib table) n.KeepPolicies with
  | .error e => .error e
  | .ok policies =>
    match checkOverflow n.UnsupportedAttributes with
    | .error e => .error e
    | .ok _ =>
      .ok ⟨n.DisableCleanup, n.DisableKubernetesBasedPolicy, n.DisableGitHistoryBasedPolicy,
        n.DisableBuiltWithinLastNHoursPolicy, policies, n.KeepImagesBuiltWithinLastNHours,
        n.UnsupportedAttributes⟩

/-! The cleanup mapping key by key. The YAML decoder matches each key of the mapping
against the names in the struct tags of `rawMetaCleanup`, exactly and with regard to
case; a key that matches sets its field, any other key goes to the inline map. -/

/-- A YAML scalar as the decoder resolves it before it looks at the type of the field (Go
`resolve` of yaml.v2): null, a boolean, an integer (a Go `int` or `uint64`, so from
`-2^63` to `2^64 - 1`; a longer run of digits is resolved to a float), a float (the finite
`float64` that is `mantissa * 2^exponent`, an infinity or a NaN), or a string. -/
inductive Scalar where
  | null
  | bool (b : Bool)
  | int (n : Int)
  | float (mantissa exponent : Int)
  | inf (negative : Bool)
  | nan
  | str (s : String)

/-- The decoder on a scalar for a field of type `bool`: a null gives the zero value, a
boolean itself, and nothing else fits. -/
def Scalar.toBool : Scalar → Option Bool
  | .null => some false
  | .bool b => some b
  | _ => none

/-- Go's conversion `uint64(f)` of the finite float `mantissa * 2^exponent` where the Go
specification defines it: the fraction is discarded, and the result is the remaining
integer when that is a `uint64`. -/
def truncated (mantissa exponent : Int) : Int :=
  if 0 ≤ exponent then mantissa * 2 ^ exponent.toNat
  else Int.tdiv mantissa (2 ^ (-exponent).toNat)

/-- The test `resolved <= math.MaxUint64` of the decoder on the finite float
`mantissa * 2^exponent`: the float is not above the constant, which the conversion to
`float64` makes `2^64`. -/
def atMostMaxUint64 (mantissa exponent : Int) : Bool :=
  if 0 ≤ exponent then !decide (18446744073709551616 < mantissa * 2 ^ exponent.toNat)
  else !decide (18446744073709551616 * 2 ^ (-exponent).toNat < mantissa)

/-- The decoder on a scalar for a field of type `*uint64`; the outer `none` is a scalar
that does not fit, the inner one the nil pointer. A null leaves the pointer nil. An
integer fits when it is not negative. A float fits when it is at most `math.MaxUint64`,
and is converted with `uint64(resolved)`: truncated, and where the truncated number is no
`uint64` the result is what the platform makes of it, `conv`. The number
18446744073709551616 is `2^64`. -/
def Scalar.toUint64 (conv : Scalar → Nat) : Scalar → Option (Option Nat)
  | .null => some none
  | .int n => if 0 ≤ n ∧ n.toNat < 18446744073709551616 then some (some n.toNat) else none
  | .float m e =>
    if atMostMaxUint64 m e then
      if 0 ≤ truncated m e ∧ (truncated m e).toNat < 18446744073709551616 then
        some (some (truncated m e).toNat)
      else some (some (conv (.float m e) % 18446744073709551616))
    else none
  | .inf negative =>
    if negative then some (some (conv (.inf negative) % 18446744073709551616)) else none
  | _ => none

/-- A YAML node under a key of the cleanup mapping: the node as the inline map would hold
it, what the decoder resolves it to when it is a scalar, and what the decoder makes of it
for the field `KeepPolicies` (`none` where the node does not fit the type and the decoder
reports an error; a null node gives the empty list). -/
structure node.Resolved where
  raw : YamlValue
  scalar : Option Scalar
  asKeepPolicies : Option (List (Option node.KeepPolicy))

/-- The section before any key is read: every field at its zero value. -/
def node.Cleanup.zero : node.Cleanup :=
  ⟨false, false, false, false, [], none, []⟩

/-- The error of the decoder itself for a node that does not fit its field, kept in the
type of the configuration errors. -/
def yamlTypeError (key : String) : ConfigError :=
  ⟨"yaml: unmarshal errors: cannot unmarshal the value of " ++ key⟩

/-- The decoder on a node for a field of type `bool`. -/
def node.Resolved.asBool (v : node.Resolved) : Option Bool :=
  v.scalar.bind Scalar.toBool

/-- The decoder on a node for a field of type `*uint64`. -/
def node.Resolved.asUint64 (conv : Scalar → Nat) (v : node.Resolved) : Option (Option Nat) :=
  v.scalar.bind (Scalar.toUint64 conv)

/-- The decoder on one key of the cleanup mapping, by the struct tags of `rawMetaCleanup`:
`disable`, `disableKubernetesBasedPolicy`, `disableGitHistoryBasedPolicy`,
`disableBuiltWithinLastNHoursPolicy`, `keepPolicies`, `keepImagesBuiltWithinLastNHours`,
and `,inline` for the rest. -/
def node.Cleanup.assign (conv : Scalar → Nat) (c : node.Cleanup) (key : String)
    (v : node.Resolved) : Except ConfigError node.Cleanup :=
  if key = "disable" then
    match v.asBool with
    | some b => .ok { c with DisableCleanup := b }
    | none => .error (yamlTypeError key)
  else if key = "disableKubernetesBasedPolicy" then
    match v.asBool with
    | some b => .ok { c with DisableKubernetesBasedPolicy := b }
    | none => .error (yamlTypeError key)
  else if key = "disableGitHistoryBasedPolicy" then
    match v.asBool with
    | some b => .ok { c with DisableGitHistoryBasedPolicy := b }
    | none => .error (yamlTypeError key)
  else if key = "disableBuiltWithinLastNHoursPolicy" then
    match v.asBool with
    | some b => .ok { c with DisableBuiltWithinLastNHoursPolicy := b }
    | none => .error (yamlTypeError key)
  else if key = "keepPolicies" then
    match v.asKeepPolicies with
    | some ps => .ok { c with KeepPolicies := ps }
    | none => .error (yamlTypeError key)
  else if key = "keepImagesBuiltWithinLastNHours" then
    match v.asUint64 conv with
    | some k => .ok { c with KeepImagesBuiltWithinLastNHours := k }
    | none => .error (yamlTypeError key)
  else
    .ok { c with UnsupportedAttributes := c.UnsupportedAttributes ++ [(key, v.raw)] }

/-- The decoder on the keys of the cleanup mapping, in the order of the document,
starting from the section `c`. -/
def node.Cleanup.assignAll (conv : Scalar → Nat) (c : node.Cleanup) :
    List (String × node.Resolved) → Except ConfigError node.Cleanup
  | [] => .ok c
  | (key, v) :: rest =>
    match c.assign conv key v with
    | .ok c' => node.Cleanup.assignAll conv c' rest
    | .error e => .error e

/-- Go `(*rawMetaCleanup).UnmarshalYAML` on a cleanup mapping given key by key. -/
def rawMetaCleanup.UnmarshalMapping (lib : regexp.Library) (table : Char → Bool)
    (conv : Scalar → Nat) (m : List (String × node.Resolved)) : Decoded rawMetaCleanup :=
  match node.Cleanup.zero.assignAll conv m with
  | .ok n => rawMetaCleanup.UnmarshalYAML lib table n
  | .error e => .error e

/-- Modelled from the spec: the converted limit of a policy (`RetentionLimit`, §3), built
by `NewMetaCleanupKeepPolicyReferencesLimit` and
`NewMetaCleanupKeepPolicyImagesPerReference`, which are not among the sources; it holds
the three values it is given. -/
structure MetaCleanupKeepPolicyLimit where
  Last : Option Int
  In : Option Int
  Operator : Option Operator

/-- Go `MetaCleanupKeepPolicyReferences` (declared outside the sources shown), with the
fields this file assigns. -/
structure MetaCleanupKeepPolicyReferences where
  TagRegexp : Option regexp.Regexp
  BranchRegexp : Option regexp.Regexp
  Limit : Option MetaCleanupKeepPolicyLimit

/-- Go `MetaCleanupKeepPolicy` (declared outside the sources shown). `References` is a
struct value in Go; its zero value has neither matcher nor limit. -/
structure MetaCleanupKeepPolicy where
  References : MetaCleanupKeepPolicyReferences
  ImagesPerReference : Option MetaCleanupKeepPolicyLimit

/-- Go `MetaCleanup` (declared outside the sources shown), with the fields this file
assigns. -/
structure MetaCleanup where
  DisableCleanup : Bool
  DisableKubernetesBasedPolicy : Bool
  DisableGitHistoryBasedPolicy : Bool
  DisableBuiltWithinLastNHoursPolicy : Bool
  KeepPolicies : List MetaCleanupKeepPolicy
  KeepImagesBuiltWithinLastNHours : Nat

/-- Go `(*rawMetaCleanupKeepPolicyReferences).toMetaCleanupKeepPolicyReferences`. -/
def rawMetaCleanupKeepPolicyReferences.toMetaCleanupKeepPolicyReferences
    (c : rawMetaCleanupKeepPolicyReferences) : MetaCleanupKeepPolicyReferences :=
  { BranchRegexp := c.BranchRegexp
    TagRegexp := c.TagRegexp
    Limit := c.Limit.map (fun l => ⟨l.Last, l.In, l.Operator⟩) }

/-- Go `(*rawMetaCleanupKeepPolicy).toMetaCleanupKeepPolicy`. -/
def rawMetaCleanupKeepPolicy.toMetaCleanupKeepPolicy
    (c : rawMetaCleanupKeepPolicy) : MetaCleanupKeepPolicy :=
  { References :=
      match c.References with
      | some r => r.toMetaCleanupKeepPolicyReferences
      | none => ⟨none, none, none⟩
    ImagesPerReference := c.ImagesPerReference.map (fun l => ⟨l.Last, l.In, l.Operator⟩) }

/-- How a Go call that returns no error ends: it returns, or it ends in a run-time
panic. -/
inductive Run (α : Type) where
  | returns (v : α)
  | panics (msg : String)

/-- The loop of `toMetaCleanup` over `c.KeepPolicies`, with the policies converted so
far. The method `toMetaCleanupKeepPolicy` has a pointer receiver and reads its fields at
once, so the call on a nil policy is a run-time panic. -/
def toMetaCleanupLoop :
    List (Option rawMetaCleanupKeepPolicy) → List MetaCleanupKeepPolicy →
      Run (List MetaCleanupKeepPolicy)
  | [], acc => .returns acc
  | none :: _, _ => .panics "runtime error: invalid memory address or nil pointer dereference"
  | some policy :: rest, acc => toMetaCleanupLoop rest (acc ++ [policy.toMetaCleanupKeepPolicy])

/-- Go `(*rawMetaCleanup).toMetaCleanup`. -/
def rawMetaCleanup.toMetaCleanup (c : rawMetaCleanup) : Run MetaCleanup :=
  match toMetaCleanupLoop c.KeepPolicies [] with
  | .panics msg => .panics msg
  | .returns policies =>
    .returns
      { DisableKubernetesBasedPolicy := c.DisableKubernetesBasedPolicy
        DisableBuiltWithinLastNHoursPolicy := c.DisableBuiltWithinLastNHoursPolicy
        DisableGitHistoryBasedPolicy := c.DisableGitHistoryBasedPolicy
        DisableCleanup := c.DisableCleanup
        KeepPolicies := policies
        KeepImagesBuiltWithinLastNHours :=
          match c.KeepImagesBuiltWithinLastNHours with
          | some v => v
          | none => DefaultKeepImagesBuiltWithinLastNHours }

end config

/-! ## `pkg/cleaning/git_history_based_cleanup`: the commit cache -/

namespace git_history_based_cleanup

/-- Go-git `plumbing.Hash`, twenty bytes, read as one number. -/
abbrev Hash := Fin (2 ^ 160)

/-- Go-git `plumbing.Hash.String`: the forty hexadecimal digits of the hash. -/
def Hash.String (h : Hash) : String :=
  String.mk (strconv.hexDigits 40 h.val)

/-- Go-git `object.Commit`, with the parts the cleanup reads. -/
structure Commit where
  ParentHashes : List Hash
  When : Int
  Hash : Hash
  deriving DecidableEq, Repr

/-- Go-git `git.Repository`, as far as the cache uses it. `objects k h` is what reading
commit `h` answers when `k` reads have been made before (the repository on disk may change
between reads); `reads` records the reads made so far, latest first, each with whether it
succeeded. -/
structure Repository where
  objects : Nat → Hash → Except String Commit
  reads : List (Hash × Bool)

/-- Go-git `(*git.Repository).CommitObject`. -/
def Repository.CommitObject (r : Repository) (h : Hash) : Except String Commit × Repository :=
  let res := r.objects r.reads.length h
  (res, { r with reads := (h, res.isOk) :: r.reads })

/-- Go `GitRepositoryWithCache`. `CommitCache` is a `sync.Map`, kept as an association
list with one entry per key; the mutex has no counterpart, since calls are modelled one
after the other. -/
structure GitRepositoryWithCache where
  GitRepo : Repository
  CommitCache : List (Hash × Commit)

/-- Go `NewGitRepositoryWithCache`, after `PlainOpen` has succeeded. -/
def NewGitRepositoryWithCache (gitRepository : Repository) : GitRepositoryWithCache :=
  { GitRepo := gitRepository, CommitCache := [] }

/-- Go `(*GitRepositoryWithCache).getFromCache` (`sync.Map.Load`). -/
def GitRepositoryWithCache.getFromCache (g : GitRepositoryWithCache) (commitHash : Hash) :
    Option Commit :=
  (g.CommitCache.find? (fun kv => kv.1 = commitHash)).map (fun kv => kv.2)

/-- Go `(*GitRepositoryWithCache).addToCache` (`sync.Map.Store`): the value of the key is
set, replacing an earlier one. -/
def GitRepositoryWithCache.addToCache (g : GitRepositoryWithCache) (commitHash : Hash)
    (obj : Commit) : GitRepositoryWithCache :=
  { g with CommitCache :=
      (commitHash, obj) :: g.CommitCache.filter (fun kv => kv.1 ≠ commitHash) }

/-- Go `(*GitRepositoryWithCache).ClearCache`. -/
def GitRepositoryWithCache.ClearCache (g : GitRepositoryWithCache) : GitRepositoryWithCache :=
  { g with CommitCache := [] }

/-- Go `(*GitRepositoryWithCache).CommitObject`: the result and the state afterwards. -/
def GitRepositoryWithCache.CommitObject (g : GitRepositoryWithCache) (commitHash : Hash) :
    Except String Commit × GitRepositoryWithCache :=
  match g.getFromCache commitHash with
  | some c => (.ok c, g)
  | none =>
    match g.getFromCache commitHash with
    | some c => (.ok c, g)
    | none =>
      match g.GitRepo.CommitObject commitHash with
      | (.error err, repo) =>
        (.error ("unable to get commit object for " ++ commitHash.String ++ ": " ++ err),
          { g with GitRepo := repo })
      | (.ok c, repo) => (.ok c, ({ g with GitRepo := repo }).addToCache commitHash c)

/-- A sequence of `CommitObject` calls, one after the other, with no `ClearCache` in
between: the state after the last call. -/
def runCommitObjects (g : GitRepositoryWithCache) : List Hash → GitRepositoryWithCache
  | [] => g
  | h :: rest => runCommitObjects (g.CommitObject h).2 rest

/-! Concurrent callers. Each caller of `CommitObject` moves through the method one shared
operation at a time: a lookup in the `sync.Map`, `Lock`, the second lookup, the read of
the repository (which takes time: it begins, and later ends), the store, and the deferred
`Unlock`. The operations of different callers interleave in any order. -/

/-- Where a caller of `CommitObject` stands. -/
inductive Pc where
  /-- Before the first `getFromCache`. -/
  | start
  /-- The first lookup missed; before `g.mu.Lock()`. -/
  | waiting
  /-- Holds the mutex; before the second `getFromCache`. -/
  | locked
  /-- `g.GitRepo.CommitObject` is under way. -/
  | reading
  /-- The read has returned a commit; before `addToCache`. -/
  | fetched (c : Commit)
  /-- About to return `res`; before the deferred `g.mu.Unlock()`. -/
  | unlocking (res : Except String Commit)
  /-- `CommitObject` has returned `res`. -/
  | returned (res : Except String Commit)

/-- Whether a caller at this place holds the mutex. -/
def Pc.critical : Pc → Bool
  | .locked => true
  | .reading => true
  | .fetched _ => true
  | .unlocking _ => true
  | _ => false

/-- Whether a caller at this place has seen its read of the repository fail. -/
def Pc.failed : Pc → Bool
  | .unlocking (.error _) => true
  | .returned (.error _) => true
  | _ => false

/-- The number of operations a caller at this place has at most still to make before it
has returned. -/
def Pc.remaining : Pc → Nat
  | .start => 6
  | .waiting => 5
  | .locked => 4
  | .reading => 3
  | .fetched _ => 2
  | .unlocking _ => 1
  | .returned _ => 0

/-- One `GitRepositoryWithCache` with its callers: `mu` says which caller holds the
mutex, `pc` where each caller stands. -/
structure Shared where
  g : GitRepositoryWithCache
  mu : Option Nat
  pc : Nat → Pc

/-- All callers about to call, nobody holding the mutex. -/
def Shared.init (g : GitRepositoryWithCache) : Shared :=
  { g := g, mu := none, pc := fun _ => .start }

/-- The next operation of caller `i`, who asks for the commit `hash i`; `none` when the
caller cannot move: it waits for the mutex, or it has returned. -/
def Shared.step (hash : Nat → Hash) (s : Shared) (i : Nat) : Option Shared :=
  match s.pc i with
  | .start =>
    match s.g.getFromCache (hash i) with
    | some c => some { s with pc := Function.update s.pc i (.returned (.ok c)) }
    | none => some { s with pc := Function.update s.pc i .waiting }
  | .waiting =>
    match s.mu with
    | some _ => none
    | none => some { s with mu := some i, pc := Function.update s.pc i .locked }
  | .locked =>
    match s.g.getFromCache (hash i) with
    | some c => some { s with pc := Function.update s.pc i (.unlocking (.ok c)) }
    | none => some { s with pc := Function.update s.pc i .reading }
  | .reading =>
    match s.g.GitRepo.CommitObject (hash i) with
    | (.error err, repo) =>
      some { s with
        g := { s.g with GitRepo := repo }
        pc := Function.update s.pc i (.unlocking (.error
          ("unable to get commit object for " ++ (hash i).String ++ ": " ++ err))) }
    | (.ok c, repo) =>
      some { s with
        g := { s.g with GitRepo := repo }
        pc := Function.update s.pc i (.fetched c) }
  | .fetched c =>
    some { s with
      g := s.g.addToCache (hash i) c
      pc := Function.update s.pc i (.unlocking (.ok c)) }
  | .unlocking res =>
    some { s with mu := none, pc := Function.update s.pc i (.returned res) }
  | .returned _ => none

/-- The callers move in the order of the schedule; a caller that cannot move when its
turn comes is passed over. -/
def Shared.run (hash : Nat → Hash) (s : Shared) : List Nat → Shared
  | [] => s
  | i :: rest => Shared.run hash ((s.step hash i).getD s) rest

/-- The number of operations the callers `cs` have at most still to make, all together,
before all of them have returned. -/
def Shared.remaining (s : Shared) (cs : List Nat) : Nat :=
  (cs.map (fun i => (s.pc i).remaining)).sum

/-- A schedule that is fair to the callers `cs`: it goes round by round, and in each round
every caller of `cs` gets a turn, and nobody else. -/
def Fair (cs : List Nat) (rounds : List (List Nat)) : Prop :=
  ∀ round ∈ rounds, (∀ i ∈ round, i ∈ cs) ∧ (∀ i ∈ cs, i ∈ round)

instance (cs : List Nat) (rounds : List (List Nat)) : Decidable (Fair cs rounds) := by
  unfold Fair
  infer_instance

end git_history_based_cleanup

/-! ## `cmd/werf/dismiss`: which release to delete -/

namespace dismiss

/-- The part of `commonCmdData` that `getNamespaceAndRelease` reads: the flags
`--namespace`, `--release` and `--env`, and what `common.GetUseDeployReport` answers. -/
structure CmdData where
  Namespace : String
  Release : String
  Environment : String
  UseDeployReport : Bool

/-- Go `helmrelease.DeployReport`, with the two fields read here. -/
structure DeployReport where
  Namespace : String
  Release : String

/-- What the collaborators of `getNamespaceAndRelease` answer; none of them is among the
sources. `Config` stands for `*config.WerfConfig`; the giterminism manager is behind
`GetRequiredWerfConfig`. -/
structure World (Config : Type) where
  /-- Go `common.GetDeployReportPath(&commonCmdData)`. -/
  GetDeployReportPath : Except String String
  /-- Go `os.ReadFile`. -/
  ReadFile : String → Except String String
  /-- Go `json.Unmarshal` into a `DeployReport`. -/
  Unmarshal : String → Except String DeployReport
  /-- Go `common.GetRequiredWerfConfig`. -/
  GetRequiredWerfConfig : Except String Config
  /-- Go `deploy_params.GetKubernetesNamespace`. -/
  GetKubernetesNamespace : String → String → Config → Except String String
  /-- Go `deploy_params.GetHelmRelease`. -/
  GetHelmRelease : String → String → String → Config → Except String String

/-- What `getNamespaceAndRelease` returns (namespace, release and error, `none` for a nil
error), with the files it has read on the way. -/
abbrev Returned := (String × String × Option String) × List String

/-- Go `getNamespaceAndRelease`. Logging is left out. -/
def getNamespaceAndRelease {Config : Type} (table : Char → Bool) (commonCmdData : CmdData)
    (w : World Config) (gitFound : Bool) : Returned :=
  let namespaceSpecified : Bool := commonCmdData.Namespace ≠ ""
  let releaseSpecified : Bool := commonCmdData.Release ≠ ""
  if commonCmdData.UseDeployReport then
    if namespaceSpecified || releaseSpecified then
      (("", "", some "--namespace or --release can't be used together with --use-deploy-report"),
        [])
    else
      match w.GetDeployReportPath with
      | .error err => (("", "", some ("unable to get deploy report path: " ++ err)), [])
      | .ok deployReportPath =>
        match w.ReadFile deployReportPath with
        | .error err =>
          (("", "", some ("unable to read deploy report file " ++
            strconv.Quote table deployReportPath ++ ": " ++ err)), [deployReportPath])
        | .ok deployReportByte =>
          match w.Unmarshal deployReportByte with
          | .error err =>
            (("", "", some ("unable to unmarshal deploy report file " ++
              strconv.Quote table deployReportPath ++ ": " ++ err)), [deployReportPath])
          | .ok deployReport =>
            if deployReport.Namespace = "" then
              (("", "", some ("unable to get namespace from deploy report file " ++
                strconv.Quote table deployReportPath)), [deployReportPath])
            else if deployReport.Release = "" then
              (("", "", some ("unable to get release from deploy report file " ++
                strconv.Quote table deployReportPath)), [deployReportPath])
            else
              ((deployReport.Namespace, deployReport.Release, none), [deployReportPath])
  else if gitFound then
    match w.GetRequiredWerfConfig with
    | .error err => (("", "", some ("unable to load werf config: " ++ err)), [])
    | .ok werfConfig =>
      match w.GetKubernetesNamespace commonCmdData.Namespace commonCmdData.Environment
          werfConfig with
      | .error err => (("", "", some err), [])
      | .ok ns =>
        match w.GetHelmRelease commonCmdData.Release commonCmdData.Environment ns
            werfConfig with
        | .error err => (("", "", some err), [])
        | .ok release => ((ns, release, none), [])
  else if !gitFound then
    if !namespaceSpecified && !releaseSpecified then
      (("", "", some "no git with werf project found: dismiss should either be executed in a git repository, or with --namespace and --release specified, or with --use-deploy-report"),
        [])
    else if namespaceSpecified && !releaseSpecified then
      (("", "", some "--namespace specified, but not --release, while should be specified both or none"),
        [])
    else if !namespaceSpecified && releaseSpecified then
      (("", "", some "--release specified, but not --namespace, while should be specified both or none"),
        [])
    else
      ((commonCmdData.Namespace, commonCmdData.Release, none), [])
  else
    (("", "", none), [])

end dismiss

/-! ## `pkg/ssh_agent`: the key specification -/

namespace ssh_agent

/-- Go `sshKeyConfig`; `Passphrase` is a byte slice in Go, here the text whose bytes it
holds. -/
structure sshKeyConfig where
  FilePath : String
  Passphrase : String
  deriving DecidableEq, Repr

/-- How a Go call ends: with a value and a nil error, with an error, or in a run-time
panic. -/
inductive Returned (α : Type) where
  | ok (v : α)
  | error (msg : String)
  | panic (msg : String)
  deriving DecidableEq, Repr

/-- The two functions of `github.com/werf/common-go/pkg/util` that `getSshKeyConfig`
calls, not among the sources: `ExpandPath`, and `FileExists` with its two results. -/
structure Files where
  ExpandPath : String → Except String String
  FileExists : String → Bool × Option String

/-- Go `getSshKeyConfig`. Indexing `parts` past its end is a run-time panic. -/
def getSshKeyConfig (table : Char → Bool) (util : Files) (path : String) :
    Returned sshKeyConfig :=
  let expanded : Returned (String × String) :=
    if strings.HasPrefix path "file://" then
      let userinfoWithPath := strings.TrimPrefix path "file://"
      let parts := strings.SplitN userinfoWithPath "@" 2
      match parts with
      | [] => .panic "runtime error: index out of range [0] with length 0"
      | [_] => .panic "runtime error: index out of range [1] with length 1"
      | p0 :: p1 :: _ =>
        match util.ExpandPath p1 with
        | .error err =>
          .error ("error expanding path " ++ strconv.Quote table p1 ++ ": " ++ err)
        | .ok filePath => .ok (filePath, p0)
    else
      match util.ExpandPath path with
      | .error err =>
        .error ("error expanding path " ++ strconv.Quote table path ++ ": " ++ err)
      | .ok filePath => .ok (filePath, "")
  match expanded with
  | .panic msg => .panic msg
  | .error msg => .error msg
  | .ok (filePath, passphrase) =>
    match util.FileExists filePath with
    | (false, _) => .error "specified ssh key does not exist"
    | (true, some err) => .error ("specified ssh key does not exist: " ++ err)
    | (true, none) => .ok ⟨filePath, passphrase⟩

/-- The Go errors of the socket checks: the two sentinels, an error made of a message
alone, and an error that wraps another one behind a message (`%w`). -/
inductive SockError where
  /-- Go `ErrSocketPathTooLong`. -/
  | ErrSocketPathTooLong
  /-- Go `ErrSocketPathEmpty`. -/
  | ErrSocketPathEmpty
  | message (text : String)
  | wrapped (text : String) (err : SockError)
  deriving DecidableEq, Repr

/-- Go `getUnixSocketPathLimit`; `goos` is `runtime.GOOS`. -/
def getUnixSocketPathLimit (goos : String) : Nat :=
  if goos = "darwin" ∨ goos = "freebsd" ∨ goos = "openbsd" ∨ goos = "netbsd" then 104
  else 108

/-- Go `validateSockPathLength`; `none` is the nil error. Go's `len` of a string counts
its bytes. -/
def validateSockPathLength (goos : String) (sockPath : String) : Option SockError :=
  if sockPath.utf8ByteSize > getUnixSocketPathLimit goos then some .ErrSocketPathTooLong
  else none

/-- What the operating system answers to `validateAgentSock`: `Stat` is `os.Stat` with,
on success, whether the mode has `os.ModeSocket`; `Dial` is `net.Dial("unix", _)`, `none`
for a connection. -/
structure Sockets where
  Stat : String → Except String Bool
  Dial : String → Option String

/-- A call `validateAgentSock` made to the operating system. -/
inductive SockCall where
  | stat (path : String)
  | dial (path : String)
  deriving DecidableEq, Repr

/-- Go `validateAgentSock`: its two results, and the calls it made to the operating
system, in order. An error of `os.Stat` is returned as it is. -/
def validateAgentSock (goos : String) (os : Sockets) (sock : String) :
    (Bool × Option SockError) × List SockCall :=
  if sock = "" then ((false, some .ErrSocketPathEmpty), [])
  else
    match validateSockPathLength goos sock with
    | some err =>
      ((false, some (.wrapped ("unable to use system ssh sock '" ++ sock ++ "'") err)), [])
    | none =>
      let dial (calls : List SockCall) : (Bool × Option SockError) × List SockCall :=
        match os.Dial sock with
        | some err =>
          ((false, some (.wrapped ("unable to connect to system ssh-agent socket " ++ sock)
            (.message err))), calls ++ [.dial sock])
        | none => ((true, none), calls ++ [.dial sock])
      if goos ≠ "windows" then
        match os.Stat sock with
        | .error err => ((false, some (.message err)), [.stat sock])
        | .ok isSocket =>
          if !isSocket then
            ((false, some (.message ("system ssh-agent socket `" ++ sock ++
              "` is not a socket"))), [.stat sock])
          else dial [.stat sock]
      else dial []

end ssh_agent

/-! ## `helpers_for_werf_helm`: the service values -/

namespace helpers_for_werf_helm

/-- The values of Go type `interface{}` that the service values hold. -/
inductive Value where
  | str (s : String)
  | bool (b : Bool)
  | int (n : Int)
  | map (entries : List (String × Value))

/-- Go `map[string]interface{}`, kept as a list with one entry per key. -/
abbrev Map := List (String × Value)

/-- Go `v, ok := m[key]`. -/
def Map.lookup : Map → String → Option Value
  | [], _ => none
  | (k, v) :: rest, key => if k = key then some v else Map.lookup rest key

/-- Go `m[key] = v`. -/
def Map.assign : Map → String → Value → Map
  | [], key, v => [(key, v)]
  | (k, old) :: rest, key, v =>
    if k = key then (k, v) :: rest else (k, old) :: Map.assign rest key v

/-- Go `m[outer].(map[string]interface{})[key] = v`: the map under `outer` gets the
entry. `none` stands for the run-time panic of the type assertion, when `outer` is
missing or holds no map. -/
def Map.assignIn (m : Map) (outer key : String) (v : Value) : Option Map :=
  match Map.lookup m outer with
  | some (.map inner) => some (Map.assign m outer (.map (Map.assign inner key v)))
  | _ => none

/-- Go `time.Time`, by what its methods `String` and `Unix` answer. -/
structure Time where
  String : String
  Unix : Int

/-- Go `ServiceValuesOptions`; `CommitDate` is a pointer. -/
structure ServiceValuesOptions where
  Namespace : String
  Env : String
  IsStub : Bool
  StubImageNameList : List String
  DisableEnvStub : Bool
  CommitHash : String
  CommitDate : Option Time
  SetDockerConfigJsonValue : Bool
  DockerConfigPath : String

/-- Go `image.InfoGetter` (declared outside the sources shown), by what its methods
`GetTag`, `GetName`, `IsNameless` and `GetWerfImageName` answer. -/
structure InfoGetter where
  Tag : String
  Name : String
  Nameless : Bool
  WerfImageName : String

/-- What `os.Stat` followed by `os.IsNotExist` tells. -/
inductive StatResult where
  | exists
  | notExist
  | error (msg : String)

/-- What the surroundings answer: the environment, the file system, and the two library
functions `filepath.Join` and `base64.StdEncoding.EncodeToString`. -/
structure System where
  /-- Go `util.GetBoolEnvironmentDefaultFalse("WERF_EXPERIMENT_NO_GLOBAL_SERVICE_VALUES")`. -/
  noGlobalServiceValues : Bool
  /-- Go `os.Getenv("HOME")`. -/
  HOME : String
  Join : String → String → String
  Stat : String → StatResult
  ReadFile : String → Except String String
  EncodeToString : String → String

/-- How a Go call ends: with a value and a nil error, with an error, or in a run-time
panic. -/
inductive Returned (α : Type) where
  | ok (v : α)
  | error (msg : String)
  | panic (msg : String)

/-- Go `exposeGlobalServiceValues`. -/
def exposeGlobalServiceValues (sys : System) : Bool :=
  !sys.noGlobalServiceValues

/-- Go `writeDockerConfigJsonValue`: the error, or the map `values` as the call leaves
it. The notes it logs are left out. -/
def writeDockerConfigJsonValue (table : Char → Bool) (sys : System) (values : Map)
    (dockerConfigPath : String) : Except String Map :=
  let dockerConfigPath :=
    if dockerConfigPath = "" then sys.Join sys.HOME ".docker" else dockerConfigPath
  let configJsonPath := sys.Join dockerConfigPath "config.json"
  match sys.Stat configJsonPath with
  | .notExist => .ok values
  | .error err =>
    .error ("error accessing " ++ strconv.Quote table configJsonPath ++ ": " ++ err)
  | .exists =>
    match sys.ReadFile configJsonPath with
    | .error err =>
      .error ("error reading " ++ strconv.Quote table configJsonPath ++ ": " ++ err)
    | .ok data => .ok (Map.assign values "dockerconfigjson" (.str (sys.EncodeToString data)))

/-- The loop of `GetServiceValues` over `opts.StubImageNameList`. -/
def stubLoop (stubImage stubTag : String) : Map → List String → Option Map
  | werfInfo, [] => some werfInfo
  | werfInfo, name :: rest =>
    match Map.assignIn werfInfo "image" name (.str stubImage) with
    | none => none
    | some withImage =>
      match Map.assignIn withImage "tag" name (.str stubTag) with
      | none => none
      | some withTag => stubLoop stubImage stubTag withTag rest

/-- The loop of `GetServiceValues` over `imageInfoGetters`. -/
def getterLoop : Map → List InfoGetter → Option Map
  | werfInfo, [] => some werfInfo
  | werfInfo, imageInfoGetter :: rest =>
    let tag := imageInfoGetter.Tag
    let image := imageInfoGetter.Name
    if imageInfoGetter.Nameless then
      getterLoop
        (Map.assign (Map.assign werfInfo "is_nameless_image" (.bool true))
          "nameless_image" (.str image))
        rest
    else
      match Map.assignIn werfInfo "image" imageInfoGetter.WerfImageName (.str image) with
      | none => none
      | some withImage =>
        match Map.assignIn withImage "tag" imageInfoGetter.WerfImageName (.str tag) with
        | none => none
        | some withTag => getterLoop withTag rest

/-- Go `GetServiceValues`. `Version` is `werf.Version`. A nil `CommitDate` is
dereferenced by the calls of its methods, which is a run-time panic; the debug log at the
end is left out. -/
def GetServiceValues (table : Char → Bool) (sys : System) (Version : String)
    (projectName repo : String) (imageInfoGetters : List InfoGetter)
    (opts : ServiceValuesOptions) : Returned Map :=
  match opts.CommitDate with
  | none => .panic "runtime error: invalid memory address or nil pointer dereference"
  | some commitDate =>
    let globalInfo : Map :=
      [("werf", .map [("name", .str projectName), ("version", .str Version)])]
    let werfInfo : Map :=
      [("name", .str projectName),
        ("version", .str Version),
        ("repo", .str repo),
        ("image", .map []),
        ("tag", .map []),
        ("commit", .map
          [("hash", .str opts.CommitHash),
            ("date", .map
              [("human", .str commitDate.String), ("unix", .int commitDate.Unix)])])]
    let globalInfo :=
      if opts.Env ≠ "" then Map.assign globalInfo "env" (.str opts.Env)
      else if opts.IsStub && !opts.DisableEnvStub then Map.assign globalInfo "env" (.str "")
      else globalInfo
    let werfInfo :=
      if opts.Env ≠ "" then Map.assign werfInfo "env" (.str opts.Env)
      else if opts.IsStub && !opts.DisableEnvStub then Map.assign werfInfo "env" (.str "")
      else werfInfo
    let werfInfo :=
      if opts.Namespace ≠ "" then Map.assign werfInfo "namespace" (.str opts.Namespace)
      else werfInfo
    let stubbed : Option Map :=
      if opts.IsStub then
        let stubTag := "TAG"
        let stubImage := repo ++ ":" ++ stubTag
        stubLoop stubImage stubTag
          (Map.assign (Map.assign werfInfo "is_stub" (.bool true)) "stub_image"
            (.str stubImage))
          opts.StubImageNameList
      else some werfInfo
    match stubbed with
    | none => .panic "interface conversion: interface {} is not map[string]interface {}"
    | some werfInfo =>
      match getterLoop werfInfo imageInfoGetters with
      | none => .panic "interface conversion: interface {} is not map[string]interface {}"
      | some werfInfo =>
        let res : Map := [("werf", .map werfInfo)]
        let res :=
          if exposeGlobalServiceValues sys then Map.assign res "global" (.map globalInfo)
          else res
        if opts.SetDockerConfigJsonValue then
          match writeDockerConfigJsonValue table sys res opts.DockerConfigPath with
          | .error err => .error ("error writing docker config value: " ++ err)
          | .ok res => .ok res
        else .ok res

end helpers_for_werf_helm

/-! ## The retention decision engine: dependency closure and deletion plan -/

namespace retention

/-- Modelled from the spec: `StageDigest` (§3), "opaque content hash identifying one built
artifact", with byte-exact equality. -/
abbrev StageDigest := String

/-- Modelled from the spec: `StageMetadata` (§3), the "per-digest record — build
timestamp, originating commit hash (optional), associated image/tag name,
`parentStageDigest` (the stage this one was layered on top of, optional),
`importSourceStageDigests` (set of digests this stage's build imported files/artifacts
from, possibly empty)". -/
structure StageMetadata where
  buildTimestamp : Int
  commitHash : Option String
  imageName : String
  parentStageDigest : Option StageDigest
  importSourceStageDigests : List StageDigest

/-- Modelled from the spec: the artifact store, as the records it holds, each under its
digest. The engine only reads it (§3). -/
abbrev Store := List (StageDigest × StageMetadata)

/-- Modelled from the spec: the edges that leave a record, "`parentStageDigest` and
`importSourceStageDigests` edges" (§3, DependencyClosure). -/
def StageMetadata.edges (metadata : StageMetadata) : List StageDigest :=
  metadata.parentStageDigest.toList ++ metadata.importSourceStageDigests

/-- Modelled from the spec: what one stage depends on, "any stage's `parentStageDigest`
and every digest in `importSourceStageDigests`" (§4.6, step 2), read from the records the
store holds under the digest. -/
def dependencies (store : Store) (digest : StageDigest) : List StageDigest :=
  (store.filter (fun entry => entry.1 = digest)).flatMap (fun entry => entry.2.edges)

/-- Modelled from the spec: the digests one round adds, the dependencies of the stages
kept so far that are not kept yet (§4.6, step 2). -/
def newDigests (store : Store) (keep : List StageDigest) : List StageDigest :=
  ((keep.flatMap (dependencies store)).filter (fun digest => digest ∉ keep)).dedup

/-- Modelled from the spec: "starting from the union, repeatedly add any stage's
`parentStageDigest` and every digest in `importSourceStageDigests`, until a fixed point
(no new digests added)" (§4.6, step 2), as a loop of at most `fuel` rounds. -/
def closureLoop (store : Store) : Nat → List StageDigest → List StageDigest
  | 0, keep => keep
  | fuel + 1, keep =>
    if newDigests store keep = [] then keep
    else closureLoop store fuel (keep ++ newDigests store keep)

/-- Modelled from the spec: `DependencyClosure` (§3, §4.6 step 2). Every round but the
last adds a digest that some record of the store names, so as many rounds as there are
such digests reach the fixed point. -/
def DependencyClosure (store : Store) (keep : List StageDigest) : List StageDigest :=
  closureLoop store (store.flatMap (fun entry => entry.2.edges)).dedup.length keep

/-- Modelled from the spec: the deletion plan. "The complement of the closure, over the
set of all known stage digests in the artifact store, is the deletion plan" (§4.6, step
3); "if `disableCleanup` is set, the deletion plan is always empty regardless of other
settings — a global kill switch evaluated first" (§4.6, step 4). -/
def deletionPlan (disableCleanup : Bool) (store : Store) (keep : List StageDigest) :
    List StageDigest :=
  if disableCleanup then []
  else
    ((store.map (fun entry => entry.1)).dedup).filter
      (fun digest => digest ∉ DependencyClosure store keep)

end retention

end Werf

/-! # Properties -/

namespace Werf

namespace regexp

/-! ## Literal patterns -/

theorem special_cases (c : Char) (h : special c = true) :
    c = '\\' ∨ c = '.' ∨ c = '+' ∨ c = '*' ∨ c = '?' ∨ c = '(' ∨ c = ')' ∨ c = '|' ∨
    c = '[' ∨ c = ']' ∨ c = '\x7b' ∨ c = '\x7d' ∨ c = '^' ∨ c = '$' := by
  simpa [special, or_assoc] using h

/-- An escaped special byte is read as that byte. -/
theorem parseLoop_escaped (whole t : List Char) (c : Char) (h : special c = true)
    (cur : Frame) (outer : List Frame) (lr : List Char) :
    parseLoop whole ('\\' :: c :: t) cur outer lr =
      parseLoop whole t ⟨cur.alts, .literal c :: cur.seq⟩ outer [] := by
  have h1 : isalnum c = false ∧ c.toNat < 128 := by
    rcases special_cases c h with h | h | h | h | h | h | h | h | h | h | h | h | h | h <;>
      subst h <;> decide
  simp [parseLoop, h1.1, h1.2]

/-- A byte that is not special is read as itself. -/
theorem parseLoop_plain (whole t : List Char) (c : Char) (h : special c = false)
    (cur : Frame) (outer : List Frame) (lr : List Char) :
    parseLoop whole (c :: t) cur outer lr =
      parseLoop whole t ⟨cur.alts, .literal c :: cur.seq⟩ outer [] := by
  simp only [special, Bool.or_eq_false_iff, decide_eq_false_iff_not] at h
  obtain ⟨⟨⟨⟨⟨⟨⟨⟨⟨⟨⟨⟨⟨h1, h2⟩, h3⟩, h4⟩, h5⟩, h6⟩, h7⟩, h8⟩, h9⟩, h10⟩, h11⟩, h12⟩, h13⟩, h14⟩ := h
  conv_lhs => unfold parseLoop
  split
  · rename_i heq; cases heq
  · rename_i heq; simp at heq; exact absurd heq.1 h1
  · rename_i heq; simp at heq; exact absurd heq.1 h1
  · rename_i c' t' cur' outer' lr' hx1 hx2 heq
    simp at heq
    obtain ⟨rfl, rfl⟩ := heq
    simp [h2, h3, h4, h5, h6, h7, h8, h9, h11, h13, h14]

/-- The parser reads the output of `QuoteMeta` as the runes that went in. -/
theorem parseLoop_QuoteMeta (whole rest : List Char) (alts : List Tree)
    (outer : List Frame) (p : List Char) (seq : List Tree) :
    parseLoop whole (QuoteMeta p ++ rest) ⟨alts, seq⟩ outer [] =
      parseLoop whole rest ⟨alts, (p.map Tree.literal).reverse ++ seq⟩ outer [] := by
  induction p generalizing seq with
  | nil => rfl
  | cons c p ih =>
    cases h : special c with
    | true =>
      simp only [QuoteMeta, h, if_true, List.cons_append]
      rw [parseLoop_escaped whole _ c h, ih]
      simp
    | false =>
      simp only [QuoteMeta, h, Bool.false_eq_true, if_false, List.cons_append]
      rw [parseLoop_plain whole _ c h, ih]
      simp

/-- The main loop on a quoted literal between the two anchors. -/
theorem parseLoop_anchored_quoted (whole p : List Char) :
    parseLoop whole ('^' :: (QuoteMeta p ++ ['$'])) ⟨[], []⟩ [] [] =
      .ok (.concat .beginText (litChain p)) := by
  have h1 : ∀ t, parseLoop whole ('^' :: t) ⟨[], []⟩ [] [] =
      parseLoop whole t ⟨[], [.beginText]⟩ [] [] := by
    intro t
    simp [parseLoop]
  have h2 : ∀ seq, parseLoop whole ['$'] ⟨[], seq⟩ [] [] =
      .ok (Frame.close ⟨[], .endText :: seq⟩) := by
    intro seq
    simp [parseLoop]
  rw [h1, parseLoop_QuoteMeta, h2]
  simp [Frame.close, collapseAlternate, collapseConcat, litChain, List.foldl_append,
    List.foldl_reverse]

/-- The output of `QuoteMeta` holds no operator: every special byte in it is escaped. -/
theorem operatorsFrom_QuoteMeta (p rest : List Char) :
    operatorsFrom false (QuoteMeta p ++ rest) = operatorsFrom false rest := by
  induction p with
  | nil => rfl
  | cons c p ih =>
    cases h : special c with
    | true =>
      simp only [QuoteMeta, h, if_true, List.cons_append, operatorsFrom]
      exact ih
    | false =>
      have hc : c ≠ '\\' := by
        intro hc
        rw [hc] at h
        exact absurd h (by decide)
      simp only [QuoteMeta, h, Bool.false_eq_true, if_false, List.cons_append, operatorsFrom,
        hc, Nat.zero_add]
      exact ih

/-- The runes of the chain of a literal are the runes of the literal. -/
theorem litChain_runes (p : List Char) : (litChain p).runes = p.length := by
  induction p with
  | nil => rfl
  | cons c p ih =>
    have h : litChain (c :: p) = .concat (.literal c) (litChain p) := rfl
    rw [h, Tree.runes, Tree.runes, ih, List.length_cons]
    omega

/-- The chain of a literal is a run of literals that ends with `$`. -/
theorem litChain_literals (p : List Char) : (litChain p).literals = true := by
  induction p with
  | nil => rfl
  | cons c p ih => exact ih

/-- The anchored expression of a quoted literal compiles, to the chain of its runes
between the two anchors, when the literal holds no more runes than Go allows; a longer
one is the error `ErrLarge`. The library is not asked. -/
theorem Compile_quoted (lib : Library) (p : List Char) :
    Compile lib ("^" ++ String.mk (QuoteMeta p) ++ "$") =
      if p.length ≤ maxRunes then .ok (.parsed (.concat .beginText (litChain p)))
      else .error ⟨"expression too large", "^" ++ String.mk (QuoteMeta p) ++ "$"⟩ := by
  have hdata : ("^" ++ String.mk (QuoteMeta p) ++ "$").data = '^' :: (QuoteMeta p ++ ['$']) := by
    simp [String.data_append]
  have hrunes : (Tree.concat .beginText (litChain p)).runes = p.length := by
    rw [Tree.runes, Tree.runes, litChain_runes]
    omega
  have hshape : (Tree.concat .beginText (litChain p)).anchoredLiteral = true :=
    litChain_literals p
  have hops : operatorsFrom false ('^' :: (QuoteMeta p ++ ['$'])) ≤ maxOperators := by
    have h1 : operatorsFrom false ('^' :: (QuoteMeta p ++ ['$'])) =
        1 + operatorsFrom false (QuoteMeta p ++ ['$']) := by
      simp [operatorsFrom, special]
    rw [h1, operatorsFrom_QuoteMeta]
    decide
  unfold Compile
  rw [hdata, if_pos hops, parseLoop_anchored_quoted]
  simp only [hshape, if_true, hrunes]

/-- The chain of a literal matches from a position exactly when what is left of the text
is the literal. -/
theorem litChain_ends (p : List Char) (b : Bool) (s : List Char) :
    (litChain p).ends b s ≠ [] ↔ s = p := by
  induction p generalizing b s with
  | nil =>
    cases s <;> simp [litChain, Tree.ends]
  | cons c p ih =>
    cases s with
    | nil => simp [litChain, Tree.ends]
    | cons x t =>
      have ih' := ih false t
      simp only [litChain] at ih'
      by_cases hx : x = c
      · subst hx
        simpa [litChain, Tree.ends] using ih'
      · simp [litChain, Tree.ends, hx]

/-- An expression that starts with `^` matches nowhere after the beginning of the
text. -/
theorem search_beginText_later (R : Tree) (t : List Char) :
    (Tree.concat .beginText R).search false t = false := by
  induction t with
  | nil => simp [Tree.search, Tree.ends]
  | cons x t ih => simp [Tree.search, Tree.ends, ih]

/-- An expression that starts with `^` matches a text exactly when the rest of it
matches at the beginning. -/
theorem search_beginText (R : Tree) (s : List Char) :
    (Tree.concat .beginText R).search true s = !(R.ends true s).isEmpty := by
  cases s with
  | nil => simp [Tree.search, Tree.ends]
  | cons x t => simp [Tree.search, Tree.ends, search_beginText_later]

/-- The matcher of a literal accepts a name exactly when the name is the literal. -/
theorem literal_MatchString (lib : Library) (p : List Char) (n : String) :
    (Regexp.parsed (.concat .beginText (litChain p))).MatchString lib n = true ↔
      n.data = p := by
  show (Tree.concat .beginText (litChain p)).search true n.data = true ↔ n.data = p
  rw [search_beginText, ← litChain_ends p true n.data]
  cases (litChain p).ends true n.data <;> simp

end regexp

namespace config

/-! ## Decoding the sections -/

theorem checkOverflow_nil : checkOverflow [] = .ok () := rfl

theorem checkOverflow_cons (kv : String × YamlValue) (m : List (String × YamlValue)) :
    ∃ e, checkOverflow (kv :: m) = .error e :=
  ⟨_, rfl⟩

/-- The decoding method of a limit section ends in an error or gives the section as the
decoder filled it. -/
theorem limit_decoded (table : Char → Bool) (c : rawMetaCleanupKeepPolicyReferencesLimit) :
    (∃ e, c.UnmarshalYAML table = .error e) ∨ c.UnmarshalYAML table = .ok c := by
  unfold rawMetaCleanupKeepPolicyReferencesLimit.UnmarshalYAML
  cases checkOverflow c.UnsupportedAttributes with
  | error e => exact Or.inl ⟨e, rfl⟩
  | ok u =>
    cases c.Operator with
    | none => exact Or.inr rfl
    | some op =>
      by_cases h : op ≠ "Or" ∧ op ≠ "And"
      · exact Or.inl ⟨_, if_pos h⟩
      · exact Or.inr (if_neg h)

/-- An optional limit section is decoded to itself or ends in an error. -/
theorem optional_limit_decoded (table : Char → Bool)
    (l : Option rawMetaCleanupKeepPolicyReferencesLimit) :
    (∃ e, decodeOptional (rawMetaCleanupKeepPolicyReferencesLimit.UnmarshalYAML table) l
        = .error e) ∨
    decodeOptional (rawMetaCleanupKeepPolicyReferencesLimit.UnmarshalYAML table) l = .ok l := by
  cases l with
  | none => exact Or.inr rfl
  | some c =>
    rcases limit_decoded table c with ⟨e, he⟩ | hok
    · exact Or.inl ⟨e, by simp only [decodeOptional, he]⟩
    · exact Or.inr (by simp only [decodeOptional, hok])

/-- C1: a `references` section without unknown fields is rejected with a configuration
error when `tag` and `branch` are both non-empty and when both are empty, and it is
decoded successfully only when exactly one of the two is non-empty. -/
theorem references_tag_xor_branch (lib : regexp.Library) (table : Char → Bool)
    (n : node.References) (hfields : n.UnsupportedAttributes = []) :
    (((n.Tag ≠ "" ∧ n.Branch ≠ "") ∨ (n.Tag = "" ∧ n.Branch = "")) →
      ∃ e, rawMetaCleanupKeepPolicyReferences.UnmarshalYAML lib table n = .error e) ∧
    (∀ v, rawMetaCleanupKeepPolicyReferences.UnmarshalYAML lib table n = .ok v →
      (n.Tag ≠ "" ∧ n.Branch = "") ∨ (n.Tag = "" ∧ n.Branch ≠ "")) := by
  unfold rawMetaCleanupKeepPolicyReferences.UnmarshalYAML
  rcases optional_limit_decoded table n.Limit with ⟨e, he⟩ | hok
  · rw [he]
    exact ⟨fun _ => ⟨e, rfl⟩, fun v hv => by cases hv⟩
  · rw [hok, hfields]
    simp only [checkOverflow_nil]
    by_cases ht : n.Tag = "" <;> by_cases hb : n.Branch = "" <;>
      simp [ht, hb]

/-- C1 at a section that names both a tag and a branch. -/
theorem references_tag_xor_branch_witness :
    ∃ e, rawMetaCleanupKeepPolicyReferences.UnmarshalYAML ⟨fun _ => none, fun _ _ => false⟩
      (fun _ => true) ⟨"v1", "main", none, []⟩ = .error e :=
  (references_tag_xor_branch ⟨fun _ => none, fun _ _ => false⟩ (fun _ => true)
    ⟨"v1", "main", none, []⟩ rfl).1 (Or.inl ⟨by decide, by decide⟩)

/-- What the decoding method of a keep policy does when it is called: a mapping without a
`references` section is rejected with a configuration error, and a keep policy that the
method decoded successfully has one. -/
theorem keepPolicy_method_needs_references (lib : regexp.Library) (table : Char → Bool)
    (n : node.KeepPolicy) :
    (n.References = none →
      ∃ e, rawMetaCleanupKeepPolicy.UnmarshalYAML lib table n = .error e) ∧
    (∀ v, rawMetaCleanupKeepPolicy.UnmarshalYAML lib table n = .ok v →
      v.References.isSome = true) := by
  unfold rawMetaCleanupKeepPolicy.UnmarshalYAML
  constructor
  · intro h
    rw [h]
    simp only [decodeOptional]
    cases checkOverflow n.UnsupportedAttributes with
    | error e => exact ⟨e, rfl⟩
    | ok u => exact ⟨_, rfl⟩
  · intro v hv
    cases hd : decodeOptional (rawMetaCleanupKeepPolicyReferences.UnmarshalYAML lib table)
        n.References with
    | error e => rw [hd] at hv; cases hv
    | ok references =>
      rw [hd] at hv
      cases hc : checkOverflow n.UnsupportedAttributes with
      | error e => rw [hc] at hv; cases hv
      | ok u =>
        rw [hc] at hv
        cases references with
        | none => cases hv
        | some r =>
          simp only [Decoded.ok.injEq] at hv
          rw [← hv]
          rfl

/-- C2, the code at the failing input: the cleanup section whose `keepPolicies` holds one
null item is decoded successfully, from the section as from its keys, and the keep policy
it then holds is a nil pointer, with no `references` section; the decoding method of the
keep policy, which rejects the empty mapping in the same place, was not called. -/
theorem null_keepPolicy_accepted (lib : regexp.Library) (table : Char → Bool)
    (conv : Scalar → Nat) :
    (∃ c, rawMetaCleanup.UnmarshalYAML lib table
        ⟨false, false, false, false, [none], none, []⟩ = .ok c ∧
      c.KeepPolicies = [none] ∧
      (c.KeepPolicies.map (fun p => p.bind (fun r => r.References))).all Option.isNone
        = true) ∧
    (∃ c, rawMetaCleanup.UnmarshalMapping lib table conv
        [("keepPolicies", ⟨.sequence [.null], none, some [none]⟩)] = .ok c ∧
      c.KeepPolicies = [none]) ∧
    rawMetaCleanup.UnmarshalYAML lib table
        ⟨false, false, false, false, [some ⟨none, none, []⟩], none, []⟩ =
      .error ⟨"cleanup keep policy must have references section!"⟩ :=
  ⟨⟨_, rfl, rfl, rfl⟩, ⟨_, rfl, rfl⟩, rfl⟩

/-- In `references.limit` an operator other than "Or" and "And" is rejected, and with no
unknown fields an absent operator, "Or" and "And" are accepted. -/
theorem limit_operator_checked (table : Char → Bool)
    (c : rawMetaCleanupKeepPolicyReferencesLimit) :
    (∀ op, c.Operator = some op → op ≠ "Or" → op ≠ "And" →
      ∃ e, c.UnmarshalYAML table = .error e) ∧
    (c.UnsupportedAttributes = [] →
      (c.Operator = none ∨ c.Operator = some "Or" ∨ c.Operator = some "And") →
      c.UnmarshalYAML table = .ok c) := by
  unfold rawMetaCleanupKeepPolicyReferencesLimit.UnmarshalYAML
  constructor
  · intro op hop h1 h2
    cases checkOverflow c.UnsupportedAttributes with
    | error e => exact ⟨e, rfl⟩
    | ok u =>
      rw [hop]
      exact ⟨_, if_pos ⟨h1, h2⟩⟩
  · intro hf hop
    rw [hf]
    rcases hop with h | h | h <;> rw [h] <;> simp [checkOverflow_nil]

/-- C3, the code at the failing input: a keep policy whose `imagesPerReference` carries
the operator "Xor" is decoded successfully and keeps that operator, also through the
conversion, while the same section under `references.limit` is rejected. -/
theorem imagesPerReference_operator_unchecked (lib : regexp.Library) :
    (∃ v, rawMetaCleanupKeepPolicy.UnmarshalYAML lib (fun _ => true)
        ⟨some ⟨"v1", "", none, []⟩, some ⟨none, none, some "Xor", []⟩, []⟩ = .ok v ∧
      v.ImagesPerReference.bind (fun l => l.Operator) = some "Xor" ∧
      v.toMetaCleanupKeepPolicy.ImagesPerReference.bind (fun l => l.Operator) = some "Xor") ∧
    (∃ e, rawMetaCleanupKeepPolicy.UnmarshalYAML lib (fun _ => true)
        ⟨some ⟨"v1", "", some ⟨none, none, some "Xor", []⟩, []⟩, none, []⟩ = .error e) :=
  ⟨⟨_, rfl, rfl, rfl⟩, ⟨_, rfl⟩⟩

/-- A field the schema does not name is rejected in `references.limit`, in `references`,
in a keep policy and in the cleanup section itself. -/
theorem unknown_field_rejected (lib : regexp.Library) (table : Char → Bool) :
    (∀ c : rawMetaCleanupKeepPolicyReferencesLimit, c.UnsupportedAttributes ≠ [] →
      ∃ e, c.UnmarshalYAML table = .error e) ∧
    (∀ n : node.References, n.UnsupportedAttributes ≠ [] →
      ∃ e, rawMetaCleanupKeepPolicyReferences.UnmarshalYAML lib table n = .error e) ∧
    (∀ n : node.KeepPolicy, n.UnsupportedAttributes ≠ [] →
      ∃ e, rawMetaCleanupKeepPolicy.UnmarshalYAML lib table n = .error e) ∧
    (∀ n : node.Cleanup, n.UnsupportedAttributes ≠ [] →
      ∃ e, rawMetaCleanup.UnmarshalYAML lib table n = .error e) := by
  refine ⟨?_, ?_, ?_, ?_⟩
  · intro c hc
    unfold rawMetaCleanupKeepPolicyReferencesLimit.UnmarshalYAML
    cases hm : c.UnsupportedAttributes with
    | nil => exact absurd hm hc
    | cons kv m => exact ⟨_, rfl⟩
  · intro n hn
    unfold rawMetaCleanupKeepPolicyReferences.UnmarshalYAML
    cases hm : n.UnsupportedAttributes with
    | nil => exact absurd hm hn
    | cons kv m =>
      cases decodeOptional (rawMetaCleanupKeepPolicyReferencesLimit.UnmarshalYAML table)
        n.Limit <;> exact ⟨_, rfl⟩
  · intro n hn
    unfold rawMetaCleanupKeepPolicy.UnmarshalYAML
    cases hm : n.UnsupportedAttributes with
    | nil => exact absurd hm hn
    | cons kv m =>
      cases decodeOptional (rawMetaCleanupKeepPolicyReferences.UnmarshalYAML lib table)
        n.References <;> exact ⟨_, rfl⟩
  · intro n hn
    unfold rawMetaCleanup.UnmarshalYAML
    cases hm : n.UnsupportedAttributes with
    | nil => exact absurd hm hn
    | cons kv m =>
      cases decodeList (rawMetaCleanupKeepPolicy.UnmarshalYAML lib table) n.KeepPolicies <;>
        exact ⟨_, rfl⟩

/-- C4, the code at the failing input: a cleanup document whose `imagesPerReference`
holds the unknown field `lst` is decoded successfully, the field kept aside unnoticed,
while the same field under `references.limit` makes the document fail. -/
theorem imagesPerReference_unknown_field_accepted (lib : regexp.Library) :
    (∃ v, rawMetaCleanup.UnmarshalYAML lib (fun _ => true)
        ⟨false, false, false, false,
          [some ⟨some ⟨"v1", "", none, []⟩,
            some ⟨none, none, none, [("lst", .scalar "5")]⟩, []⟩], none, []⟩ = .ok v) ∧
    (∃ e, rawMetaCleanup.UnmarshalYAML lib (fun _ => true)
        ⟨false, false, false, false,
          [some ⟨some ⟨"v1", "", some ⟨none, none, none, [("lst", .scalar "5")]⟩, []⟩,
            none, []⟩], none, []⟩ = .error e) :=
  ⟨⟨_, rfl⟩, ⟨_, rfl⟩⟩

/-! ## The converted configuration -/

/-- A sequence of sections that was decoded successfully was decoded item by item: a null
item to the nil pointer, a mapping by the decoding method. -/
theorem decodeList_ok {α β : Type} (f : α → Decoded β) (l : List (Option α))
    (rs : List (Option β)) (h : decodeList f l = .ok rs) :
    List.Forall₂ (fun a b => (a = none ∧ b = none) ∨
      ∃ x y, a = some x ∧ b = some y ∧ f x = .ok y) l rs := by
  induction l generalizing rs with
  | nil =>
    simp only [decodeList, Decoded.ok.injEq] at h
    rw [← h]
    exact List.Forall₂.nil
  | cons a rest ih =>
    cases a with
    | none =>
      simp only [decodeList] at h
      cases hr : decodeList f rest with
      | error e => rw [hr] at h; cases h
      | ok bs =>
        rw [hr] at h
        simp only [Decoded.ok.injEq] at h
        rw [← h]
        exact List.Forall₂.cons (Or.inl ⟨rfl, rfl⟩) (ih bs hr)
    | some x =>
      simp only [decodeList] at h
      cases hf : f x with
      | error e => rw [hf] at h; cases h
      | ok b =>
        rw [hf] at h
        cases hr : decodeList f rest with
        | error e => rw [hr] at h; cases h
        | ok bs =>
          rw [hr] at h
          simp only [Decoded.ok.injEq] at h
          rw [← h]
          exact List.Forall₂.cons (Or.inr ⟨x, b, rfl, rfl, hf⟩) (ih bs hr)

/-- The section that `UnmarshalYAML` gives holds the fields of the document and the keep
policies as decoded. -/
theorem UnmarshalYAML_fields (lib : regexp.Library) (table : Char → Bool) (n : node.Cleanup)
    (c : rawMetaCleanup) (h : rawMetaCleanup.UnmarshalYAML lib table n = .ok c) :
    c.DisableCleanup = n.DisableCleanup ∧
    c.KeepImagesBuiltWithinLastNHours = n.KeepImagesBuiltWithinLastNHours ∧
    decodeList (rawMetaCleanupKeepPolicy.UnmarshalYAML lib table) n.KeepPolicies
      = .ok c.KeepPolicies := by
  unfold rawMetaCleanup.UnmarshalYAML at h
  cases hd : decodeList (rawMetaCleanupKeepPolicy.UnmarshalYAML lib table) n.KeepPolicies with
  | error e => rw [hd] at h; cases h
  | ok policies =>
    rw [hd] at h
    cases hc : checkOverflow n.UnsupportedAttributes with
    | error e => rw [hc] at h; cases h
    | ok u =>
      rw [hc] at h
      simp only [Decoded.ok.injEq] at h
      rw [← h]
      exact ⟨rfl, rfl, rfl⟩

/-- The loop of `toMetaCleanup` on policies none of which is nil converts them one by
one, in order. -/
theorem toMetaCleanupLoop_some (ps : List rawMetaCleanupKeepPolicy) :
    ∀ acc : List MetaCleanupKeepPolicy,
      toMetaCleanupLoop (ps.map some) acc =
        .returns (acc ++ ps.map rawMetaCleanupKeepPolicy.toMetaCleanupKeepPolicy) := by
  induction ps with
  | nil => intro acc; simp [toMetaCleanupLoop]
  | cons p rest ih =>
    intro acc
    simp only [List.map_cons, toMetaCleanupLoop, ih, List.append_assoc, List.singleton_append]

/-- The loop of `toMetaCleanup` ends in a panic as soon as it comes to a nil policy. -/
theorem toMetaCleanupLoop_none (l : List (Option rawMetaCleanupKeepPolicy)) (h : none ∈ l) :
    ∀ acc : List MetaCleanupKeepPolicy,
      toMetaCleanupLoop l acc =
        .panics "runtime error: invalid memory address or nil pointer dereference" := by
  induction l with
  | nil => cases h
  | cons p rest ih =>
    intro acc
    cases p with
    | none => rfl
    | some q =>
      have hrest : none ∈ rest := by
        rcases List.mem_cons.mp h with h | h
        · cases h
        · exact h
      simp only [toMetaCleanupLoop]
      exact ih hrest _

/-- A list of pointers none of which is nil is a list of sections. -/
theorem all_some {α : Type} (l : List (Option α)) (h : none ∉ l) :
    ∃ xs : List α, l = xs.map some := by
  induction l with
  | nil => exact ⟨[], rfl⟩
  | cons a rest ih =>
    cases a with
    | none => exact absurd (List.mem_cons_self _ _) h
    | some x =>
      obtain ⟨xs, hxs⟩ := ih (fun hm => h (List.mem_cons_of_mem _ hm))
      exact ⟨x :: xs, by rw [hxs]; rfl⟩

/-- How `toMetaCleanup` ends: in a panic when one of the keep policies is nil, and
otherwise with the four switches copied, the policies converted one by one, and the
number of hours or its default. -/
theorem toMetaCleanup_cases (c : rawMetaCleanup) :
    (none ∈ c.KeepPolicies ∧
      c.toMetaCleanup =
        .panics "runtime error: invalid memory address or nil pointer dereference") ∨
    (none ∉ c.KeepPolicies ∧
      ∃ ps : List rawMetaCleanupKeepPolicy, c.KeepPolicies = ps.map some ∧
        c.toMetaCleanup = .returns
          { DisableKubernetesBasedPolicy := c.DisableKubernetesBasedPolicy
            DisableBuiltWithinLastNHoursPolicy := c.DisableBuiltWithinLastNHoursPolicy
            DisableGitHistoryBasedPolicy := c.DisableGitHistoryBasedPolicy
            DisableCleanup := c.DisableCleanup
            KeepPolicies := ps.map rawMetaCleanupKeepPolicy.toMetaCleanupKeepPolicy
            KeepImagesBuiltWithinLastNHours :=
              match c.KeepImagesBuiltWithinLastNHours with
              | some v => v
              | none => DefaultKeepImagesBuiltWithinLastNHours }) := by
  by_cases h : none ∈ c.KeepPolicies
  · left
    refine ⟨h, ?_⟩
    unfold rawMetaCleanup.toMetaCleanup
    rw [toMetaCleanupLoop_none _ h]
  · right
    obtain ⟨ps, hps⟩ := all_some c.KeepPolicies h
    refine ⟨h, ps, hps, ?_⟩
    unfold rawMetaCleanup.toMetaCleanup
    rw [hps, toMetaCleanupLoop_some]
    rfl

/-- What `toMetaCleanup` returns when it returns: the switches, and the number of hours or
its default. -/
theorem toMetaCleanup_returns (c : rawMetaCleanup) (m : MetaCleanup)
    (h : c.toMetaCleanup = .returns m) :
    m.DisableCleanup = c.DisableCleanup ∧
    m.KeepImagesBuiltWithinLastNHours =
      (match c.KeepImagesBuiltWithinLastNHours with
        | some v => v
        | none => DefaultKeepImagesBuiltWithinLastNHours) ∧
    none ∉ c.KeepPolicies := by
  rcases toMetaCleanup_cases c with ⟨_, hp⟩ | ⟨hn, ps, _, hr⟩
  · rw [hp] at h
    cases h
  · rw [hr] at h
    cases h
    exact ⟨rfl, rfl, hn⟩

/-! ## The keys of the cleanup mapping -/

/-- One key read by the decoder leaves the inline map as it was or adds the key to it. -/
theorem assign_inline (conv : Scalar → Nat) (c c' : node.Cleanup) (key : String)
    (v : node.Resolved) (h : c.assign conv key v = .ok c') :
    c'.UnsupportedAttributes = c.UnsupportedAttributes ∨
    c'.UnsupportedAttributes = c.UnsupportedAttributes ++ [(key, v.raw)] := by
  unfold node.Cleanup.assign at h
  repeat' split at h
  all_goals (cases h <;> first | exact Or.inl rfl | exact Or.inr rfl)

/-- The key `disableCleanup` is none of the keys the struct tags name: it goes to the
inline map. -/
theorem assign_disableCleanup (conv : Scalar → Nat) (c : node.Cleanup) (v : node.Resolved) :
    c.assign conv "disableCleanup" v =
      .ok { c with UnsupportedAttributes :=
        c.UnsupportedAttributes ++ [("disableCleanup", v.raw)] } := by
  unfold node.Cleanup.assign
  rw [if_neg (by decide), if_neg (by decide), if_neg (by decide), if_neg (by decide),
    if_neg (by decide), if_neg (by decide)]

/-- Once the inline map holds a key, or once the key `disableCleanup` is still to come, the
section ends up with a non-empty inline map. -/
theorem assignAll_inline (conv : Scalar → Nat) (m : List (String × node.Resolved))
    (c n : node.Cleanup) (h : c.assignAll conv m = .ok n)
    (hsrc : c.UnsupportedAttributes ≠ [] ∨ "disableCleanup" ∈ m.map Prod.fst) :
    n.UnsupportedAttributes ≠ [] := by
  induction m generalizing c with
  | nil =>
    simp only [node.Cleanup.assignAll, Except.ok.injEq] at h
    rcases hsrc with hne | hmem
    · rw [← h]; exact hne
    · cases hmem
  | cons kv rest ih =>
    obtain ⟨key, v⟩ := kv
    simp only [node.Cleanup.assignAll] at h
    cases ha : c.assign conv key v with
    | error e => rw [ha] at h; cases h
    | ok c' =>
      rw [ha] at h
      refine ih c' h ?_
      rcases hsrc with hne | hmem
      · left
        rcases assign_inline conv c c' key v ha with h1 | h1
        · rw [h1]; exact hne
        · rw [h1]; simp
      · simp only [List.map_cons, List.mem_cons] at hmem
        rcases hmem with hk | hrest
        · left
          have hk' : key = "disableCleanup" := hk.symm
          subst hk'
          rw [assign_disableCleanup] at ha
          simp only [Except.ok.injEq] at ha
          rw [← ha]
          simp
        · exact Or.inr hrest

/-- A key other than `disable` leaves the kill switch as it was. -/
theorem assign_other_key (conv : Scalar → Nat) (c c' : node.Cleanup) (key : String)
    (v : node.Resolved) (hkey : key ≠ "disable") (h : c.assign conv key v = .ok c') :
    c'.DisableCleanup = c.DisableCleanup := by
  unfold node.Cleanup.assign at h
  rw [if_neg hkey] at h
  repeat' split at h
  all_goals (cases h <;> rfl)

/-- The key `disable` sets the kill switch to the boolean of its node. -/
theorem assign_disable (conv : Scalar → Nat) (c c' : node.Cleanup) (v : node.Resolved)
    (h : c.assign conv "disable" v = .ok c') : v.asBool = some c'.DisableCleanup := by
  unfold node.Cleanup.assign at h
  rw [if_pos rfl] at h
  cases hb : v.asBool with
  | none => rw [hb] at h; cases h
  | some b =>
    rw [hb] at h
    cases h
    rfl

/-- Keys other than `disable` leave the kill switch as it was. -/
theorem assignAll_other_keys (conv : Scalar → Nat) (m : List (String × node.Resolved))
    (c n : node.Cleanup) (hkeys : "disable" ∉ m.map Prod.fst)
    (h : c.assignAll conv m = .ok n) :
    n.DisableCleanup = c.DisableCleanup := by
  induction m generalizing c with
  | nil =>
    simp only [node.Cleanup.assignAll, Except.ok.injEq] at h
    rw [← h]
  | cons kv rest ih =>
    obtain ⟨key, v⟩ := kv
    simp only [List.map_cons, List.mem_cons, not_or] at hkeys
    simp only [node.Cleanup.assignAll] at h
    cases ha : c.assign conv key v with
    | error e => rw [ha] at h; cases h
    | ok c' =>
      rw [ha] at h
      rw [ih c' hkeys.2 h, assign_other_key conv c c' key v (fun hk => hkeys.1 hk.symm) ha]

/-- The keys of a mapping are read one after the other. -/
theorem assignAll_append (conv : Scalar → Nat) (pre post : List (String × node.Resolved))
    (c n : node.Cleanup) (h : c.assignAll conv (pre ++ post) = .ok n) :
    ∃ c', c.assignAll conv pre = .ok c' ∧ c'.assignAll conv post = .ok n := by
  induction pre generalizing c with
  | nil => exact ⟨c, rfl, h⟩
  | cons kv rest ih =>
    obtain ⟨key, v⟩ := kv
    simp only [List.cons_append, node.Cleanup.assignAll] at h ⊢
    cases ha : c.assign conv key v with
    | error e => rw [ha] at h; cases h
    | ok c' =>
      rw [ha] at h
      exact ih c' h

/-- The section the decoder has filled once it has read a mapping in which the key `key`
occurs for the last time with the node `v`: the keys after it are read from a section in
which `key` has just been set. -/
theorem assignAll_last (conv : Scalar → Nat) (pre post : List (String × node.Resolved))
    (key : String) (v : node.Resolved) (c n : node.Cleanup)
    (h : c.assignAll conv (pre ++ (key, v) :: post) = .ok n) :
    ∃ c1 c2 : node.Cleanup,
      c1.assign conv key v = .ok c2 ∧ c2.assignAll conv post = .ok n := by
  obtain ⟨c1, _, h2⟩ := assignAll_append conv pre _ c n h
  simp only [node.Cleanup.assignAll] at h2
  cases hs : c1.assign conv key v with
  | error e => rw [hs] at h2; cases h2
  | ok c2 =>
    rw [hs] at h2
    exact ⟨c1, c2, hs, h2⟩

/-- A cleanup mapping that was decoded, key by key, gave a section that was decoded. -/
theorem UnmarshalMapping_ok (lib : regexp.Library) (table : Char → Bool)
    (conv : Scalar → Nat) (m : List (String × node.Resolved)) (c : rawMetaCleanup)
    (h : rawMetaCleanup.UnmarshalMapping lib table conv m = .ok c) :
    ∃ n, node.Cleanup.zero.assignAll conv m = .ok n ∧
      rawMetaCleanup.UnmarshalYAML lib table n = .ok c := by
  unfold rawMetaCleanup.UnmarshalMapping at h
  cases ha : node.Cleanup.zero.assignAll conv m with
  | error e => rw [ha] at h; cases h
  | ok n =>
    rw [ha] at h
    exact ⟨n, rfl, h⟩

/-! ## The number of hours -/

/-- The float that is `2^64`, which is what the decoder resolves the digits of `2^64` to,
is accepted, and the number of hours is then a `uint64` the platform chooses, never the
configured `2^64`. -/
theorem keepImagesBuiltWithinLastNHours_two_pow_64 (lib : regexp.Library)
    (table : Char → Bool) (conv : Scalar → Nat) :
    ∃ c cfg, rawMetaCleanup.UnmarshalMapping lib table conv
        [("keepImagesBuiltWithinLastNHours",
          ⟨.scalar "18446744073709551616", some (.float 1 64), none⟩)] = .ok c ∧
      c.toMetaCleanup = .returns cfg ∧
      cfg.KeepImagesBuiltWithinLastNHours = conv (.float 1 64) % 18446744073709551616 ∧
      cfg.KeepImagesBuiltWithinLastNHours < 18446744073709551616 :=
  ⟨_, _, rfl, rfl, rfl, Nat.mod_lt _ (by decide)⟩

/-! ## The kill switch -/

/-- C14, as amended: the kill switch is the field named `disable`. A cleanup document
that sets `disable` to true is accepted and `toMetaCleanup` has `DisableCleanup` true; in
every document that is accepted `DisableCleanup` is what the last `disable` key says, and
false when there is no such key, in the decoded section and in whatever `toMetaCleanup`
returns for it, and `toMetaCleanup` returns unless a keep policy is nil; and a document
with a field literally named `disableCleanup` is rejected. -/
theorem disable_key (lib : regexp.Library) (table : Char → Bool) (conv : Scalar → Nat) :
    (∃ c cfg, rawMetaCleanup.UnmarshalMapping lib table conv
        [("disable", ⟨.scalar "true", some (.bool true), none⟩)] = .ok c ∧
      c.toMetaCleanup = .returns cfg ∧ cfg.DisableCleanup = true) ∧
    (∀ (pre post : List (String × node.Resolved)) (v : node.Resolved) (b : Bool)
      (c : rawMetaCleanup), v.asBool = some b → "disable" ∉ post.map Prod.fst →
      rawMetaCleanup.UnmarshalMapping lib table conv (pre ++ ("disable", v) :: post) = .ok c →
      c.DisableCleanup = b ∧
      ∀ cfg, c.toMetaCleanup = .returns cfg → cfg.DisableCleanup = b) ∧
    (∀ (m : List (String × node.Resolved)) (c : rawMetaCleanup),
      "disable" ∉ m.map Prod.fst →
      rawMetaCleanup.UnmarshalMapping lib table conv m = .ok c →
      c.DisableCleanup = false ∧
      ∀ cfg, c.toMetaCleanup = .returns cfg → cfg.DisableCleanup = false) ∧
    (∀ (m : List (String × node.Resolved)) (c : rawMetaCleanup),
      rawMetaCleanup.UnmarshalMapping lib table conv m = .ok c → none ∉ c.KeepPolicies →
      ∃ cfg, c.toMetaCleanup = .returns cfg) ∧
    (∀ m : List (String × node.Resolved), "disableCleanup" ∈ m.map Prod.fst →
      ∃ e, rawMetaCleanup.UnmarshalMapping lib table conv m = .error e) := by
  refine ⟨⟨_, _, rfl, rfl, rfl⟩, ?_, ?_, ?_, ?_⟩
  · intro pre post v b c hv hpost h
    obtain ⟨n, ha, hy⟩ := UnmarshalMapping_ok lib table conv _ c h
    obtain ⟨hd, _, _⟩ := UnmarshalYAML_fields lib table n c hy
    obtain ⟨c1, c2, hs, h2⟩ := assignAll_last conv pre post _ v _ n ha
    have hb := assign_disable conv c1 c2 v hs
    rw [hv, ← assignAll_other_keys conv post c2 n hpost h2, ← hd] at hb
    have hcb : c.DisableCleanup = b := (Option.some.inj hb).symm
    refine ⟨hcb, fun cfg hcfg => ?_⟩
    rw [(toMetaCleanup_returns c cfg hcfg).1, hcb]
  · intro m c hm h
    obtain ⟨n, ha, hy⟩ := UnmarshalMapping_ok lib table conv m c h
    obtain ⟨hd, _, _⟩ := UnmarshalYAML_fields lib table n c hy
    have hcb : c.DisableCleanup = false := by
      rw [hd, assignAll_other_keys conv m _ n hm ha]
      rfl
    refine ⟨hcb, fun cfg hcfg => ?_⟩
    rw [(toMetaCleanup_returns c cfg hcfg).1, hcb]
  · intro m c _ hnone
    rcases toMetaCleanup_cases c with ⟨hmem, _⟩ | ⟨_, ps, _, hr⟩
    · exact absurd hmem hnone
    · exact ⟨_, hr⟩
  · intro m hm
    unfold rawMetaCleanup.UnmarshalMapping
    cases ha : node.Cleanup.zero.assignAll conv m with
    | error e => exact ⟨e, rfl⟩
    | ok n =>
      exact (unknown_field_rejected lib table).2.2.2 n
        (assignAll_inline conv m _ n ha (Or.inr hm))

/-- C14 on a document that sets `disable` to true after a keep policy whose pattern
`/v[0-9]+/`, with its character class, is compiled by the library. -/
theorem disable_key_witness :
    ∃ c cfg, rawMetaCleanup.UnmarshalMapping ⟨fun _ => none, fun _ _ => false⟩ (fun _ => true)
        (fun _ => 0)
        [("keepPolicies",
            ⟨.sequence [.mapping [("references", .mapping [("tag", .scalar "/v[0-9]+/")])]],
              none, some [some ⟨some ⟨"/v[0-9]+/", "", none, []⟩, none, []⟩]⟩),
          ("disable", ⟨.scalar "true", some (.bool true), none⟩)] = .ok c ∧
      c.toMetaCleanup = .returns cfg ∧ cfg.DisableCleanup = true :=
  ⟨_, _, rfl, rfl, ((disable_key ⟨fun _ => none, fun _ _ => false⟩ (fun _ => true)
    (fun _ => 0)).2.1
    [("keepPolicies",
      ⟨.sequence [.mapping [("references", .mapping [("tag", .scalar "/v[0-9]+/")])]],
        none, some [some ⟨some ⟨"/v[0-9]+/", "", none, []⟩, none, []⟩]⟩)] []
    ⟨.scalar "true", some (.bool true), none⟩ true _ rfl (by simp) rfl).2 _ rfl⟩

/-- C14 as stated fails: in the cleanup document that sets the field literally named
`disableCleanup` to true, the decoder puts that key in the inline map and leaves the kill
switch false, and the document is rejected with the error for unknown fields. -/
theorem disableCleanup_key_rejected :
    (node.Cleanup.zero.assignAll (fun _ => 0)
        [("disableCleanup", ⟨.scalar "true", some (.bool true), none⟩)]).toOption.map
      (fun n => (n.DisableCleanup, n.UnsupportedAttributes.map Prod.fst)) =
      some (false, ["disableCleanup"]) ∧
    rawMetaCleanup.UnmarshalMapping ⟨fun _ => none, fun _ _ => false⟩ (fun _ => true)
        (fun _ => 0)
        [("disableCleanup", ⟨.scalar "true", some (.bool true), none⟩)] =
      .error ⟨"unknown fields: disableCleanup"⟩ :=
  ⟨rfl, rfl⟩

/-! ## The converted keep policies -/

/-- For every cleanup section that was parsed and holds no null item under `keepPolicies`,
`toMetaCleanup` returns, and its `KeepPolicies` has the length of the document's
`keepPolicies` and its order: the i-th output policy is the conversion of the i-th raw
policy, which is the i-th policy of the document as decoded. -/
theorem toMetaCleanup_keepPolicies_without_null (lib : regexp.Library) (table : Char → Bool)
    (n : node.Cleanup) (c : rawMetaCleanup)
    (hparsed : rawMetaCleanup.UnmarshalYAML lib table n = .ok c)
    (hnull : none ∉ n.KeepPolicies) :
    ∃ cfg, c.toMetaCleanup = .returns cfg ∧
      cfg.KeepPolicies.length = n.KeepPolicies.length ∧
      (∀ (i : Nat) (p : node.KeepPolicy), n.KeepPolicies[i]? = some (some p) →
        ∃ r, rawMetaCleanupKeepPolicy.UnmarshalYAML lib table p = .ok r ∧
          c.KeepPolicies[i]? = some (some r) ∧
          cfg.KeepPolicies[i]? = some r.toMetaCleanupKeepPolicy) ∧
      (n.KeepPolicies = [] → cfg.KeepPolicies = []) := by
  obtain ⟨_, _, hd⟩ := UnmarshalYAML_fields lib table n c hparsed
  have hall := decodeList_ok _ _ _ hd
  have hlen := hall.length_eq
  have hitem : ∀ i (hi : i < n.KeepPolicies.length) (hi' : i < c.KeepPolicies.length),
      (n.KeepPolicies[i] = none ∧ c.KeepPolicies[i] = none) ∨
      ∃ x y, n.KeepPolicies[i] = some x ∧ c.KeepPolicies[i] = some y ∧
        rawMetaCleanupKeepPolicy.UnmarshalYAML lib table x = .ok y :=
    fun i hi hi' => List.Forall₂.get hall hi hi'
  have hcnull : none ∉ c.KeepPolicies := by
    intro hmem
    obtain ⟨i, hi', hget⟩ := List.getElem_of_mem hmem
    have hi : i < n.KeepPolicies.length := hlen ▸ hi'
    rcases hitem i hi hi' with ⟨h1, _⟩ | ⟨x, y, _, h2, _⟩
    · exact hnull (h1 ▸ List.getElem_mem hi)
    · rw [hget] at h2
      cases h2
  rcases toMetaCleanup_cases c with ⟨hmem, _⟩ | ⟨_, ps, hps, hr⟩
  · exact absurd hmem hcnull
  · refine ⟨_, hr, ?_, ?_, ?_⟩
    · show (ps.map rawMetaCleanupKeepPolicy.toMetaCleanupKeepPolicy).length = _
      rw [List.length_map, hlen, hps, List.length_map]
    · intro i p hp
      obtain ⟨hi, hpi⟩ := List.getElem?_eq_some_iff.mp hp
      have hi' : i < c.KeepPolicies.length := hlen ▸ hi
      rcases hitem i hi hi' with ⟨h1, _⟩ | ⟨x, y, h1, h2, h3⟩
      · rw [hpi] at h1
        cases h1
      · rw [hpi] at h1
        cases h1
        refine ⟨y, h3, ?_, ?_⟩
        · rw [List.getElem?_eq_getElem hi', h2]
        · show (ps.map rawMetaCleanupKeepPolicy.toMetaCleanupKeepPolicy)[i]? = _
          have hci : c.KeepPolicies[i]? = some (some y) := by
            rw [List.getElem?_eq_getElem hi', h2]
          rw [hps, List.getElem?_map] at hci
          rw [List.getElem?_map]
          cases hq : ps[i]? with
          | none => rw [hq] at hci; cases hci
          | some q =>
            rw [hq] at hci
            simp only [Option.map_some', Option.some.injEq] at hci
            rw [hci]
            rfl
    · intro hempty
      show ps.map rawMetaCleanupKeepPolicy.toMetaCleanupKeepPolicy = []
      rw [hempty] at hlen
      have hc : c.KeepPolicies = [] := List.length_eq_zero.mp hlen.symm
      rw [hps] at hc
      rw [List.map_eq_nil_iff.mp hc]
      rfl

/-- C15, the code at the failing input: the cleanup section whose `keepPolicies` holds a
null item after the policy `tag: v1` is parsed, to a section with two keep policies, the
second of them nil, and `toMetaCleanup` on that section ends in the run-time panic of a
nil pointer instead of yielding a list of two policies; so it does on the section whose
only item is null. -/
theorem toMetaCleanup_null_policy_panics (lib : regexp.Library) (table : Char → Bool) :
    (∃ c, rawMetaCleanup.UnmarshalYAML lib table
        ⟨false, false, false, false, [some ⟨some ⟨"v1", "", none, []⟩, none, []⟩, none],
          none, []⟩ = .ok c ∧
      c.KeepPolicies.length = 2 ∧
      c.toMetaCleanup =
        .panics "runtime error: invalid memory address or nil pointer dereference") ∧
    (∃ c, rawMetaCleanup.UnmarshalYAML lib table
        ⟨false, false, false, false, [none], none, []⟩ = .ok c ∧
      c.KeepPolicies.length = 1 ∧
      c.toMetaCleanup =
        .panics "runtime error: invalid memory address or nil pointer dereference") :=
  ⟨⟨_, rfl, rfl, rfl⟩, ⟨_, rfl, rfl, rfl⟩⟩

/-! ## Exactly one matcher -/

/-- A `references` section that was decoded successfully: exactly one of `tag` and
`branch` was given, and the matcher of that one is set, the other one not. -/
theorem references_decoded_matchers (lib : regexp.Library) (table : Char → Bool)
    (n : node.References) (v : rawMetaCleanupKeepPolicyReferences)
    (hparsed : rawMetaCleanupKeepPolicyReferences.UnmarshalYAML lib table n = .ok v) :
    (n.Branch ≠ "" ∧ n.Tag = "" ∧ v.BranchRegexp.isSome = true ∧ v.TagRegexp = none) ∨
    (n.Tag ≠ "" ∧ n.Branch = "" ∧ v.TagRegexp.isSome = true ∧ v.BranchRegexp = none) := by
  unfold rawMetaCleanupKeepPolicyReferences.UnmarshalYAML at hparsed
  cases hd : decodeOptional (rawMetaCleanupKeepPolicyReferencesLimit.UnmarshalYAML table)
      n.Limit with
  | error e => rw [hd] at hparsed; cases hparsed
  | ok limit =>
    rw [hd] at hparsed
    cases hc : checkOverflow n.UnsupportedAttributes with
    | error e => rw [hc] at hparsed; cases hparsed
    | ok u =>
      rw [hc] at hparsed
      by_cases ht : n.Tag = "" <;> by_cases hb : n.Branch = ""
      · simp [ht, hb] at hparsed
      · simp only [ht, hb, and_false, if_false, ne_eq, not_true_eq_false, false_and,
          not_false_eq_true, if_true] at hparsed
        cases hp : processRegexpString lib table "branch" n.Branch with
        | error e => rw [hp] at hparsed; cases hparsed
        | ok regex =>
          rw [hp] at hparsed
          simp only [Decoded.ok.injEq] at hparsed
          rw [← hparsed]
          exact Or.inl ⟨hb, ht, rfl, rfl⟩
      · simp only [ht, hb, false_and, if_false, ne_eq, not_true_eq_false, and_false] at hparsed
        cases hp : processRegexpString lib table "tag" n.Tag with
        | error e => rw [hp] at hparsed; cases hparsed
        | ok regex =>
          rw [hp] at hparsed
          simp only [Decoded.ok.injEq] at hparsed
          rw [← hparsed]
          exact Or.inr ⟨ht, hb, rfl, rfl⟩
      · simp [ht, hb] at hparsed

/-- A keep policy that its decoding method accepted has, once converted, exactly one
matcher. -/
theorem keepPolicy_one_matcher (lib : regexp.Library) (table : Char → Bool)
    (pn : node.KeepPolicy) (p : rawMetaCleanupKeepPolicy)
    (hparsed : rawMetaCleanupKeepPolicy.UnmarshalYAML lib table pn = .ok p) :
    (p.toMetaCleanupKeepPolicy.References.BranchRegexp.isSome = true ∧
      p.toMetaCleanupKeepPolicy.References.TagRegexp = none) ∨
    (p.toMetaCleanupKeepPolicy.References.TagRegexp.isSome = true ∧
      p.toMetaCleanupKeepPolicy.References.BranchRegexp = none) := by
  unfold rawMetaCleanupKeepPolicy.UnmarshalYAML at hparsed
  cases hn : pn.References with
  | none =>
    rw [hn] at hparsed
    simp only [decodeOptional] at hparsed
    cases hc : checkOverflow pn.UnsupportedAttributes with
    | error e => rw [hc] at hparsed; cases hparsed
    | ok u => rw [hc] at hparsed; cases hparsed
  | some rn =>
    rw [hn] at hparsed
    simp only [decodeOptional] at hparsed
    cases hr : rawMetaCleanupKeepPolicyReferences.UnmarshalYAML lib table rn with
    | error e => rw [hr] at hparsed; cases hparsed
    | ok r =>
      rw [hr] at hparsed
      cases hc : checkOverflow pn.UnsupportedAttributes with
      | error e => rw [hc] at hparsed; cases hparsed
      | ok u =>
        rw [hc] at hparsed
        simp only [Decoded.ok.injEq] at hparsed
        rw [← hparsed]
        rcases references_decoded_matchers lib table rn r hr with
          ⟨_, _, h1, h2⟩ | ⟨_, _, h1, h2⟩
        · exact Or.inl ⟨h1, h2⟩
        · exact Or.inr ⟨h1, h2⟩

/-- C16: after a successful parse of a `references` section, whatever its pattern and
whatever Go's `regexp` package makes of it, exactly one of the two compiled matchers is
set, `BranchRegexp` when `branch` was given and `TagRegexp` when `tag` was given;
`toMetaCleanupKeepPolicyReferences` carries both over unchanged; and so every keep policy
that was parsed has, once converted, exactly one matcher, and every policy of the
configuration that `toMetaCleanup` returns for a parsed cleanup section has exactly one
matcher. -/
theorem references_exactly_one_matcher (lib : regexp.Library) (table : Char → Bool) :
    (∀ (n : node.References) (v : rawMetaCleanupKeepPolicyReferences),
      rawMetaCleanupKeepPolicyReferences.UnmarshalYAML lib table n = .ok v →
      ((n.Branch ≠ "" ∧ n.Tag = "" ∧ v.BranchRegexp.isSome = true ∧ v.TagRegexp = none) ∨
        (n.Tag ≠ "" ∧ n.Branch = "" ∧ v.TagRegexp.isSome = true ∧ v.BranchRegexp = none)) ∧
      v.toMetaCleanupKeepPolicyReferences.BranchRegexp = v.BranchRegexp ∧
      v.toMetaCleanupKeepPolicyReferences.TagRegexp = v.TagRegexp) ∧
    (∀ (pn : node.KeepPolicy) (p : rawMetaCleanupKeepPolicy),
      rawMetaCleanupKeepPolicy.UnmarshalYAML lib table pn = .ok p →
      (p.toMetaCleanupKeepPolicy.References.BranchRegexp.isSome = true ∧
        p.toMetaCleanupKeepPolicy.References.TagRegexp = none) ∨
      (p.toMetaCleanupKeepPolicy.References.TagRegexp.isSome = true ∧
        p.toMetaCleanupKeepPolicy.References.BranchRegexp = none)) ∧
    (∀ (n : node.Cleanup) (c : rawMetaCleanup) (cfg : MetaCleanup),
      rawMetaCleanup.UnmarshalYAML lib table n = .ok c → c.toMetaCleanup = .returns cfg →
      ∀ policy ∈ cfg.KeepPolicies,
        (policy.References.BranchRegexp.isSome = true ∧ policy.References.TagRegexp = none) ∨
        (policy.References.TagRegexp.isSome = true ∧
          policy.References.BranchRegexp = none)) := by
  refine ⟨fun n v hparsed => ⟨references_decoded_matchers lib table n v hparsed, rfl, rfl⟩,
    keepPolicy_one_matcher lib table, ?_⟩
  intro n c cfg hparsed hconv policy hpolicy
  obtain ⟨_, _, hd⟩ := UnmarshalYAML_fields lib table n c hparsed
  have hall := decodeList_ok _ _ _ hd
  rcases toMetaCleanup_cases c with ⟨_, hp⟩ | ⟨_, ps, hps, hr⟩
  · rw [hp] at hconv
    cases hconv
  · rw [hr] at hconv
    cases hconv
    obtain ⟨r, hr1, hr2⟩ := List.mem_map.mp hpolicy
    have hmem : some r ∈ c.KeepPolicies := by
      rw [hps]
      exact List.mem_map.mpr ⟨r, hr1, rfl⟩
    obtain ⟨i, hi', hget⟩ := List.getElem_of_mem hmem
    have hi : i < n.KeepPolicies.length := hall.length_eq ▸ hi'
    have hitem : (n.KeepPolicies[i] = none ∧ c.KeepPolicies[i] = none) ∨
        ∃ x y, n.KeepPolicies[i] = some x ∧ c.KeepPolicies[i] = some y ∧
          rawMetaCleanupKeepPolicy.UnmarshalYAML lib table x = .ok y :=
      List.Forall₂.get hall hi hi'
    rcases hitem with ⟨_, h2⟩ | ⟨x, y, _, h2, h3⟩
    · rw [hget] at h2
      cases h2
    · rw [hget] at h2
      cases h2
      rw [← hr2]
      exact keepPolicy_one_matcher lib table x r h3

/-- C16 at the section `branch: /release-[0-9]+/`, whose pattern with its character class
is compiled by the library: the branch matcher is set, the tag matcher is not. -/
theorem references_exactly_one_matcher_witness :
    ∃ v, rawMetaCleanupKeepPolicyReferences.UnmarshalYAML ⟨fun _ => none, fun _ _ => false⟩
        (fun _ => true) ⟨"", "/release-[0-9]+/", none, []⟩ = .ok v ∧
      v.BranchRegexp = some (.library "^release-[0-9]+$") ∧ v.TagRegexp = none := by
  rcases (references_exactly_one_matcher ⟨fun _ => none, fun _ _ => false⟩
    (fun _ => true)).1 ⟨"", "/release-[0-9]+/", none, []⟩ _ rfl with
    ⟨⟨_, _, _, h2⟩ | ⟨ht, _, _, _⟩, _, _⟩
  · exact ⟨_, rfl, rfl, h2⟩
  · exact absurd rfl ht

/-! ## Reference matchers -/

/-- A pattern that does not both begin and end with a slash is compiled to the matcher of
the literal when it holds no more runes than Go's `regexp` allows in an expression, and is
refused with the error of a too large expression otherwise. -/
theorem processRegexpString_literal (lib : regexp.Library) (table : Char → Bool)
    (name p : String)
    (h : ¬(strings.HasPrefix p "/" = true ∧ strings.HasSuffix p "/" = true)) :
    processRegexpString lib table name p =
      if p.length ≤ regexp.maxRunes then
        .ok (.parsed (.concat .beginText (regexp.litChain p.data)))
      else
        .error (newDetailedConfigError
          ("invalid value " ++ strconv.Quote table p ++ " for " ++
            strconv.Quote table name ++ ": " ++
            regexp.Error.String ⟨"expression too large", anchoredExpr p⟩)) := by
  have hexpr : anchoredExpr p = "^" ++ String.mk (regexp.QuoteMeta p.data) ++ "$" := by
    unfold anchoredExpr
    simp only [h, if_false]
  unfold processRegexpString
  rw [hexpr, regexp.Compile_quoted]
  by_cases hlen : p.data.length ≤ regexp.maxRunes
  · rw [if_pos hlen, if_pos (show p.length ≤ regexp.maxRunes from hlen)]
  · rw [if_neg hlen, if_neg (show ¬ p.length ≤ regexp.maxRunes from hlen)]

/-- C5: for every pattern p that is not wrapped in slashes (that does not both begin and
end with a slash, which is how the code tells) and every name n, the matcher that
`processRegexpString` builds for p accepts n if and only if n equals p, whatever
metacharacters p contains; that matcher is built for every p of at most 33,554,432
characters (and for no longer p, which Go's `regexp` refuses). -/
theorem literal_pattern_exact (lib : regexp.Library) (table : Char → Bool) (name p : String)
    (h : ¬(strings.HasPrefix p "/" = true ∧ strings.HasSuffix p "/" = true)) :
    (∀ re, processRegexpString lib table name p = .ok re →
      ∀ n : String, re.MatchString lib n = true ↔ n = p) ∧
    ((∃ re, processRegexpString lib table name p = .ok re) ↔
      p.length ≤ regexp.maxRunes) := by
  have hp := processRegexpString_literal lib table name p h
  by_cases hlen : p.length ≤ regexp.maxRunes
  · rw [if_pos hlen] at hp
    refine ⟨?_, ⟨fun _ => hlen, fun _ => ⟨_, hp⟩⟩⟩
    intro re hre n
    rw [hp] at hre
    cases hre
    rw [regexp.literal_MatchString]
    exact ⟨fun hd => String.ext hd, fun hn => by rw [hn]⟩
  · rw [if_neg hlen] at hp
    refine ⟨?_, ⟨?_, fun hl => absurd hl hlen⟩⟩
    · intro re hre
      rw [hp] at hre
      cases hre
    · rintro ⟨re, hre⟩
      rw [hp] at hre
      cases hre

/-- C5 at the literals `v1`, which accepts the name v1 and rejects v10, av1 and xv1y, and
`v.1(` with its metacharacters. -/
theorem literal_pattern_exact_witness :
    (∃ re, processRegexpString ⟨fun _ => none, fun _ _ => false⟩ (fun _ => true) "tag" "v1" =
        .ok re ∧
      re.MatchString ⟨fun _ => none, fun _ _ => false⟩ "v1" = true ∧
      re.MatchString ⟨fun _ => none, fun _ _ => false⟩ "v10" = false ∧
      re.MatchString ⟨fun _ => none, fun _ _ => false⟩ "av1" = false ∧
      re.MatchString ⟨fun _ => none, fun _ _ => false⟩ "xv1y" = false) ∧
    (∃ re, processRegexpString ⟨fun _ => none, fun _ _ => false⟩ (fun _ => true) "tag"
        "v.1(" = .ok re ∧
      ∀ n : String, re.MatchString ⟨fun _ => none, fun _ _ => false⟩ n = true ↔ n = "v.1(") :=
  ⟨⟨_, rfl, by decide, by decide, by decide, by decide⟩,
    ⟨_, rfl, (literal_pattern_exact ⟨fun _ => none, fun _ _ => false⟩ (fun _ => true) "tag"
      "v.1(" (by decide)).1 _ rfl⟩⟩

/-- The pattern that is one slash and nothing else passes the test of the code for a
pattern between slashes, with nothing in between: its matcher is that of the empty
expression, which accepts the empty name alone. -/
theorem single_slash_pattern (lib : regexp.Library) (table : Char → Bool) (name : String) :
    (strings.HasPrefix "/" "/" = true ∧ strings.HasSuffix "/" "/" = true) ∧
    processRegexpString lib table name "/" =
      .ok (.parsed (.concat .beginText (regexp.litChain []))) ∧
    ∀ n : String, (regexp.Regexp.parsed (.concat .beginText (regexp.litChain []))).MatchString
      lib n = true ↔ n = "" := by
  refine ⟨⟨rfl, rfl⟩, rfl, fun n => ?_⟩
  rw [regexp.literal_MatchString]
  exact ⟨fun hd => String.ext hd, fun hn => by rw [hn]⟩

/-- C6, the code at the failing input: the matcher built from `/a|b/` accepts `ax`, of
which only the prefix `a` matches, and `xb`, of which only the suffix `b` matches; the
whole of neither name matches `a|b`. -/
theorem alternation_pattern_not_anchored (lib : regexp.Library) :
    ∃ re R, processRegexpString lib (fun _ => true) "tag" "/a|b/" = .ok re ∧
      regexp.Compile lib "a|b" = .ok (.parsed R) ∧
      re.MatchString lib "ax" = true ∧ R.fullMatch "ax" = false ∧
      re.MatchString lib "xb" = true ∧ R.fullMatch "xb" = false :=
  ⟨_, _, rfl, rfl, rfl, rfl, rfl, rfl⟩

/-- C7: the matcher built from the pattern `/v.*/` accepts the names v1, v10 and version,
and rejects every name that does not begin with the letter v, such as av1. -/
theorem v_star_pattern (lib : regexp.Library) :
    ∃ re, processRegexpString lib (fun _ => true) "tag" "/v.*/" = .ok re ∧
      re.MatchString lib "v1" = true ∧ re.MatchString lib "v10" = true ∧
      re.MatchString lib "version" = true ∧
      (∀ n : String, n.data.head? ≠ some 'v' → re.MatchString lib n = false) ∧
      re.MatchString lib "av1" = false := by
  have hall : ∀ n : String, n.data.head? ≠ some 'v' →
      (regexp.Regexp.parsed (.concat .beginText (.concat (.literal 'v')
        (.concat (.star .anyCharNotNL) .endText)))).MatchString lib n = false := by
    intro n hn
    show (regexp.Tree.concat .beginText (.concat (.literal 'v')
        (.concat (.star .anyCharNotNL) .endText))).search true n.data = false
    rw [regexp.search_beginText]
    cases hd : n.data with
    | nil => simp [regexp.Tree.ends]
    | cons x t =>
      have hx : x ≠ 'v' := by
        intro hx
        rw [hd, hx] at hn
        exact hn rfl
      simp [regexp.Tree.ends, hx]
  exact ⟨_, rfl, rfl, rfl, rfl, hall, hall "av1" (by decide)⟩

/-- C7 at the name av1. -/
theorem v_star_pattern_witness :
    ∃ re, processRegexpString ⟨fun _ => none, fun _ _ => false⟩ (fun _ => true) "tag"
        "/v.*/" = .ok re ∧
      re.MatchString ⟨fun _ => none, fun _ _ => false⟩ "av1" = false := by
  obtain ⟨re, h, _, _, _, hall, _⟩ := v_star_pattern ⟨fun _ => none, fun _ _ => false⟩
  exact ⟨re, h, hall "av1" (by decide)⟩

/-- A pattern that begins and ends with a slash is the one slash, or an interior between
two slashes. -/
theorem slashes_cases (p : String)
    (h : strings.HasPrefix p "/" = true ∧ strings.HasSuffix p "/" = true) :
    p = "/" ∨ ∃ R : String, p = "/" ++ R ++ "/" := by
  have h1 : ("/" : String).data = ['/'] := rfl
  obtain ⟨hpre, hsuf⟩ := h
  unfold strings.HasPrefix at hpre
  unfold strings.HasSuffix at hsuf
  rw [h1, List.isPrefixOf_iff_prefix] at hpre
  rw [h1, List.isSuffixOf_iff_suffix] at hsuf
  obtain ⟨t, ht⟩ := hpre
  obtain ⟨u, hu⟩ := hsuf
  cases u with
  | nil =>
    left
    apply String.ext
    rw [← hu]
    rfl
  | cons c u' =>
    right
    refine ⟨String.mk u', ?_⟩
    apply String.ext
    have hc : c = '/' := by
      rw [← ht] at hu
      simp only [List.cons_append, List.singleton_append] at hu
      exact (List.cons.inj hu).1
    rw [← hu, hc]
    simp [String.data_append, h1]

/-- C27, as amended: for every pattern that is not wrapped in slashes (that is not an
interior between an opening and a closing slash), whatever characters it holds and
whatever Go's `regexp` package makes of other expressions: when the pattern has at most
33,554,432 characters, `processRegexpString` succeeds and returns the matcher of the
literal, the two anchors around the characters of the pattern (around nothing for the
pattern that is one slash); when it has more, `processRegexpString` returns the
configuration error that carries the error `expression too large` of the compiler. A
pattern here is a text of Unicode characters, which is what a Go string holds when it is
valid UTF-8. -/
theorem literal_pattern_compiles (lib : regexp.Library) (table : Char → Bool)
    (name p : String) (h : ∀ R : String, p ≠ "/" ++ R ++ "/") :
    (p.length ≤ 33554432 →
      processRegexpString lib table name p =
        .ok (.parsed (.concat .beginText
          (regexp.litChain (if p = "/" then [] else p.data))))) ∧
    (33554432 < p.length →
      processRegexpString lib table name p =
        .error (newDetailedConfigError
          ("invalid value " ++ strconv.Quote table p ++ " for " ++
            strconv.Quote table name ++ ": " ++
            regexp.Error.String ⟨"expression too large", anchoredExpr p⟩))) := by
  by_cases hw : strings.HasPrefix p "/" = true ∧ strings.HasSuffix p "/" = true
  · rcases slashes_cases p hw with hone | ⟨R, hR⟩
    · rw [hone]
      exact ⟨fun _ => rfl, fun hlong => absurd hlong (by decide)⟩
    · exact absurd hR (h R)
  · have hone : p ≠ "/" := by
      intro hone
      rw [hone] at hw
      exact hw ⟨rfl, rfl⟩
    constructor
    · intro hsize
      rw [processRegexpString_literal lib table name p hw,
        if_pos (show p.length ≤ regexp.maxRunes from hsize), if_neg hone]
    · intro hlong
      rw [processRegexpString_literal lib table name p hw,
        if_neg (show ¬ p.length ≤ regexp.maxRunes from Nat.not_le.mpr hlong)]

/-- C27 on a pattern with an unbalanced bracket and parenthesis, a backslash and a
leading slash. -/
theorem literal_pattern_compiles_witness :
    processRegexpString ⟨fun _ => none, fun _ _ => false⟩ (fun _ => true) "branch"
        "/rel[ease(\\1" =
      .ok (.parsed (.concat .beginText (regexp.litChain "/rel[ease(\\1".data))) :=
  (literal_pattern_compiles ⟨fun _ => none, fun _ _ => false⟩ (fun _ => true) "branch"
    "/rel[ease(\\1" (by
      intro R hR
      have hd := congrArg String.data hR
      have hlast := congrArg (fun l => l.reverse.head?) hd
      simp [String.data_append] at hlast)).1 (by decide)

/-- C27 as stated fails: the pattern of 33,554,433 letters a is not wrapped in slashes,
its escaped and anchored expression holds more runes than Go's `regexp` allows and does
not compile, and `processRegexpString` returns a configuration error, whatever the
library answers. -/
theorem literal_pattern_too_large :
    strings.HasPrefix (String.mk (List.replicate 33554433 'a')) "/" = false ∧
    (∀ lib : regexp.Library,
      regexp.Compile lib (anchoredExpr (String.mk (List.replicate 33554433 'a'))) =
        .error ⟨"expression too large",
          anchoredExpr (String.mk (List.replicate 33554433 'a'))⟩) ∧
    ∃ e, processRegexpString ⟨fun _ => none, fun _ _ => false⟩ (fun _ => true) "tag"
      (String.mk (List.replicate 33554433 'a')) = .error e := by
  have hcons : List.replicate 33554433 'a' = 'a' :: List.replicate 33554432 'a' :=
    List.replicate_succ 'a' 33554432
  have hpre : strings.HasPrefix (String.mk (List.replicate 33554433 'a')) "/" = false := by
    unfold strings.HasPrefix
    show List.isPrefixOf ['/'] (List.replicate 33554433 'a') = false
    rw [hcons]
    rfl
  have hw : ¬(strings.HasPrefix (String.mk (List.replicate 33554433 'a')) "/" = true ∧
      strings.HasSuffix (String.mk (List.replicate 33554433 'a')) "/" = true) :=
    fun hboth => Bool.false_ne_true (hpre.symm.trans hboth.1)
  have hruns : ¬ (List.replicate 33554433 'a').length ≤ regexp.maxRunes := by
    rw [List.length_replicate]
    decide
  have hlen : ¬ (String.mk (List.replicate 33554433 'a')).length ≤ regexp.maxRunes := hruns
  have hexpr : anchoredExpr (String.mk (List.replicate 33554433 'a')) =
      "^" ++ String.mk (regexp.QuoteMeta (List.replicate 33554433 'a')) ++ "$" := by
    unfold anchoredExpr
    simp only [hw, if_false]
  refine ⟨hpre, ?_, ?_⟩
  · intro lib
    rw [hexpr, regexp.Compile_quoted, if_neg hruns]
  · rw [processRegexpString_literal _ _ _ _ hw, if_neg hlen]
    exact ⟨_, rfl⟩

/-! ## The error of a pattern that does not compile -/

theorem any_isPrefixOf_tails (a q b : List Char) :
    (a ++ (q ++ b)).tails.any (fun t => q.isPrefixOf t) = true := by
  rw [List.any_eq_true]
  refine ⟨q ++ b, ?_, ?_⟩
  · rw [List.mem_tails]
    exact List.suffix_append a _
  · rw [List.isPrefixOf_iff_prefix]
    exact List.prefix_append q b

end config
namespace git_history_based_cleanup

/-! ## The commit cache -/

theorem find_filter_other (l : List (Hash × Commit)) (h h' : Hash) (hne : h ≠ h') :
    (l.filter (fun kv => kv.1 ≠ h')).find? (fun kv => kv.1 = h) =
      l.find? (fun kv => kv.1 = h) := by
  induction l with
  | nil => rfl
  | cons kv t ih =>
    rw [List.filter_cons, List.find?_cons]
    by_cases h1 : kv.1 = h'
    · have h2 : ¬ kv.1 = h := fun hk => hne (hk.symm.trans h1)
      rw [if_neg (by simpa using h1), ih]
      simp only [h2, decide_False]
    · rw [if_pos (by simpa using h1), List.find?_cons, ih]

/-- Storing a commit under one hash leaves the entries of the other hashes alone. -/
theorem getFromCache_addToCache_other (g : GitRepositoryWithCache) (h h' : Hash) (c : Commit)
    (hne : h ≠ h') : (g.addToCache h' c).getFromCache h = g.getFromCache h := by
  unfold GitRepositoryWithCache.getFromCache GitRepositoryWithCache.addToCache
  have h2 : ¬ h' = h := fun hk => hne hk.symm
  simp only [List.find?_cons, h2, decide_False]
  rw [find_filter_other _ h h' hne]

/-- A stored commit is found under its hash. -/
theorem getFromCache_addToCache_same (g : GitRepositoryWithCache) (h : Hash) (c : Commit) :
    (g.addToCache h c).getFromCache h = some c := by
  simp [GitRepositoryWithCache.getFromCache, GitRepositoryWithCache.addToCache]

/-- A call for a cached hash returns the stored commit and changes nothing, the record
of reads included. -/
theorem CommitObject_hit (g : GitRepositoryWithCache) (h : Hash) (c : Commit)
    (hc : g.getFromCache h = some c) : g.CommitObject h = (.ok c, g) := by
  unfold GitRepositoryWithCache.CommitObject
  rw [hc]

/-- What a call for a hash that is not cached does: one read, and the commit stored when
the read succeeds. -/
theorem CommitObject_miss (g : GitRepositoryWithCache) (h : Hash)
    (hc : g.getFromCache h = none) :
    (∃ err, g.GitRepo.objects g.GitRepo.reads.length h = .error err ∧
      (g.CommitObject h).2 = { g with GitRepo := { g.GitRepo with
        reads := (h, false) :: g.GitRepo.reads } }) ∨
    (∃ c, g.GitRepo.objects g.GitRepo.reads.length h = .ok c ∧
      (g.CommitObject h).1 = .ok c ∧
      (g.CommitObject h).2 = ({ g with GitRepo := { g.GitRepo with
        reads := (h, true) :: g.GitRepo.reads } }).addToCache h c) := by
  unfold GitRepositoryWithCache.CommitObject Repository.CommitObject
  rw [hc]
  cases hr : g.GitRepo.objects g.GitRepo.reads.length h with
  | error err => exact Or.inl ⟨err, rfl, rfl⟩
  | ok c => exact Or.inr ⟨c, rfl, rfl, rfl⟩

/-- One call never replaces or removes a stored entry. -/
theorem CommitObject_keeps (g : GitRepositoryWithCache) (h' h : Hash) (c : Commit)
    (hc : g.getFromCache h = some c) : (g.CommitObject h').2.getFromCache h = some c := by
  cases hc' : g.getFromCache h' with
  | some c' => rw [CommitObject_hit g h' c' hc']; exact hc
  | none =>
    have hne : h ≠ h' := by
      intro heq
      rw [heq, hc'] at hc
      cases hc
    rcases CommitObject_miss g h' hc' with ⟨err, _, hst⟩ | ⟨c', _, _, hst⟩
    · rw [hst]; exact hc
    · rw [hst, getFromCache_addToCache_other _ h h' c' hne]; exact hc

/-- A sequence of calls never replaces or removes a stored entry. -/
theorem runCommitObjects_keeps (calls : List Hash) (g : GitRepositoryWithCache) (h : Hash)
    (c : Commit) (hc : g.getFromCache h = some c) :
    (runCommitObjects g calls).getFromCache h = some c := by
  induction calls generalizing g with
  | nil => exact hc
  | cons h' rest ih => exact ih _ (CommitObject_keeps g h' h c hc)

theorem runCommitObjects_append (before after : List Hash) (g : GitRepositoryWithCache) :
    runCommitObjects g (before ++ after) =
      runCommitObjects (runCommitObjects g before) after := by
  induction before generalizing g with
  | nil => rfl
  | cons h rest ih => exact ih _

/-- The reads one call makes: none when the hash is cached, otherwise one, after which
the hash is cached if the read succeeded. -/
theorem CommitObject_reads (g : GitRepositoryWithCache) (h : Hash) :
    ((g.getFromCache h).isSome = true ∧ (g.CommitObject h).2.GitRepo.reads = g.GitRepo.reads) ∨
    (g.getFromCache h = none ∧ ∃ b, (g.CommitObject h).2.GitRepo.reads = (h, b) :: g.GitRepo.reads ∧
      (b = true → ((g.CommitObject h).2.getFromCache h).isSome = true)) := by
  cases hc : g.getFromCache h with
  | some c =>
    left
    rw [CommitObject_hit g h c hc]
    exact ⟨rfl, rfl⟩
  | none =>
    right
    refine ⟨rfl, ?_⟩
    rcases CommitObject_miss g h hc with ⟨err, _, hst⟩ | ⟨c, _, _, hst⟩
    · exact ⟨false, by rw [hst], fun hb => by cases hb⟩
    · refine ⟨true, ?_, fun _ => ?_⟩
      · rw [hst]; rfl
      · rw [hst, getFromCache_addToCache_same]; rfl

/-- The reads a sequence of calls makes. -/
theorem runCommitObjects_reads (calls : List Hash) (g : GitRepositoryWithCache) :
    ∃ new, (runCommitObjects g calls).GitRepo.reads = new ++ g.GitRepo.reads ∧
      (∀ h, new.count (h, true) ≤ 1) ∧
      (∀ h, (h, true) ∈ new → ((runCommitObjects g calls).getFromCache h).isSome = true) ∧
      (∀ h, (g.getFromCache h).isSome = true → ∀ b, (h, b) ∉ new) := by
  induction calls generalizing g with
  | nil =>
    refine ⟨[], rfl, fun _ => by simp, ?_, ?_⟩
    · intro h hm
      cases hm
    · intro h _ b hm
      cases hm
  | cons h0 rest ih =>
    obtain ⟨new1, hreads, hcount, hstored, hcached⟩ := ih (g.CommitObject h0).2
    have hkeep : ∀ h, (g.getFromCache h).isSome = true →
        (((g.CommitObject h0).2).getFromCache h).isSome = true := by
      intro h hh
      cases hc : g.getFromCache h with
      | none => rw [hc] at hh; cases hh
      | some c => rw [CommitObject_keeps g h0 h c hc]; rfl
    rcases CommitObject_reads g h0 with ⟨hhit, hsame⟩ | ⟨hmiss, b, hone, hb⟩
    · refine ⟨new1, ?_, hcount, hstored, fun h hh => hcached h (hkeep h hh)⟩
      show (runCommitObjects (g.CommitObject h0).2 rest).GitRepo.reads = _
      rw [hreads, hsame]
    · refine ⟨new1 ++ [(h0, b)], ?_, ?_, ?_, ?_⟩
      · show (runCommitObjects (g.CommitObject h0).2 rest).GitRepo.reads = _
        rw [hreads, hone]
        simp
      · intro h
        rw [List.count_append]
        by_cases hh : (h, true) = (h0, b)
        · have h1 : h = h0 := congrArg Prod.fst hh
          have h2 : b = true := (congrArg Prod.snd hh).symm
          have hnot : (h, true) ∉ new1 := by
            rw [h1]
            exact hcached h0 (hb h2) true
          rw [List.count_eq_zero_of_not_mem hnot, ← hh]
          simp
        · have hz : List.count (h, true) [(h0, b)] = 0 :=
            List.count_eq_zero_of_not_mem (by simpa using hh)
          rw [hz]
          exact hcount h
      · intro h hm
        rcases List.mem_append.mp hm with hm1 | hm2
        · exact hstored h hm1
        · have heq : (h, true) = (h0, b) := by simpa using hm2
          have h1 : h = h0 := congrArg Prod.fst heq
          have h2 : b = true := (congrArg Prod.snd heq).symm
          have hsome := hb h2
          cases hc : (g.CommitObject h0).2.getFromCache h0 with
          | none => rw [hc] at hsome; cases hsome
          | some c =>
            show ((runCommitObjects (g.CommitObject h0).2 rest).getFromCache h).isSome = true
            rw [h1, runCommitObjects_keeps rest _ h0 c hc]
            rfl
      · intro h hh b' hm
        rcases List.mem_append.mp hm with hm1 | hm2
        · exact hcached h (hkeep h hh) b' hm1
        · have heq : (h, b') = (h0, b) := by simpa using hm2
          have h1 : h = h0 := congrArg Prod.fst heq
          rw [h1, hmiss] at hh
          cases hh

/-- C10: over any sequence of `CommitObject` calls with no `ClearCache` in between, an
entry that is stored at some moment is still stored, unchanged, at the end, and a call for
its hash returns the stored commit object and changes nothing, so it reads nothing; the
reads made during the sequence hold at most one successful read per commit hash, every
hash read successfully is stored, and a hash stored before the sequence is not read at
all. -/
theorem commitObject_reads_once (g : GitRepositoryWithCache) (calls : List Hash) :
    (∀ before after, calls = before ++ after → ∀ h c,
      (runCommitObjects g before).getFromCache h = some c →
        (runCommitObjects g calls).getFromCache h = some c ∧
        (runCommitObjects g calls).CommitObject h = (.ok c, runCommitObjects g calls)) ∧
    (∃ new, (runCommitObjects g calls).GitRepo.reads = new ++ g.GitRepo.reads ∧
      (∀ h, new.count (h, true) ≤ 1) ∧
      (∀ h, (h, true) ∈ new → ((runCommitObjects g calls).getFromCache h).isSome = true) ∧
      (∀ h, (g.getFromCache h).isSome = true → ∀ b, (h, b) ∉ new)) := by
  refine ⟨?_, runCommitObjects_reads calls g⟩
  intro before after hcalls h c hc
  have hend : (runCommitObjects g calls).getFromCache h = some c := by
    rw [hcalls, runCommitObjects_append]
    exact runCommitObjects_keeps after _ h c hc
  exact ⟨hend, CommitObject_hit _ h c hend⟩

/-- C10 on a repository that can read every commit, after calls for the hashes 1, 1
and 2: a further call for hash 1 returns the commit stored by the first call and leaves
the state as it is. -/
theorem commitObject_reads_once_witness :
    (runCommitObjects ⟨⟨fun _ h => .ok ⟨[], 0, h⟩, []⟩, []⟩ [1, 1, 2]).CommitObject 1 =
      (.ok ⟨[], 0, 1⟩, runCommitObjects ⟨⟨fun _ h => .ok ⟨[], 0, h⟩, []⟩, []⟩ [1, 1, 2]) :=
  ((commitObject_reads_once ⟨⟨fun _ h => .ok ⟨[], 0, h⟩, []⟩, []⟩ [1, 1, 2]).1
    [1] [1, 2] rfl 1 ⟨[], 0, 1⟩ rfl).2

/-- The reads of that sequence: one for hash 1 and one for hash 2, latest first. -/
theorem commitObject_reads_example :
    (runCommitObjects ⟨⟨fun _ h => .ok ⟨[], 0, h⟩, []⟩, []⟩ [1, 1, 2]).GitRepo.reads =
      [(2, true), (1, true)] := by
  decide

/-- C11: when a commit hash is not cached and the underlying read of it fails,
`CommitObject` returns no commit but an error whose message contains the hash, leaves the
cache exactly as it was, and the next `CommitObject` call for the same hash performs the
underlying read again and returns what that read answers. -/
theorem commitObject_failed_read (g : GitRepositoryWithCache) (h : Hash) (err : String)
    (hmiss : g.getFromCache h = none)
    (hfail : g.GitRepo.objects g.GitRepo.reads.length h = .error err) :
    (∃ msg, (g.CommitObject h).1 = .error msg ∧ strings.Contains msg h.String = true) ∧
    (g.CommitObject h).2.CommitCache = g.CommitCache ∧
    (g.CommitObject h).2.GitRepo.reads = (h, false) :: g.GitRepo.reads ∧
    (∃ b, ((g.CommitObject h).2.CommitObject h).2.GitRepo.reads =
      (h, b) :: (h, false) :: g.GitRepo.reads) ∧
    (∀ c, g.GitRepo.objects (g.GitRepo.reads.length + 1) h = .ok c →
      ((g.CommitObject h).2.CommitObject h).1 = .ok c) := by
  have hstep : g.CommitObject h =
      (.error ("unable to get commit object for " ++ h.String ++ ": " ++ err),
        { g with GitRepo := { g.GitRepo with reads := (h, false) :: g.GitRepo.reads } }) := by
    unfold GitRepositoryWithCache.CommitObject Repository.CommitObject
    rw [hmiss]
    simp only [hfail]
    rfl
  have hmiss' : (g.CommitObject h).2.getFromCache h = none := by
    rw [hstep]
    exact hmiss
  refine ⟨⟨_, by rw [hstep], ?_⟩, by rw [hstep], by rw [hstep], ?_, ?_⟩
  · unfold strings.Contains
    simp only [String.data_append, List.append_assoc]
    exact config.any_isPrefixOf_tails _ _ _
  · rcases CommitObject_reads (g.CommitObject h).2 h with ⟨hhit, _⟩ | ⟨_, b, hb, _⟩
    · rw [hmiss'] at hhit
      cases hhit
    · refine ⟨b, ?_⟩
      rw [hb, hstep]
  · intro c hc
    rcases CommitObject_miss (g.CommitObject h).2 h hmiss' with ⟨e, he, _⟩ | ⟨c', hc', hres, _⟩
    · rw [hstep] at he
      simp only [List.length_cons] at he
      rw [hc] at he
      cases he
    · rw [hstep] at hc'
      simp only [List.length_cons] at hc'
      rw [hc] at hc'
      cases hc'
      exact hres

/-- C11 on a repository in which no commit can be read, for hash 7 and an empty cache. -/
theorem commitObject_failed_read_witness :
    (GitRepositoryWithCache.CommitObject ⟨⟨fun _ _ => .error "object not found", []⟩, []⟩
      7).2.CommitCache = [] :=
  (commitObject_failed_read ⟨⟨fun _ _ => .error "object not found", []⟩, []⟩ 7
    "object not found" rfl rfl).2.1

/-- The error of that call, in full. -/
theorem commitObject_failed_read_example :
    (GitRepositoryWithCache.CommitObject ⟨⟨fun _ _ => .error "object not found", []⟩, []⟩
      7).1 = .error ("unable to get commit object for " ++
        "0000000000000000000000000000000000000007" ++ ": object not found") :=
  rfl

/-- C12: after `ClearCache` the cache holds no entry, and for every commit hash, also one
that was cached before, the next `CommitObject` call performs one underlying read and
returns its result: the commit read, or the error of the read with the hash in front. -/
theorem clearCache_fresh_read (g : GitRepositoryWithCache) (h : Hash) :
    g.ClearCache.CommitCache = [] ∧
    g.ClearCache.getFromCache h = none ∧
    (g.ClearCache.CommitObject h).2.GitRepo.reads =
      (h, (g.GitRepo.objects g.GitRepo.reads.length h).isOk) :: g.GitRepo.reads ∧
    (∀ c, g.GitRepo.objects g.GitRepo.reads.length h = .ok c →
      (g.ClearCache.CommitObject h).1 = .ok c) ∧
    (∀ err, g.GitRepo.objects g.GitRepo.reads.length h = .error err →
      (g.ClearCache.CommitObject h).1 =
        .error ("unable to get commit object for " ++ h.String ++ ": " ++ err)) := by
  have hnone : g.ClearCache.getFromCache h = none := rfl
  refine ⟨rfl, hnone, ?_, ?_, ?_⟩
  · unfold GitRepositoryWithCache.CommitObject Repository.CommitObject
    rw [hnone]
    cases hr : g.ClearCache.GitRepo.objects g.ClearCache.GitRepo.reads.length h <;>
      simp only [hr] <;> (simp only [GitRepositoryWithCache.ClearCache] at hr; rw [hr]; rfl)
  · intro c hc
    unfold GitRepositoryWithCache.CommitObject Repository.CommitObject
    rw [hnone]
    have hc' : g.ClearCache.GitRepo.objects g.ClearCache.GitRepo.reads.length h = .ok c := hc
    simp only [hc']
  · intro err he
    unfold GitRepositoryWithCache.CommitObject Repository.CommitObject
    rw [hnone]
    have he' : g.ClearCache.GitRepo.objects g.ClearCache.GitRepo.reads.length h =
        .error err := he
    simp only [he']

/-- C12 on a cache that holds hash 1: after the clear a call for hash 1 reads the
repository, which now answers with another commit, and returns that commit. -/
theorem clearCache_fresh_read_witness :
    ((GitRepositoryWithCache.ClearCache
        ⟨⟨fun _ h => .ok ⟨[], 5, h⟩, []⟩, [(1, ⟨[], 0, 1⟩)]⟩).CommitObject 1).1 =
      .ok ⟨[], 5, 1⟩ :=
  (clearCache_fresh_read ⟨⟨fun _ h => .ok ⟨[], 5, h⟩, []⟩, [(1, ⟨[], 0, 1⟩)]⟩ 1).2.2.2.1
    ⟨[], 5, 1⟩ rfl

/-! ## Concurrent callers -/

/-- What holds of every state the callers can reach from `Shared.init g0`; `new` are the
reads made since, latest first. -/
structure Inv (hash : Nat → Hash) (g0 : GitRepositoryWithCache) (s : Shared)
    (new : List (Hash × Bool)) : Prop where
  objects : s.g.GitRepo.objects = g0.GitRepo.objects
  reads : s.g.GitRepo.reads = new ++ g0.GitRepo.reads
  mutex : ∀ i, (s.pc i).critical = true ↔ s.mu = some i
  kept : ∀ h c, g0.getFromCache h = some c → s.g.getFromCache h = some c
  missing : ∀ i, (s.pc i = .reading ∨ ∃ c, s.pc i = .fetched c) →
    s.g.getFromCache (hash i) = none
  holding : ∀ i c, (s.pc i = .unlocking (.ok c) ∨ s.pc i = .returned (.ok c)) →
    s.g.getFromCache (hash i) = some c
  failed : ∀ i e, (s.pc i = .unlocking (.error e) ∨ s.pc i = .returned (.error e)) →
    (hash i, false) ∈ new
  fetchedRead : ∀ i c, s.pc i = .fetched c → (hash i, true) ∈ new
  once : ∀ h, new.count (h, true) ≤ 1
  stored : ∀ h, (h, true) ∈ new →
    (s.g.getFromCache h).isSome = true ∨ ∃ i c, hash i = h ∧ s.pc i = .fetched c
  source : ∀ h, (s.g.getFromCache h).isSome = true →
    (g0.getFromCache h).isSome = true ∨ (h, true) ∈ new
  answers : ∀ h b, (h, b) ∈ new → ∃ k, b = (g0.GitRepo.objects k h).isOk
  untouched : ∀ h, (g0.getFromCache h).isSome = true → ∀ b, (h, b) ∉ new

theorem Inv_init (hash : Nat → Hash) (g0 : GitRepositoryWithCache) :
    Inv hash g0 (Shared.init g0) [] where
  objects := rfl
  reads := rfl
  mutex := fun i => by simp [Shared.init, Pc.critical]
  kept := fun _ _ h => h
  missing := fun i h => by
    rcases h with h | ⟨c, h⟩ <;> simp [Shared.init] at h
  holding := fun i c h => by
    rcases h with h | h <;> simp [Shared.init] at h
  failed := fun i e h => by
    rcases h with h | h <;> simp [Shared.init] at h
  fetchedRead := fun i c h => by simp [Shared.init] at h
  once := fun _ => by simp
  stored := fun _ h => by cases h
  source := fun _ h => Or.inl h
  answers := fun _ _ h => by cases h
  untouched := fun _ _ _ h => by cases h

/-- Two callers that hold the mutex are one caller. -/
theorem Inv.holder {hash : Nat → Hash} {g0 : GitRepositoryWithCache} {s : Shared}
    {new : List (Hash × Bool)} (hI : Inv hash g0 s new) (i j : Nat)
    (hi : (s.pc i).critical = true) (hj : (s.pc j).critical = true) : i = j := by
  have h1 := (hI.mutex i).mp hi
  have h2 := (hI.mutex j).mp hj
  rw [h1] at h2
  exact Option.some.inj h2

/-- A caller moves to a place `p` without touching the cache, the mutex or the
repository. -/
theorem Inv.move {hash : Nat → Hash} {g0 : GitRepositoryWithCache} {s : Shared}
    {new : List (Hash × Bool)} (hI : Inv hash g0 s new) (i : Nat) (p : Pc)
    (hcrit : p.critical = (s.pc i).critical)
    (hmiss : (p = .reading ∨ ∃ c, p = .fetched c) → s.g.getFromCache (hash i) = none)
    (hhold : ∀ c, (p = .unlocking (.ok c) ∨ p = .returned (.ok c)) →
      s.g.getFromCache (hash i) = some c)
    (hfail : ∀ e, (p = .unlocking (.error e) ∨ p = .returned (.error e)) →
      (hash i, false) ∈ new)
    (hfetch : ∀ c, p = .fetched c → (hash i, true) ∈ new)
    (hwas : ∀ c, s.pc i ≠ .fetched c) :
    Inv hash g0 { s with pc := Function.update s.pc i p } new where
  objects := hI.objects
  reads := hI.reads
  mutex := fun j => by
    by_cases hj : j = i
    · subst hj
      simp only [Function.update_same, hcrit]
      exact hI.mutex j
    · simp only [Function.update_noteq hj]
      exact hI.mutex j
  kept := hI.kept
  missing := fun j h => by
    by_cases hj : j = i
    · subst hj
      simp only [Function.update_same] at h
      exact hmiss h
    · simp only [Function.update_noteq hj] at h
      exact hI.missing j h
  holding := fun j c h => by
    by_cases hj : j = i
    · subst hj
      simp only [Function.update_same] at h
      exact hhold c h
    · simp only [Function.update_noteq hj] at h
      exact hI.holding j c h
  failed := fun j e h => by
    by_cases hj : j = i
    · subst hj
      simp only [Function.update_same] at h
      exact hfail e h
    · simp only [Function.update_noteq hj] at h
      exact hI.failed j e h
  fetchedRead := fun j c h => by
    by_cases hj : j = i
    · subst hj
      simp only [Function.update_same] at h
      exact hfetch c h
    · simp only [Function.update_noteq hj] at h
      exact hI.fetchedRead j c h
  once := hI.once
  stored := fun h hm => by
    rcases hI.stored h hm with hc | ⟨j, c, hj, hpc⟩
    · exact Or.inl hc
    · refine Or.inr ⟨j, c, hj, ?_⟩
      have hne : j ≠ i := fun hji => hwas c (hji ▸ hpc)
      simp only [Function.update_noteq hne]
      exact hpc
  source := hI.source
  answers := hI.answers
  untouched := hI.untouched

/-- A waiting caller takes the free mutex. -/
theorem Inv.lock {hash : Nat → Hash} {g0 : GitRepositoryWithCache} {s : Shared}
    {new : List (Hash × Bool)} (hI : Inv hash g0 s new) (i : Nat)
    (hpc : s.pc i = .waiting) (hmu : s.mu = none) :
    Inv hash g0 { s with mu := some i, pc := Function.update s.pc i .locked } new where
  objects := hI.objects
  reads := hI.reads
  mutex := fun j => by
    by_cases hj : j = i
    · subst hj
      simp [Function.update_same, Pc.critical]
    · simp only [Function.update_noteq hj]
      have hold := hI.mutex j
      rw [hmu] at hold
      constructor
      · intro hc
        exact absurd (hold.mp hc) (by simp)
      · intro hc
        exact absurd (Option.some.inj hc).symm hj
  kept := hI.kept
  missing := fun j h => by
    by_cases hj : j = i
    · subst hj
      simp [Function.update_same] at h
    · simp only [Function.update_noteq hj] at h
      exact hI.missing j h
  holding := fun j c h => by
    by_cases hj : j = i
    · subst hj
      simp [Function.update_same] at h
    · simp only [Function.update_noteq hj] at h
      exact hI.holding j c h
  failed := fun j e h => by
    by_cases hj : j = i
    · subst hj
      simp [Function.update_same] at h
    · simp only [Function.update_noteq hj] at h
      exact hI.failed j e h
  fetchedRead := fun j c h => by
    by_cases hj : j = i
    · subst hj
      simp [Function.update_same] at h
    · simp only [Function.update_noteq hj] at h
      exact hI.fetchedRead j c h
  once := hI.once
  stored := fun h hm => by
    rcases hI.stored h hm with hc | ⟨j, c, hj, hpcj⟩
    · exact Or.inl hc
    · refine Or.inr ⟨j, c, hj, ?_⟩
      have hne : j ≠ i := fun hji => by
        rw [hji, hpc] at hpcj
        cases hpcj
      simp only [Function.update_noteq hne]
      exact hpcj
  source := hI.source
  answers := hI.answers
  untouched := hI.untouched

/-- The caller that holds the mutex releases it and returns. -/
theorem Inv.unlock {hash : Nat → Hash} {g0 : GitRepositoryWithCache} {s : Shared}
    {new : List (Hash × Bool)} (hI : Inv hash g0 s new) (i : Nat)
    (res : Except String Commit) (hpc : s.pc i = .unlocking res) :
    Inv hash g0 { s with mu := none, pc := Function.update s.pc i (.returned res) } new where
  objects := hI.objects
  reads := hI.reads
  mutex := fun j => by
    by_cases hj : j = i
    · subst hj
      simp [Function.update_same, Pc.critical]
    · simp only [Function.update_noteq hj]
      constructor
      · intro hc
        have hi : (s.pc i).critical = true := by rw [hpc]; rfl
        exact absurd (hI.holder j i hc hi) hj
      · intro hc
        cases hc
  kept := hI.kept
  missing := fun j h => by
    by_cases hj : j = i
    · subst hj
      simp [Function.update_same] at h
    · simp only [Function.update_noteq hj] at h
      exact hI.missing j h
  holding := fun j c h => by
    by_cases hj : j = i
    · subst hj
      simp only [Function.update_same] at h
      refine hI.holding j c (Or.inl ?_)
      rcases h with h | h
      · cases h
      · rw [hpc]
        cases h
        rfl
    · simp only [Function.update_noteq hj] at h
      exact hI.holding j c h
  failed := fun j e h => by
    by_cases hj : j = i
    · subst hj
      simp only [Function.update_same] at h
      refine hI.failed j e (Or.inl ?_)
      rcases h with h | h
      · cases h
      · rw [hpc]
        cases h
        rfl
    · simp only [Function.update_noteq hj] at h
      exact hI.failed j e h
  fetchedRead := fun j c h => by
    by_cases hj : j = i
    · subst hj
      simp [Function.update_same] at h
    · simp only [Function.update_noteq hj] at h
      exact hI.fetchedRead j c h
  once := hI.once
  stored := fun h hm => by
    rcases hI.stored h hm with hc | ⟨j, c, hj, hpcj⟩
    · exact Or.inl hc
    · refine Or.inr ⟨j, c, hj, ?_⟩
      have hne : j ≠ i := fun hji => by
        rw [hji, hpc] at hpcj
        cases hpcj
      simp only [Function.update_noteq hne]
      exact hpcj
  source := hI.source
  answers := hI.answers
  untouched := hI.untouched

/-- The read of the caller that holds the mutex ends: it is recorded, and the caller
goes on with the commit or with the error. -/
theorem Inv.read {hash : Nat → Hash} {g0 : GitRepositoryWithCache} {s : Shared}
    {new : List (Hash × Bool)} (hI : Inv hash g0 s new) (i : Nat) (b : Bool) (p : Pc)
    (hpc : s.pc i = .reading)
    (hb : b = (s.g.GitRepo.objects s.g.GitRepo.reads.length (hash i)).isOk)
    (hp : (b = false ∧ ∃ msg, p = .unlocking (.error msg)) ∨ (b = true ∧ ∃ c, p = .fetched c)) :
    Inv hash g0
      { s with
        g := { s.g with GitRepo := { s.g.GitRepo with reads := (hash i, b) :: s.g.GitRepo.reads } }
        pc := Function.update s.pc i p }
      ((hash i, b) :: new) where
  objects := hI.objects
  reads := by
    show (hash i, b) :: s.g.GitRepo.reads = (hash i, b) :: new ++ g0.GitRepo.reads
    rw [hI.reads]
    rfl
  mutex := fun j => by
    by_cases hj : j = i
    · subst hj
      have hcrit : p.critical = true := by
        rcases hp with ⟨_, msg, hp⟩ | ⟨_, c, hp⟩ <;> rw [hp] <;> rfl
      simp only [Function.update_same, hcrit]
      have hold := hI.mutex j
      rw [hpc] at hold
      exact ⟨fun _ => hold.mp rfl, fun _ => trivial⟩
    · simp only [Function.update_noteq hj]
      exact hI.mutex j
  kept := hI.kept
  missing := fun j h => by
    by_cases hj : j = i
    · subst hj
      exact hI.missing j (Or.inl hpc)
    · simp only [Function.update_noteq hj] at h
      exact hI.missing j h
  holding := fun j c h => by
    by_cases hj : j = i
    · subst hj
      simp only [Function.update_same] at h
      rcases hp with ⟨_, msg, hp⟩ | ⟨_, c', hp⟩ <;> rw [hp] at h <;>
        rcases h with h | h <;> cases h
    · simp only [Function.update_noteq hj] at h
      exact hI.holding j c h
  failed := fun j e h => by
    by_cases hj : j = i
    · subst hj
      simp only [Function.update_same] at h
      rcases hp with ⟨hbf, msg, hp⟩ | ⟨_, c', hp⟩
      · rw [hbf]
        exact List.mem_cons_self _ _
      · rw [hp] at h
        rcases h with h | h <;> cases h
    · simp only [Function.update_noteq hj] at h
      exact List.mem_cons_of_mem _ (hI.failed j e h)
  fetchedRead := fun j c h => by
    by_cases hj : j = i
    · subst hj
      simp only [Function.update_same] at h
      rcases hp with ⟨_, msg, hp⟩ | ⟨hbt, c', hp⟩
      · rw [hp] at h
        cases h
      · rw [hbt]
        exact List.mem_cons_self _ _
    · simp only [Function.update_noteq hj] at h
      exact List.mem_cons_of_mem _ (hI.fetchedRead j c h)
  once := fun h => by
    by_cases hh : (hash i, b) = (h, true)
    · have h1 : hash i = h := congrArg Prod.fst hh
      have hnot : (h, true) ∉ new := by
        intro hm
        rcases hI.stored h hm with hc | ⟨j, c, hj, hpcj⟩
        · rw [← h1, hI.missing i (Or.inl hpc)] at hc
          cases hc
        · have hji : j = i := hI.holder j i (by rw [hpcj]; rfl) (by rw [hpc]; rfl)
          rw [hji, hpc] at hpcj
          cases hpcj
      rw [hh, List.count_cons_self, List.count_eq_zero_of_not_mem hnot]
    · rw [List.count_cons_of_ne (fun heq => hh heq.symm)]
      exact hI.once h
  stored := fun h hm => by
    rcases List.mem_cons.mp hm with heq | hm'
    · have h1 : h = hash i := congrArg Prod.fst heq
      have h2 : b = true := (congrArg Prod.snd heq).symm
      rcases hp with ⟨hbf, _⟩ | ⟨_, c, hp⟩
      · rw [hbf] at h2
        cases h2
      · exact Or.inr ⟨i, c, h1.symm, by simp only [Function.update_same, hp]⟩
    · rcases hI.stored h hm' with hc | ⟨j, c, hj, hpcj⟩
      · exact Or.inl hc
      · have hji : j = i := hI.holder j i (by rw [hpcj]; rfl) (by rw [hpc]; rfl)
        rw [hji, hpc] at hpcj
        cases hpcj
  source := fun h hc => by
    rcases hI.source h hc with h0 | hm
    · exact Or.inl h0
    · exact Or.inr (List.mem_cons_of_mem _ hm)
  answers := fun h b' hm => by
    rcases List.mem_cons.mp hm with heq | hm'
    · have h1 : h = hash i := congrArg Prod.fst heq
      have h2 : b' = b := congrArg Prod.snd heq
      refine ⟨s.g.GitRepo.reads.length, ?_⟩
      rw [h2, h1, hb, hI.objects]
    · exact hI.answers h b' hm'
  untouched := fun h h0 b' hm => by
    rcases List.mem_cons.mp hm with heq | hm'
    · have h1 : h = hash i := congrArg Prod.fst heq
      cases hc : g0.getFromCache h with
      | none => rw [hc] at h0; cases h0
      | some c =>
        have hk := hI.kept h c hc
        rw [h1, hI.missing i (Or.inl hpc)] at hk
        cases hk
    · exact hI.untouched h h0 b' hm'

/-- The caller that holds the mutex stores the commit it has read. -/
theorem Inv.store {hash : Nat → Hash} {g0 : GitRepositoryWithCache} {s : Shared}
    {new : List (Hash × Bool)} (hI : Inv hash g0 s new) (i : Nat) (c : Commit)
    (hpc : s.pc i = .fetched c) :
    Inv hash g0
      { s with
        g := s.g.addToCache (hash i) c
        pc := Function.update s.pc i (.unlocking (.ok c)) }
      new where
  objects := hI.objects
  reads := hI.reads
  mutex := fun j => by
    by_cases hj : j = i
    · subst hj
      have hold := hI.mutex j
      rw [hpc] at hold
      simp only [Function.update_same]
      exact hold
    · simp only [Function.update_noteq hj]
      exact hI.mutex j
  kept := fun h c0 h0 => by
    have hk := hI.kept h c0 h0
    have hne : h ≠ hash i := by
      intro heq
      rw [heq, hI.missing i (Or.inr ⟨c, hpc⟩)] at hk
      cases hk
    show (s.g.addToCache (hash i) c).getFromCache h = some c0
    rw [getFromCache_addToCache_other _ h (hash i) c hne]
    exact hk
  missing := fun j h => by
    by_cases hj : j = i
    · subst hj
      simp [Function.update_same] at h
    · simp only [Function.update_noteq hj] at h
      have hcrit : (s.pc j).critical = true := by
        rcases h with h | ⟨c', h⟩ <;> rw [h] <;> rfl
      exact absurd (hI.holder j i hcrit (by rw [hpc]; rfl)) hj
  holding := fun j c' h => by
    show (s.g.addToCache (hash i) c).getFromCache (hash j) = some c'
    by_cases hj : j = i
    · subst hj
      simp only [Function.update_same] at h
      rw [getFromCache_addToCache_same]
      rcases h with h | h <;> cases h
      rfl
    · simp only [Function.update_noteq hj] at h
      have hold := hI.holding j c' h
      have hne : hash j ≠ hash i := by
        intro heq
        rw [heq, hI.missing i (Or.inr ⟨c, hpc⟩)] at hold
        cases hold
      rw [getFromCache_addToCache_other _ (hash j) (hash i) c hne]
      exact hold
  failed := fun j e h => by
    by_cases hj : j = i
    · subst hj
      simp only [Function.update_same] at h
      rcases h with h | h <;> cases h
    · simp only [Function.update_noteq hj] at h
      exact hI.failed j e h
  fetchedRead := fun j c' h => by
    by_cases hj : j = i
    · subst hj
      simp [Function.update_same] at h
    · simp only [Function.update_noteq hj] at h
      exact hI.fetchedRead j c' h
  once := hI.once
  stored := fun h hm => by
    left
    show ((s.g.addToCache (hash i) c).getFromCache h).isSome = true
    by_cases hh : h = hash i
    · rw [hh, getFromCache_addToCache_same]
      rfl
    · rw [getFromCache_addToCache_other _ h (hash i) c hh]
      rcases hI.stored h hm with hc | ⟨j, c', hj, hpcj⟩
      · exact hc
      · have hji : j = i := hI.holder j i (by rw [hpcj]; rfl) (by rw [hpc]; rfl)
        rw [hji] at hj
        exact absurd hj.symm hh
  source := fun h hc => by
    by_cases hh : h = hash i
    · rw [hh]
      exact Or.inr (hI.fetchedRead i c hpc)
    · have hc' : ((s.g.addToCache (hash i) c).getFromCache h).isSome = true := hc
      rw [getFromCache_addToCache_other _ h (hash i) c hh] at hc'
      exact hI.source h hc'
  answers := hI.answers
  untouched := hI.untouched

/-- Every operation of every caller keeps the invariant. -/
theorem Inv.step {hash : Nat → Hash} {g0 : GitRepositoryWithCache} {s s' : Shared}
    {new : List (Hash × Bool)} (hI : Inv hash g0 s new) (i : Nat)
    (hs : s.step hash i = some s') : ∃ new', Inv hash g0 s' new' := by
  unfold Shared.step at hs
  cases hpc : s.pc i with
  | start =>
    rw [hpc] at hs
    cases hc : s.g.getFromCache (hash i) with
    | some c =>
      simp only [hc, Option.some.injEq] at hs
      rw [← hs]
      refine ⟨new, hI.move i _ (by rw [hpc]; rfl) ?_ ?_ ?_ ?_ (by rw [hpc]; intro c'; simp)⟩
      · intro h
        rcases h with h | ⟨c', h⟩ <;> cases h
      · intro c' h
        rcases h with h | h <;> cases h
        exact hc
      · intro e h
        rcases h with h | h <;> cases h
      · intro c' h
        cases h
    | none =>
      simp only [hc, Option.some.injEq] at hs
      rw [← hs]
      refine ⟨new, hI.move i _ (by rw [hpc]; rfl) ?_ ?_ ?_ ?_ (by rw [hpc]; intro c'; simp)⟩
      · intro h
        rcases h with h | ⟨c', h⟩ <;> cases h
      · intro c' h
        rcases h with h | h <;> cases h
      · intro e h
        rcases h with h | h <;> cases h
      · intro c' h
        cases h
  | waiting =>
    rw [hpc] at hs
    cases hmu : s.mu with
    | some j => simp [hmu] at hs
    | none =>
      simp only [hmu, Option.some.injEq] at hs
      rw [← hs]
      exact ⟨new, hI.lock i hpc hmu⟩
  | locked =>
    rw [hpc] at hs
    cases hc : s.g.getFromCache (hash i) with
    | some c =>
      simp only [hc, Option.some.injEq] at hs
      rw [← hs]
      refine ⟨new, hI.move i _ (by rw [hpc]; rfl) ?_ ?_ ?_ ?_ (by rw [hpc]; intro c'; simp)⟩
      · intro h
        rcases h with h | ⟨c', h⟩ <;> cases h
      · intro c' h
        rcases h with h | h <;> cases h
        exact hc
      · intro e h
        rcases h with h | h <;> cases h
      · intro c' h
        cases h
    | none =>
      simp only [hc, Option.some.injEq] at hs
      rw [← hs]
      refine ⟨new, hI.move i _ (by rw [hpc]; rfl) ?_ ?_ ?_ ?_ (by rw [hpc]; intro c'; simp)⟩
      · intro _
        exact hc
      · intro c' h
        rcases h with h | h <;> cases h
      · intro e h
        rcases h with h | h <;> cases h
      · intro c' h
        cases h
  | reading =>
    rw [hpc] at hs
    unfold Repository.CommitObject at hs
    cases hr : s.g.GitRepo.objects s.g.GitRepo.reads.length (hash i) with
    | error err =>
      simp only [hr, Option.some.injEq] at hs
      rw [← hs]
      exact ⟨_, hI.read i false _ hpc (by rw [hr]; rfl) (Or.inl ⟨rfl, _, rfl⟩)⟩
    | ok c =>
      simp only [hr, Option.some.injEq] at hs
      rw [← hs]
      exact ⟨_, hI.read i true _ hpc (by rw [hr]; rfl) (Or.inr ⟨rfl, c, rfl⟩)⟩
  | fetched c =>
    rw [hpc] at hs
    simp only [Option.some.injEq] at hs
    rw [← hs]
    exact ⟨new, hI.store i c hpc⟩
  | unlocking res =>
    rw [hpc] at hs
    simp only [Option.some.injEq] at hs
    rw [← hs]
    exact ⟨new, hI.unlock i res hpc⟩
  | returned res =>
    rw [hpc] at hs
    cases hs

/-- Every state the callers reach keeps the invariant. -/
theorem Inv.run {hash : Nat → Hash} {g0 : GitRepositoryWithCache} (schedule : List Nat)
    {s : Shared} {new : List (Hash × Bool)} (hI : Inv hash g0 s new) :
    ∃ new', Inv hash g0 (Shared.run hash s schedule) new' := by
  induction schedule generalizing s new with
  | nil => exact ⟨new, hI⟩
  | cons i rest ih =>
    simp only [Shared.run]
    cases hs : s.step hash i with
    | none => exact ih hI
    | some s' =>
      obtain ⟨new', hI'⟩ := hI.step i hs
      exact ih hI'

/-- A caller that runs all its operations with nobody else moving does what the method
`CommitObject` does, and leaves the mutex free. -/
theorem alone_is_CommitObject (hash : Nat → Hash) (g : GitRepositoryWithCache) (i : Nat) :
    (Shared.run hash (Shared.init g) [i, i, i, i, i, i]).g = (g.CommitObject (hash i)).2 ∧
    (Shared.run hash (Shared.init g) [i, i, i, i, i, i]).pc i =
      .returned (g.CommitObject (hash i)).1 ∧
    (Shared.run hash (Shared.init g) [i, i, i, i, i, i]).mu = none := by
  unfold GitRepositoryWithCache.CommitObject Repository.CommitObject
  cases hc : g.getFromCache (hash i) with
  | some c =>
    simp [Shared.run, Shared.step, Shared.init, hc]
  | none =>
    cases hr : g.GitRepo.objects g.GitRepo.reads.length (hash i) with
    | error err =>
      simp [Shared.run, Shared.step, Shared.init, hc, hr, Repository.CommitObject]
    | ok c =>
      simp [Shared.run, Shared.step, Shared.init, hc, hr, Repository.CommitObject]

/-! ## Callers that keep being scheduled return -/

/-- The schedule is run piece by piece. -/
theorem run_append (hash : Nat → Hash) (a b : List Nat) (s : Shared) :
    Shared.run hash s (a ++ b) = Shared.run hash (Shared.run hash s a) b := by
  induction a generalizing s with
  | nil => rfl
  | cons i rest ih => exact ih _

/-- An operation moves its caller alone, and towards the return. -/
theorem step_some {hash : Nat → Hash} {s s' : Shared} {i : Nat}
    (hs : s.step hash i = some s') :
    (∀ j, j ≠ i → s'.pc j = s.pc j) ∧ (s'.pc i).remaining + 1 ≤ (s.pc i).remaining := by
  unfold Shared.step at hs
  cases hpc : s.pc i with
  | start =>
    rw [hpc] at hs
    cases hc : s.g.getFromCache (hash i) with
    | some c =>
      simp only [hc, Option.some.injEq] at hs
      rw [← hs]
      exact ⟨fun j hj => Function.update_noteq hj _ _, by simp [Pc.remaining]⟩
    | none =>
      simp only [hc, Option.some.injEq] at hs
      rw [← hs]
      exact ⟨fun j hj => Function.update_noteq hj _ _, by simp [Pc.remaining]⟩
  | waiting =>
    rw [hpc] at hs
    cases hmu : s.mu with
    | some j => simp [hmu] at hs
    | none =>
      simp only [hmu, Option.some.injEq] at hs
      rw [← hs]
      exact ⟨fun j hj => Function.update_noteq hj _ _, by simp [Pc.remaining]⟩
  | locked =>
    rw [hpc] at hs
    cases hc : s.g.getFromCache (hash i) with
    | some c =>
      simp only [hc, Option.some.injEq] at hs
      rw [← hs]
      exact ⟨fun j hj => Function.update_noteq hj _ _, by simp [Pc.remaining]⟩
    | none =>
      simp only [hc, Option.some.injEq] at hs
      rw [← hs]
      exact ⟨fun j hj => Function.update_noteq hj _ _, by simp [Pc.remaining]⟩
  | reading =>
    rw [hpc] at hs
    unfold Repository.CommitObject at hs
    cases hr : s.g.GitRepo.objects s.g.GitRepo.reads.length (hash i) with
    | error err =>
      simp only [hr, Option.some.injEq] at hs
      rw [← hs]
      exact ⟨fun j hj => Function.update_noteq hj _ _, by simp [Pc.remaining]⟩
    | ok c =>
      simp only [hr, Option.some.injEq] at hs
      rw [← hs]
      exact ⟨fun j hj => Function.update_noteq hj _ _, by simp [Pc.remaining]⟩
  | fetched c =>
    rw [hpc] at hs
    simp only [Option.some.injEq] at hs
    rw [← hs]
    exact ⟨fun j hj => Function.update_noteq hj _ _, by simp [Pc.remaining]⟩
  | unlocking res =>
    rw [hpc] at hs
    simp only [Option.some.injEq] at hs
    rw [← hs]
    exact ⟨fun j hj => Function.update_noteq hj _ _, by simp [Pc.remaining]⟩
  | returned res =>
    rw [hpc] at hs
    cases hs

/-- A caller that cannot move waits for a mutex that somebody holds, or has returned. -/
theorem step_none {hash : Nat → Hash} {s : Shared} {i : Nat}
    (hs : s.step hash i = none) :
    (s.pc i = .waiting ∧ ∃ j, s.mu = some j) ∨ ∃ res, s.pc i = .returned res := by
  unfold Shared.step at hs
  cases hpc : s.pc i with
  | start =>
    rw [hpc] at hs
    cases hc : s.g.getFromCache (hash i) <;> simp [hc] at hs
  | waiting =>
    rw [hpc] at hs
    cases hmu : s.mu with
    | some j => exact Or.inl ⟨rfl, j, rfl⟩
    | none => simp [hmu] at hs
  | locked =>
    rw [hpc] at hs
    cases hc : s.g.getFromCache (hash i) <;> simp [hc] at hs
  | reading =>
    rw [hpc] at hs
    unfold Repository.CommitObject at hs
    cases hr : s.g.GitRepo.objects s.g.GitRepo.reads.length (hash i) <;> simp [hr] at hs
  | fetched c =>
    rw [hpc] at hs
    cases hs
  | unlocking res =>
    rw [hpc] at hs
    cases hs
  | returned res => exact Or.inr ⟨res, rfl⟩

/-- The caller that holds the mutex can always move. -/
theorem step_critical (hash : Nat → Hash) {s : Shared} {i : Nat}
    (hc : (s.pc i).critical = true) : ∃ s', s.step hash i = some s' := by
  cases hs : s.step hash i with
  | some s' => exact ⟨s', rfl⟩
  | none =>
    rcases step_none hs with ⟨hw, _⟩ | ⟨res, hr⟩
    · rw [hw] at hc
      cases hc
    · rw [hr] at hc
      cases hc

/-- An operation of a caller does not add to what the callers `cs` have still to do, and
takes from it when the caller is one of them. -/
theorem step_remaining {hash : Nat → Hash} {s s' : Shared} {i : Nat}
    (hs : s.step hash i = some s') (cs : List Nat) :
    s'.remaining cs ≤ s.remaining cs ∧ (i ∈ cs → s'.remaining cs + 1 ≤ s.remaining cs) := by
  obtain ⟨hother, hi⟩ := step_some hs
  have hle : ∀ j, (s'.pc j).remaining ≤ (s.pc j).remaining := by
    intro j
    by_cases hj : j = i
    · rw [hj]
      omega
    · rw [hother j hj]
  induction cs with
  | nil => exact ⟨Nat.le_refl _, fun h => absurd h (List.not_mem_nil i)⟩
  | cons k rest ih =>
    have hcons : ∀ t : Shared, t.remaining (k :: rest) = (t.pc k).remaining + t.remaining rest :=
      fun t => by simp [Shared.remaining]
    rw [hcons, hcons]
    refine ⟨Nat.add_le_add (hle k) ih.1, fun hmem => ?_⟩
    rcases List.mem_cons.mp hmem with hk | hk
    · rw [← hk]
      have := ih.1
      omega
    · have := ih.2 hk
      have := hle k
      omega

/-- A schedule does not add to what the callers `cs` have still to do. -/
theorem run_remaining (hash : Nat → Hash) (cs schedule : List Nat) (s : Shared) :
    (Shared.run hash s schedule).remaining cs ≤ s.remaining cs := by
  induction schedule generalizing s with
  | nil => exact Nat.le_refl _
  | cons i rest ih =>
    simp only [Shared.run]
    cases hs : s.step hash i with
    | none => exact ih s
    | some s' => exact Nat.le_trans (ih s') (step_remaining hs cs).1

/-- A piece of the schedule in which nobody can move changes nothing; any other piece
takes from what the callers `cs` have still to do. -/
theorem run_stuck_or_less (hash : Nat → Hash) (cs round : List Nat) (s : Shared)
    (hround : ∀ i ∈ round, i ∈ cs) :
    ((∀ i ∈ round, s.step hash i = none) ∧ Shared.run hash s round = s) ∨
    (Shared.run hash s round).remaining cs + 1 ≤ s.remaining cs := by
  induction round with
  | nil => exact Or.inl ⟨fun i h => absurd h (List.not_mem_nil i), rfl⟩
  | cons i rest ih =>
    simp only [Shared.run]
    cases hs : s.step hash i with
    | some s' =>
      right
      have h1 := run_remaining hash cs rest s'
      have h2 := (step_remaining hs cs).2 (hround i (List.mem_cons_self i rest))
      exact Nat.le_trans (Nat.succ_le_succ h1) h2
    | none =>
      rcases ih (fun k hk => hround k (List.mem_cons_of_mem i hk)) with ⟨hall, hrun⟩ | hless
      · left
        refine ⟨fun k hk => ?_, hrun⟩
        rcases List.mem_cons.mp hk with hk | hk
        · rw [hk]
          exact hs
        · exact hall k hk
      · exact Or.inr hless

/-- A caller that has never had a turn is where it started. -/
theorem run_start (hash : Nat → Hash) (schedule : List Nat) (s : Shared) (j : Nat)
    (hj : j ∉ schedule) (hs : s.pc j = .start) :
    (Shared.run hash s schedule).pc j = .start := by
  induction schedule generalizing s with
  | nil => exact hs
  | cons i rest ih =>
    simp only [Shared.run]
    have hji : j ≠ i := fun h => hj (h ▸ List.mem_cons_self i rest)
    have hrest : j ∉ rest := fun h => hj (List.mem_cons_of_mem i h)
    cases hstep : s.step hash i with
    | none => exact ih s hrest hs
    | some s' =>
      refine ih s' hrest ?_
      rw [(step_some hstep).1 j hji]
      exact hs

/-- Callers that have all returned stay as they are. -/
theorem run_returned (hash : Nat → Hash) (schedule : List Nat) (s : Shared)
    (h : ∀ i ∈ schedule, ∃ res, s.pc i = .returned res) : Shared.run hash s schedule = s := by
  induction schedule with
  | nil => rfl
  | cons i rest ih =>
    obtain ⟨res, hres⟩ := h i (List.mem_cons_self i rest)
    have hstep : s.step hash i = none := by
      unfold Shared.step
      rw [hres]
    simp only [Shared.run, hstep, Option.getD_none]
    exact ih (fun k hk => h k (List.mem_cons_of_mem i hk))

/-- One round in which every caller of `cs` gets a turn: they have all returned already,
or the round takes from what they have still to do. -/
theorem round_progress {hash : Nat → Hash} {g0 : GitRepositoryWithCache} {s : Shared}
    {new : List (Hash × Bool)} (hI : Inv hash g0 s new) (cs round : List Nat)
    (hout : ∀ j, j ∉ cs → s.pc j = .start)
    (hround : (∀ i ∈ round, i ∈ cs) ∧ (∀ i ∈ cs, i ∈ round)) :
    (∀ i ∈ cs, ∃ res, s.pc i = .returned res) ∨
    (Shared.run hash s round).remaining cs + 1 ≤ s.remaining cs := by
  rcases run_stuck_or_less hash cs round s hround.1 with ⟨hall, _⟩ | hless
  · left
    intro i hi
    rcases step_none (hall i (hround.2 i hi)) with ⟨_, j, hj⟩ | hres
    · have hcrit : (s.pc j).critical = true := (hI.mutex j).mpr hj
      have hjcs : j ∈ cs := by
        by_contra hjn
        rw [hout j hjn] at hcrit
        cases hcrit
      obtain ⟨s', hs'⟩ := step_critical hash hcrit
      rw [hall j (hround.2 j hjcs)] at hs'
      cases hs'
    · exact hres
  · exact Or.inr hless

/-- Round after round, the callers of `cs` have all returned, or every round has taken
from what they have still to do. -/
theorem rounds_progress {hash : Nat → Hash} {g0 : GitRepositoryWithCache} (cs : List Nat)
    (rounds : List (List Nat)) (hfair : Fair cs rounds) {s : Shared}
    {new : List (Hash × Bool)} (hI : Inv hash g0 s new)
    (hout : ∀ j, j ∉ cs → s.pc j = .start) :
    (∀ i ∈ cs, ∃ res, (Shared.run hash s rounds.flatten).pc i = .returned res) ∨
    (Shared.run hash s rounds.flatten).remaining cs + rounds.length ≤ s.remaining cs := by
  induction rounds generalizing s new with
  | nil => exact Or.inr (Nat.le_refl _)
  | cons round rest ih =>
    have hround := hfair round (List.mem_cons_self round rest)
    have hrest : Fair cs rest := fun r hr => hfair r (List.mem_cons_of_mem round hr)
    have hflat : rest.flatten.all (fun i => decide (i ∈ cs)) = true := by
      rw [List.all_eq_true]
      intro i hi
      obtain ⟨r, hr, hir⟩ := List.mem_flatten.mp hi
      exact decide_eq_true ((hrest r hr).1 i hir)
    rw [List.flatten_cons, run_append]
    rcases round_progress hI cs round hout hround with hdone | hless
    · left
      have h1 : Shared.run hash s round = s :=
        run_returned hash round s (fun i hi => hdone i (hround.1 i hi))
      have h2 : Shared.run hash s rest.flatten = s := by
        refine run_returned hash rest.flatten s (fun i hi => hdone i ?_)
        exact of_decide_eq_true (List.all_eq_true.mp hflat i hi)
      rw [h1, h2]
      exact hdone
    · obtain ⟨new', hI'⟩ := hI.run round
      have hout' : ∀ j, j ∉ cs → (Shared.run hash s round).pc j = .start :=
        fun j hj => run_start hash round s j (fun hm => hj (hround.1 j hm)) (hout j hj)
      rcases ih hrest hI' hout' with hdone | hless'
      · exact Or.inl hdone
      · right
        rw [List.length_cons]
        omega

/-- A caller whose place leaves nothing to do has returned. -/
theorem remaining_zero (p : Pc) (h : p.remaining = 0) : ∃ res, p = .returned res := by
  cases p <;> first | exact ⟨_, rfl⟩ | cases h

/-- At the outset every caller has the six operations of a miss before it. -/
theorem init_remaining (g0 : GitRepositoryWithCache) (cs : List Nat) :
    (Shared.init g0).remaining cs = 6 * cs.length := by
  induction cs with
  | nil => rfl
  | cons k rest ih =>
    have hcons : (Shared.init g0).remaining (k :: rest) =
        6 + (Shared.init g0).remaining rest := by
      simp [Shared.remaining, Shared.init, Pc.remaining]
    rw [hcons, ih, List.length_cons]
    omega

/-- Callers that keep being scheduled return: after whatever the callers `cs` have done
so far, six rounds for each of them, in each of which every one of them gets a turn,
bring them all to their return. -/
theorem fair_callers_return (hash : Nat → Hash) (g0 : GitRepositoryWithCache)
    (cs before : List Nat) (rounds : List (List Nat)) (hbefore : ∀ i ∈ before, i ∈ cs)
    (hfair : Fair cs rounds) (hlen : 6 * cs.length ≤ rounds.length) :
    ∀ i ∈ cs, ∃ res,
      (Shared.run hash (Shared.init g0) (before ++ rounds.flatten)).pc i = .returned res := by
  rw [run_append]
  obtain ⟨new, hI⟩ := (Inv_init hash g0).run before
  have hout : ∀ j, j ∉ cs → (Shared.run hash (Shared.init g0) before).pc j = .start :=
    fun j hj => run_start hash before _ j (fun hm => hj (hbefore j hm)) rfl
  have hinit := init_remaining g0 cs
  have hstart := run_remaining hash cs before (Shared.init g0)
  rcases rounds_progress cs rounds hfair hI hout with hdone | hless
  · exact hdone
  · intro i hi
    apply remaining_zero
    have hzero : (Shared.run hash (Shared.run hash (Shared.init g0) before)
        rounds.flatten).remaining cs = 0 := by omega
    unfold Shared.remaining at hzero
    exact List.sum_eq_zero_iff.mp hzero _ (List.mem_map.mpr ⟨i, hi, rfl⟩)

/-! ## Failed reads -/

/-- An operation either leaves the callers whose read has failed and the failed reads as
they were (a successful read apart, which adds a read that did not fail), or it is the end
of a read that failed: of a caller who had not failed before, and with one more failed
read of its hash. -/
theorem step_failed {hash : Nat → Hash} {s s' : Shared} {i : Nat}
    (hs : s.step hash i = some s') :
    ((∀ j, (s'.pc j).failed = true → (s.pc j).failed = true) ∧
      ∀ h, s.g.GitRepo.reads.count (h, false) ≤ s'.g.GitRepo.reads.count (h, false)) ∨
    ((s.pc i).failed = false ∧
      s'.g.GitRepo.reads = (hash i, false) :: s.g.GitRepo.reads) := by
  have hkeep : ∀ (p : Pc) (g : GitRepositoryWithCache), (s.pc i).failed = p.failed →
      g.GitRepo.reads = s.g.GitRepo.reads ∨
        (∃ h, g.GitRepo.reads = (h, true) :: s.g.GitRepo.reads) →
      (∀ j, (Function.update s.pc i p j).failed = true → (s.pc j).failed = true) ∧
      ∀ h, s.g.GitRepo.reads.count (h, false) ≤ g.GitRepo.reads.count (h, false) := by
    intro p g hp hg
    constructor
    · intro j hj
      by_cases hji : j = i
      · rw [hji, Function.update_same] at hj
        rw [hji, hp]
        exact hj
      · rw [Function.update_noteq hji] at hj
        exact hj
    · intro h
      rcases hg with hg | ⟨h', hg⟩
      · rw [hg]
      · rw [hg]
        exact List.count_le_count_cons _ _ _
  unfold Shared.step at hs
  cases hpc : s.pc i with
  | start =>
    rw [hpc] at hs
    cases hc : s.g.getFromCache (hash i) with
    | some c =>
      simp only [hc, Option.some.injEq] at hs
      rw [← hs]
      exact Or.inl (hkeep _ _ (by rw [hpc]; rfl) (Or.inl rfl))
    | none =>
      simp only [hc, Option.some.injEq] at hs
      rw [← hs]
      exact Or.inl (hkeep _ _ (by rw [hpc]; rfl) (Or.inl rfl))
  | waiting =>
    rw [hpc] at hs
    cases hmu : s.mu with
    | some j => simp [hmu] at hs
    | none =>
      simp only [hmu, Option.some.injEq] at hs
      rw [← hs]
      exact Or.inl (hkeep _ _ (by rw [hpc]; rfl) (Or.inl rfl))
  | locked =>
    rw [hpc] at hs
    cases hc : s.g.getFromCache (hash i) with
    | some c =>
      simp only [hc, Option.some.injEq] at hs
      rw [← hs]
      exact Or.inl (hkeep _ _ (by rw [hpc]; rfl) (Or.inl rfl))
    | none =>
      simp only [hc, Option.some.injEq] at hs
      rw [← hs]
      exact Or.inl (hkeep _ _ (by rw [hpc]; rfl) (Or.inl rfl))
  | reading =>
    rw [hpc] at hs
    unfold Repository.CommitObject at hs
    cases hr : s.g.GitRepo.objects s.g.GitRepo.reads.length (hash i) with
    | error err =>
      simp only [hr, Option.some.injEq] at hs
      rw [← hs]
      exact Or.inr ⟨rfl, rfl⟩
    | ok c =>
      simp only [hr, Option.some.injEq] at hs
      rw [← hs]
      exact Or.inl (hkeep _ _ (by rw [hpc]; rfl) (Or.inr ⟨hash i, rfl⟩))
  | fetched c =>
    rw [hpc] at hs
    simp only [Option.some.injEq] at hs
    rw [← hs]
    exact Or.inl (hkeep _ _ (by rw [hpc]; rfl) (Or.inl rfl))
  | unlocking res =>
    rw [hpc] at hs
    simp only [Option.some.injEq] at hs
    rw [← hs]
    refine Or.inl (hkeep _ _ ?_ (Or.inl rfl))
    rw [hpc]
    cases res <;> rfl
  | returned res =>
    rw [hpc] at hs
    cases hs

/-- Every caller whose read has failed has made a failed read of its own: among the reads
of a hash there are at least as many failed ones, beyond those `before`, as there are
callers for that hash whose read has failed. -/
theorem failed_reads_step {hash : Nat → Hash} {s s' : Shared} {i : Nat} (before : Nat)
    (h : Hash) (hs : s.step hash i = some s')
    (hP : ∀ l : List Nat, l.Nodup → (∀ j ∈ l, hash j = h ∧ (s.pc j).failed = true) →
      l.length + before ≤ s.g.GitRepo.reads.count (h, false)) :
    ∀ l : List Nat, l.Nodup → (∀ j ∈ l, hash j = h ∧ (s'.pc j).failed = true) →
      l.length + before ≤ s'.g.GitRepo.reads.count (h, false) := by
  intro l hnodup hl
  rcases step_failed hs with ⟨hsame, hcount⟩ | ⟨hnew, hreads⟩
  · exact Nat.le_trans (hP l hnodup (fun j hj => ⟨(hl j hj).1, hsame j (hl j hj).2⟩))
      (hcount h)
  · have hother := (step_some hs).1
    by_cases hi : i ∈ l
    · have herase : ∀ j ∈ l.erase i, hash j = h ∧ (s.pc j).failed = true := by
        intro j hj
        have hj' := (List.Nodup.mem_erase_iff hnodup).mp hj
        refine ⟨(hl j hj'.2).1, ?_⟩
        rw [← hother j hj'.1]
        exact (hl j hj'.2).2
      have hbound := hP (l.erase i) (hnodup.erase i) herase
      rw [List.length_erase_of_mem hi] at hbound
      have hpos : 0 < l.length := List.length_pos_of_mem hi
      rw [hreads, (hl i hi).1, List.count_cons_self]
      omega
    · have hold : ∀ j ∈ l, hash j = h ∧ (s.pc j).failed = true := by
        intro j hj
        have hji : j ≠ i := fun hji => hi (hji ▸ hj)
        refine ⟨(hl j hj).1, ?_⟩
        rw [← hother j hji]
        exact (hl j hj).2
      rw [hreads]
      exact Nat.le_trans (hP l hnodup hold) (List.count_le_count_cons _ _ _)

/-- Throughout a schedule, every caller whose read has failed has made a failed read of
its own. -/
theorem failed_reads_run (hash : Nat → Hash) (before : Nat) (h : Hash)
    (schedule : List Nat) (s : Shared)
    (hP : ∀ l : List Nat, l.Nodup → (∀ j ∈ l, hash j = h ∧ (s.pc j).failed = true) →
      l.length + before ≤ s.g.GitRepo.reads.count (h, false)) :
    ∀ l : List Nat, l.Nodup →
      (∀ j ∈ l, hash j = h ∧ ((Shared.run hash s schedule).pc j).failed = true) →
      l.length + before ≤ (Shared.run hash s schedule).g.GitRepo.reads.count (h, false) := by
  induction schedule generalizing s with
  | nil => exact hP
  | cons i rest ih =>
    simp only [Shared.run]
    cases hs : s.step hash i with
    | none => exact ih s hP
    | some s' => exact ih s' (failed_reads_step before h hs hP)

/-- From the outset on, every caller whose read has failed has made a failed read of its
own. -/
theorem failed_reads (hash : Nat → Hash) (g0 : GitRepositoryWithCache) (h : Hash)
    (schedule : List Nat) (l : List Nat) (hnodup : l.Nodup)
    (hl : ∀ j ∈ l, hash j = h ∧
      ((Shared.run hash (Shared.init g0) schedule).pc j).failed = true) :
    l.length + g0.GitRepo.reads.count (h, false) ≤
      (Shared.run hash (Shared.init g0) schedule).g.GitRepo.reads.count (h, false) := by
  refine failed_reads_run hash _ h schedule (Shared.init g0) ?_ l hnodup hl
  intro l' _ hl'
  cases l' with
  | nil => simp [Shared.init]
  | cons j rest =>
    have hj := (hl' j (List.mem_cons_self j rest)).2
    cases hj

/-- C13, as amended: whatever the order in which the operations of the callers interleave,
(1) no two underlying reads are under way at the same time; (2) callers that ask for the
same commit hash, which is not cached at the outset and whose underlying read succeeds,
have, once they have returned, all received the same commit object, and the read of that
hash has been performed exactly once; (3) callers that keep being scheduled do return:
when the schedule, after whatever the callers `cs` did before, goes on for six rounds per
caller in each of which every caller of `cs` gets a turn, every one of them has returned,
and any two of them that asked for such a hash have received the same commit object from
the one read; (4) when the reads of a hash that is not cached at the outset all fail,
every caller for that hash that has returned has received an error, nothing was read
successfully, and the callers that have returned have each made a failed read of their
own: there are at least as many failed reads of the hash as such callers. -/
theorem concurrent_callers (hash : Nat → Hash) (g0 : GitRepositoryWithCache)
    (schedule : List Nat) :
    (∀ i j, (Shared.run hash (Shared.init g0) schedule).pc i = .reading →
      (Shared.run hash (Shared.init g0) schedule).pc j = .reading → i = j) ∧
    (∀ i j ri rj, hash i = hash j → g0.getFromCache (hash i) = none →
      (∀ k, (g0.GitRepo.objects k (hash i)).isOk = true) →
      (Shared.run hash (Shared.init g0) schedule).pc i = .returned ri →
      (Shared.run hash (Shared.init g0) schedule).pc j = .returned rj →
      ∃ c new, ri = .ok c ∧ rj = .ok c ∧
        (Shared.run hash (Shared.init g0) schedule).g.GitRepo.reads =
          new ++ g0.GitRepo.reads ∧
        new.count (hash i, true) = 1 ∧ (hash i, false) ∉ new) ∧
    (∀ (cs before : List Nat) (rounds : List (List Nat)),
      schedule = before ++ rounds.flatten → (∀ i ∈ before, i ∈ cs) → Fair cs rounds →
      6 * cs.length ≤ rounds.length →
      (∀ i ∈ cs, ∃ res, (Shared.run hash (Shared.init g0) schedule).pc i = .returned res) ∧
      (∀ i ∈ cs, ∀ j ∈ cs, hash i = hash j → g0.getFromCache (hash i) = none →
        (∀ k, (g0.GitRepo.objects k (hash i)).isOk = true) →
        ∃ c new,
          (Shared.run hash (Shared.init g0) schedule).pc i = .returned (.ok c) ∧
          (Shared.run hash (Shared.init g0) schedule).pc j = .returned (.ok c) ∧
          (Shared.run hash (Shared.init g0) schedule).g.GitRepo.reads =
            new ++ g0.GitRepo.reads ∧
          new.count (hash i, true) = 1 ∧ (hash i, false) ∉ new)) ∧
    (∀ h, g0.getFromCache h = none → (∀ k, (g0.GitRepo.objects k h).isOk = false) →
      (∀ i res, hash i = h →
        (Shared.run hash (Shared.init g0) schedule).pc i = .returned res →
        ∃ e, res = .error e) ∧
      (∀ l : List Nat, l.Nodup →
        (∀ i ∈ l, hash i = h ∧
          ∃ res, (Shared.run hash (Shared.init g0) schedule).pc i = .returned res) →
        ∃ new,
          (Shared.run hash (Shared.init g0) schedule).g.GitRepo.reads =
            new ++ g0.GitRepo.reads ∧
          l.length ≤ new.count (h, false) ∧ new.count (h, true) = 0)) := by
  obtain ⟨new, hI⟩ := (Inv_init hash g0).run schedule
  have hsame : ∀ i j ri rj, hash i = hash j → g0.getFromCache (hash i) = none →
      (∀ k, (g0.GitRepo.objects k (hash i)).isOk = true) →
      (Shared.run hash (Shared.init g0) schedule).pc i = .returned ri →
      (Shared.run hash (Shared.init g0) schedule).pc j = .returned rj →
      ∃ c new, ri = .ok c ∧ rj = .ok c ∧
        (Shared.run hash (Shared.init g0) schedule).g.GitRepo.reads =
          new ++ g0.GitRepo.reads ∧
        new.count (hash i, true) = 1 ∧ (hash i, false) ∉ new := by
    intro i j ri rj hij h0 hok hi hj
    have hnofail : ∀ h, h = hash i → (h, false) ∉ new := by
      intro h hh hm
      obtain ⟨k, hk⟩ := hI.answers h false hm
      rw [hh, hok k] at hk
      cases hk
    have hres : ∀ (l : Nat) (r : Except String Commit), hash l = hash i →
        (Shared.run hash (Shared.init g0) schedule).pc l = .returned r →
        ∃ c, r = .ok c ∧
          (Shared.run hash (Shared.init g0) schedule).g.getFromCache (hash i) = some c := by
      intro l r hl hpc
      cases r with
      | error e => exact absurd (hI.failed l e (Or.inr hpc)) (hnofail _ hl)
      | ok c => exact ⟨c, rfl, hl ▸ hI.holding l c (Or.inr hpc)⟩
    obtain ⟨ci, hri, hci⟩ := hres i ri rfl hi
    obtain ⟨cj, hrj, hcj⟩ := hres j rj hij.symm hj
    have hsame : cj = ci := by
      rw [hci] at hcj
      exact (Option.some.inj hcj).symm
    refine ⟨ci, new, hri, by rw [hrj, hsame], hI.reads, ?_, hnofail _ rfl⟩
    have hmem : (hash i, true) ∈ new := by
      rcases hI.source (hash i) (by rw [hci]; rfl) with h | h
      · rw [h0] at h
        cases h
      · exact h
    exact Nat.le_antisymm (hI.once (hash i)) (List.count_pos_iff.mpr hmem)
  refine ⟨?_, hsame, ?_, ?_⟩
  · intro i j hi hj
    exact hI.holder i j (by rw [hi]; rfl) (by rw [hj]; rfl)
  · intro cs before rounds hsched hbefore hfair hlen
    have hret : ∀ i ∈ cs, ∃ res,
        (Shared.run hash (Shared.init g0) schedule).pc i = .returned res := by
      rw [hsched]
      exact fair_callers_return hash g0 cs before rounds hbefore hfair hlen
    refine ⟨hret, ?_⟩
    intro i hi j hj hij h0 hok
    obtain ⟨ri, hri⟩ := hret i hi
    obtain ⟨rj, hrj⟩ := hret j hj
    obtain ⟨c, new', h1, h2, h3, h4, h5⟩ := hsame i j ri rj hij h0 hok hri hrj
    exact ⟨c, new', by rw [hri, h1], by rw [hrj, h2], h3, h4, h5⟩
  · intro h h0 hfail
    have hnone : (h, true) ∉ new := by
      intro hm
      obtain ⟨k, hk⟩ := hI.answers h true hm
      rw [hfail k] at hk
      cases hk
    have herr : ∀ i res, hash i = h →
        (Shared.run hash (Shared.init g0) schedule).pc i = .returned res →
        ∃ e, res = .error e := by
      intro i res hi hpc
      cases res with
      | error e => exact ⟨e, rfl⟩
      | ok c =>
        have hc := hI.holding i c (Or.inr hpc)
        rw [hi] at hc
        rcases hI.source h (by rw [hc]; rfl) with hs | hs
        · rw [h0] at hs
          cases hs
        · exact absurd hs hnone
    refine ⟨herr, ?_⟩
    intro l hnodup hl
    refine ⟨new, hI.reads, ?_, List.count_eq_zero.mpr hnone⟩
    have hcount := failed_reads hash g0 h schedule l hnodup (fun j hj => by
      obtain ⟨hjh, res, hres⟩ := hl j hj
      obtain ⟨e, he⟩ := herr j res hjh hres
      refine ⟨hjh, ?_⟩
      rw [hres, he]
      rfl)
    rw [hI.reads, List.count_append] at hcount
    omega

/-- C13 on two callers for hash 7 who take turns for twelve rounds: both return the
commit that the one read gave. -/
theorem concurrent_callers_witness :
    ∃ c new,
      (Shared.run (fun _ => 7) (Shared.init ⟨⟨fun _ h => .ok ⟨[], 0, h⟩, []⟩, []⟩)
        (List.replicate 12 [0, 1]).flatten).pc 0 = .returned (.ok c) ∧
      (Shared.run (fun _ => 7) (Shared.init ⟨⟨fun _ h => .ok ⟨[], 0, h⟩, []⟩, []⟩)
        (List.replicate 12 [0, 1]).flatten).pc 1 = .returned (.ok c) ∧
      (Shared.run (fun _ => 7) (Shared.init ⟨⟨fun _ h => .ok ⟨[], 0, h⟩, []⟩, []⟩)
        (List.replicate 12 [0, 1]).flatten).g.GitRepo.reads = new ++ [] ∧
      new.count (7, true) = 1 := by
  obtain ⟨c, new, h1, h2, h3, h4, _⟩ :=
    ((concurrent_callers (fun _ => 7) ⟨⟨fun _ h => .ok ⟨[], 0, h⟩, []⟩, []⟩
      (List.replicate 12 [0, 1]).flatten).2.2.1 [0, 1] [] (List.replicate 12 [0, 1])
      rfl (fun i hi => absurd hi (List.not_mem_nil i)) (by decide) (by decide)).2
      0 (by decide) 1 (by decide) rfl rfl (fun _ => rfl)
  exact ⟨c, new, h1, h2, h3, h4⟩

/-- C13 as stated fails: two callers ask for hash 7, which the repository cannot read;
both miss the cache before either takes the mutex, and each of them performs an underlying
read and returns an error, so the read is performed twice. -/
theorem concurrent_failed_read_twice :
    (Shared.run (fun _ => 7) (Shared.init ⟨⟨fun _ _ => .error "object not found", []⟩, []⟩)
        [0, 1]).pc 0 = .waiting ∧
    (Shared.run (fun _ => 7) (Shared.init ⟨⟨fun _ _ => .error "object not found", []⟩, []⟩)
        [0, 1]).pc 1 = .waiting ∧
    (Shared.run (fun _ => 7) (Shared.init ⟨⟨fun _ _ => .error "object not found", []⟩, []⟩)
        [0, 1, 0, 0, 0, 0, 1, 1, 1, 1]).g.GitRepo.reads = [(7, false), (7, false)] ∧
    (Shared.run (fun _ => 7) (Shared.init ⟨⟨fun _ _ => .error "object not found", []⟩, []⟩)
        [0, 1, 0, 0, 0, 0, 1, 1, 1, 1]).pc 0 = .returned (.error
      "unable to get commit object for 0000000000000000000000000000000000000007: object not found") ∧
    (Shared.run (fun _ => 7) (Shared.init ⟨⟨fun _ _ => .error "object not found", []⟩, []⟩)
        [0, 1, 0, 0, 0, 0, 1, 1, 1, 1]).pc 1 = .returned (.error
      "unable to get commit object for 0000000000000000000000000000000000000007: object not found") :=
  ⟨rfl, rfl, rfl, rfl, rfl⟩

end git_history_based_cleanup
namespace dismiss

/-! ## Namespace and release of `dismiss` -/

/-- C17: without a git work tree and without `--use-deploy-report`,
`getNamespaceAndRelease` succeeds if and only if `--namespace` and `--release` are both
non-empty, and then returns exactly those two values; otherwise it returns an error with
empty namespace and release. -/
theorem no_git_needs_both_flags {Config : Type} (table : Char → Bool) (cmd : CmdData)
    (w : World Config) (hreport : cmd.UseDeployReport = false) :
    ((getNamespaceAndRelease table cmd w false).1.2.2 = none ↔
      (cmd.Namespace ≠ "" ∧ cmd.Release ≠ "")) ∧
    (cmd.Namespace ≠ "" ∧ cmd.Release ≠ "" →
      (getNamespaceAndRelease table cmd w false).1 = (cmd.Namespace, cmd.Release, none)) ∧
    (¬(cmd.Namespace ≠ "" ∧ cmd.Release ≠ "") →
      ∃ err, (getNamespaceAndRelease table cmd w false).1 = ("", "", some err)) := by
  unfold getNamespaceAndRelease
  by_cases hn : cmd.Namespace = "" <;> by_cases hr : cmd.Release = "" <;>
    simp [hreport, hn, hr]

/-- C17 with `--namespace mynamespace --release myrelease-dev`. -/
theorem no_git_needs_both_flags_witness :
    (getNamespaceAndRelease (fun _ => true) ⟨"mynamespace", "myrelease-dev", "", false⟩
      (⟨.error "", fun _ => .error "", fun _ => .error "", .error "", fun _ _ _ => .error "",
        fun _ _ _ _ => .error ""⟩ : World Unit) false).1 =
      ("mynamespace", "myrelease-dev", none) :=
  (no_git_needs_both_flags (fun _ => true) ⟨"mynamespace", "myrelease-dev", "", false⟩
    _ rfl).2.1 ⟨by decide, by decide⟩

/-- C18: whenever `--use-deploy-report` is set together with a non-empty `--namespace` or
a non-empty `--release`, `getNamespaceAndRelease` returns an error with empty namespace
and release and has read no file, whatever the collaborators would answer and whether or
not a git work tree was found. -/
theorem deploy_report_excludes_flags {Config : Type} (table : Char → Bool) (cmd : CmdData)
    (w : World Config) (gitFound : Bool) (hreport : cmd.UseDeployReport = true)
    (hflag : cmd.Namespace ≠ "" ∨ cmd.Release ≠ "") :
    getNamespaceAndRelease table cmd w gitFound =
      (("", "", some
        "--namespace or --release can't be used together with --use-deploy-report"), []) := by
  unfold getNamespaceAndRelease
  rcases hflag with h | h <;> simp [hreport, h]

/-- C18 with `--use-deploy-report --release myrelease` where a git work tree was
found. -/
theorem deploy_report_excludes_flags_witness :
    getNamespaceAndRelease (fun _ => true) ⟨"", "myrelease", "", true⟩
      (⟨.ok "report.json", fun _ => .ok "", fun _ => .ok ⟨"ns", "rel"⟩, .ok (),
        fun _ _ _ => .ok "ns", fun _ _ _ _ => .ok "rel"⟩ : World Unit) true =
      (("", "", some
        "--namespace or --release can't be used together with --use-deploy-report"), []) :=
  deploy_report_excludes_flags (fun _ => true) ⟨"", "myrelease", "", true⟩ _ true rfl
    (Or.inr (by decide))

/-- C19: with `--use-deploy-report` set and neither `--namespace` nor `--release` given,
the result of `getNamespaceAndRelease` is the same whether or not a git work tree was
found and whatever the git side would answer: it is fixed by the path of the deploy
report, its content and its decoding. It is the report's namespace and release when both
are non-empty, and an error with empty namespace and release when the path cannot be
determined, the report cannot be read or decoded, or either field is empty. -/
theorem deploy_report_alone {Config : Type} (table : Char → Bool) (cmd : CmdData)
    (w : World Config) (gitFound : Bool) (hreport : cmd.UseDeployReport = true)
    (hns : cmd.Namespace = "") (hrel : cmd.Release = "") :
    (∀ (w' : World Config) (gitFound' : Bool) (cmd' : CmdData),
      cmd'.UseDeployReport = true → cmd'.Namespace = "" → cmd'.Release = "" →
      w'.GetDeployReportPath = w.GetDeployReportPath → w'.ReadFile = w.ReadFile →
      w'.Unmarshal = w.Unmarshal →
      getNamespaceAndRelease table cmd' w' gitFound' =
        getNamespaceAndRelease table cmd w gitFound) ∧
    (∀ path content report, w.GetDeployReportPath = .ok path →
      w.ReadFile path = .ok content → w.Unmarshal content = .ok report →
      report.Namespace ≠ "" → report.Release ≠ "" →
      getNamespaceAndRelease table cmd w gitFound =
        ((report.Namespace, report.Release, none), [path])) ∧
    ((∃ err, w.GetDeployReportPath = .error err) ∨
      (∃ path, w.GetDeployReportPath = .ok path ∧
        ((∃ err, w.ReadFile path = .error err) ∨
          (∃ content, w.ReadFile path = .ok content ∧
            ((∃ err, w.Unmarshal content = .error err) ∨
              (∃ report, w.Unmarshal content = .ok report ∧
                (report.Namespace = "" ∨ report.Release = "")))))) →
      ∃ err, (getNamespaceAndRelease table cmd w gitFound).1 = ("", "", some err)) := by
  refine ⟨?_, ?_, ?_⟩
  · intro w' gitFound' cmd' hreport' hns' hrel' hp hread hun
    unfold getNamespaceAndRelease
    simp [hreport, hns, hrel, hreport', hns', hrel', hp, hread, hun]
  · intro path content report hp hread hun hn hr
    unfold getNamespaceAndRelease
    simp [hreport, hns, hrel, hp, hread, hun, hn, hr]
  · intro h
    unfold getNamespaceAndRelease
    rcases h with ⟨err, hp⟩ | ⟨path, hp, ⟨err, hread⟩ | ⟨content, hread,
      ⟨err, hun⟩ | ⟨report, hun, hempty⟩⟩⟩
    · simp [hreport, hns, hrel, hp]
    · simp [hreport, hns, hrel, hp, hread]
    · simp [hreport, hns, hrel, hp, hread, hun]
    · by_cases hn : report.Namespace = ""
      · simp [hreport, hns, hrel, hp, hread, hun, hn]
      · have hr : report.Release = "" := by
          rcases hempty with h | h
          · exact absurd h hn
          · exact h
        simp [hreport, hns, hrel, hp, hread, hun, hn, hr]

/-- C19 on a report that names namespace `prod` and release `app`, read where no git work
tree was found. -/
theorem deploy_report_alone_witness :
    getNamespaceAndRelease (fun _ => true) ⟨"", "", "", true⟩
      (⟨.ok "report.json", fun _ => .ok "{}", fun _ => .ok ⟨"prod", "app"⟩, .error "",
        fun _ _ _ => .error "", fun _ _ _ _ => .error ""⟩ : World Unit) false =
      (("prod", "app", none), ["report.json"]) :=
  (deploy_report_alone (fun _ => true) ⟨"", "", "", true⟩ _ false rfl rfl rfl).2.1
    "report.json" "{}" ⟨"prod", "app"⟩ rfl rfl rfl (by decide) (by decide)

end dismiss

namespace ssh_agent

/-! ## The key specification -/

/-- The first `@` of a text whose beginning holds none is right after that beginning. -/
theorem Index_at (pass file : List Char) (h : '@' ∉ pass) :
    strings.Index (pass ++ '@' :: file) ['@'] = some pass.length := by
  induction pass with
  | nil => simp [strings.Index]
  | cons c t ih =>
    have hc : c ≠ '@' := fun hc => h (by rw [hc]; exact List.mem_cons_self _ _)
    have ht : '@' ∉ t := fun hm => h (List.mem_cons_of_mem _ hm)
    simp [strings.Index, hc, Ne.symm hc, ih ht]

/-- The loop of `genSplit` cuts `PASSPHRASE@FILEPATH` at the first `@`. -/
theorem genSplitLoop_at (pass file : List Char) (h : '@' ∉ pass) :
    strings.genSplitLoop ['@'] 1 (pass ++ '@' :: file) = [pass, file] := by
  have hdrop : List.drop (pass.length + 1) (pass ++ '@' :: file) = file := by
    rw [List.drop_append]
    rfl
  simp only [strings.genSplitLoop, Index_at pass file h, List.length_singleton, hdrop,
    List.take_left']

/-- Splitting `PASSPHRASE@FILEPATH` in two at the first `@`. -/
theorem SplitN_at (pass file : String) (h : '@' ∉ pass.data) :
    strings.SplitN (pass ++ "@" ++ file) "@" 2 = [pass, file] := by
  have hdata : (pass ++ "@" ++ file).data = pass.data ++ '@' :: file.data := by
    simp [String.data_append]
  unfold strings.SplitN
  rw [if_neg (by decide), if_neg (by decide), hdata]
  show List.map String.mk (strings.genSplitLoop ['@'] 1 (pass.data ++ '@' :: file.data)) = _
  rw [genSplitLoop_at _ _ h]
  rfl

/-- C20: for every key specification `file://PASSPHRASE@FILEPATH` in which PASSPHRASE
holds no `@` and the expansion of FILEPATH names an existing file, `getSshKeyConfig`
returns the config with exactly that passphrase and the expansion of FILEPATH, which may
itself hold `@`; for a specification without the `file://` prefix whose expansion names an
existing file it returns the expanded path with an empty passphrase. -/
theorem getSshKeyConfig_of_spec (table : Char → Bool) (util : Files) :
    (∀ (pass file filePath : String), '@' ∉ pass.data →
      util.ExpandPath file = .ok filePath → util.FileExists filePath = (true, none) →
      getSshKeyConfig table util ("file://" ++ pass ++ "@" ++ file) =
        .ok ⟨filePath, pass⟩) ∧
    (∀ (path filePath : String), strings.HasPrefix path "file://" = false →
      util.ExpandPath path = .ok filePath → util.FileExists filePath = (true, none) →
      getSshKeyConfig table util path = .ok ⟨filePath, ""⟩) := by
  constructor
  · intro pass file filePath hpass hexp hex
    have hpre : strings.HasPrefix ("file://" ++ pass ++ "@" ++ file) "file://" = true := by
      have h7 : ("file://" : String).data = ['f', 'i', 'l', 'e', ':', '/', '/'] := rfl
      simp [strings.HasPrefix, String.data_append, h7]
    have htrim : strings.TrimPrefix ("file://" ++ pass ++ "@" ++ file) "file://" =
        pass ++ "@" ++ file := by
      have h7 : ("file://" : String).data = ['f', 'i', 'l', 'e', ':', '/', '/'] := rfl
      unfold strings.TrimPrefix
      rw [if_pos hpre]
      apply String.ext
      simp [String.data_append, h7]
    unfold getSshKeyConfig
    simp only [hpre, if_true, htrim, SplitN_at pass file hpass, hexp, hex]
  · intro path filePath hpre hexp hex
    unfold getSshKeyConfig
    simp only [hpre, Bool.false_eq_true, if_false, hexp, hex]

/-- C20 on a specification whose path holds an `@` of its own. -/
theorem getSshKeyConfig_of_spec_witness :
    getSshKeyConfig (fun _ => true) ⟨fun p => .ok p, fun _ => (true, none)⟩
        ("file://" ++ "secret" ++ "@" ++ "/home/me/id@rsa") =
      .ok ⟨"/home/me/id@rsa", "secret"⟩ :=
  (getSshKeyConfig_of_spec (fun _ => true) ⟨fun p => .ok p, fun _ => (true, none)⟩).1
    "secret" "/home/me/id@rsa" "/home/me/id@rsa" (by decide) rfl rfl

/-- The same specification, evaluated. -/
theorem getSshKeyConfig_example :
    getSshKeyConfig (fun _ => true) ⟨fun p => .ok p, fun _ => (true, none)⟩
        "file://secret@/home/me/id@rsa" = .ok ⟨"/home/me/id@rsa", "secret"⟩ := by
  decide

/-- A text without `@` has no first `@`. -/
theorem Index_none (s : List Char) (h : '@' ∉ s) : strings.Index s ['@'] = none := by
  induction s with
  | nil => simp [strings.Index]
  | cons c t ih =>
    have hc : c ≠ '@' := fun hc => h (by rw [hc]; exact List.mem_cons_self _ _)
    have ht : '@' ∉ t := fun hm => h (List.mem_cons_of_mem _ hm)
    simp [strings.Index, hc, Ne.symm hc, ih ht]

/-- Every specification that has the `file://` prefix and no `@` after it ends in a
run-time panic: `SplitN` gives one part, and the code indexes the second. -/
theorem getSshKeyConfig_without_at (table : Char → Bool) (util : Files) (rest : String)
    (h : '@' ∉ rest.data) :
    getSshKeyConfig table util ("file://" ++ rest) =
      .panic "runtime error: index out of range [1] with length 1" := by
  have h7 : ("file://" : String).data = ['f', 'i', 'l', 'e', ':', '/', '/'] := rfl
  have hpre : strings.HasPrefix ("file://" ++ rest) "file://" = true := by
    simp [strings.HasPrefix, String.data_append, h7]
  have htrim : strings.TrimPrefix ("file://" ++ rest) "file://" = rest := by
    unfold strings.TrimPrefix
    rw [if_pos hpre]
    apply String.ext
    simp [String.data_append, h7]
  have hsplit : strings.SplitN rest "@" 2 = [rest] := by
    unfold strings.SplitN
    rw [if_neg (by decide), if_neg (by decide)]
    show List.map String.mk (strings.genSplitLoop ['@'] 1 rest.data) = _
    simp only [strings.genSplitLoop, Index_none rest.data h]
    rfl
  unfold getSshKeyConfig
  simp only [hpre, if_true, htrim, hsplit]

/-- C26, the code at the failing input: the specification `file:///home/me/.ssh/id_rsa`,
with the prefix and no `@`, is answered neither with a config nor with an error: the call
ends in the run-time panic of an index out of range. -/
theorem getSshKeyConfig_panics :
    getSshKeyConfig (fun _ => true) ⟨fun p => .ok p, fun _ => (true, none)⟩
        "file:///home/me/.ssh/id_rsa" =
      .panic "runtime error: index out of range [1] with length 1" := by
  decide

/-! ## The socket of the system agent -/

/-- C25: `validateSockPathLength` answers `ErrSocketPathTooLong` exactly when the length
of the path in bytes exceeds the limit of the platform, 104 on darwin, freebsd, openbsd
and netbsd and 108 everywhere else; a path as long as the limit is accepted; and
`validateAgentSock` rejects the empty path with `ErrSocketPathEmpty` without any call to
the operating system. -/
theorem sock_path_length (goos sockPath : String) (os : Sockets) :
    ((goos = "darwin" ∨ goos = "freebsd" ∨ goos = "openbsd" ∨ goos = "netbsd") →
      getUnixSocketPathLimit goos = 104) ∧
    (¬(goos = "darwin" ∨ goos = "freebsd" ∨ goos = "openbsd" ∨ goos = "netbsd") →
      getUnixSocketPathLimit goos = 108) ∧
    (validateSockPathLength goos sockPath = some .ErrSocketPathTooLong ↔
      sockPath.utf8ByteSize > getUnixSocketPathLimit goos) ∧
    (validateSockPathLength goos sockPath = none ↔
      sockPath.utf8ByteSize ≤ getUnixSocketPathLimit goos) ∧
    (sockPath.utf8ByteSize = getUnixSocketPathLimit goos →
      validateSockPathLength goos sockPath = none) ∧
    validateAgentSock goos os "" = ((false, some .ErrSocketPathEmpty), []) := by
  refine ⟨fun h => if_pos h, fun h => if_neg h, ?_, ?_, ?_, rfl⟩
  · unfold validateSockPathLength
    by_cases h : sockPath.utf8ByteSize > getUnixSocketPathLimit goos <;> simp [h]
  · unfold validateSockPathLength
    by_cases h : sockPath.utf8ByteSize > getUnixSocketPathLimit goos
    · simp [h]
    · simp [h, Nat.le_of_not_gt h]
  · intro h
    unfold validateSockPathLength
    rw [if_neg (by omega)]

/-- C25 on paths of 104, 105, 108 and 109 bytes, on darwin and on linux. -/
theorem sock_path_length_witness :
    validateSockPathLength "darwin" (String.mk (List.replicate 104 'a')) = none ∧
    validateSockPathLength "darwin" (String.mk (List.replicate 105 'a')) =
      some .ErrSocketPathTooLong ∧
    validateSockPathLength "linux" (String.mk (List.replicate 108 'a')) = none ∧
    validateSockPathLength "linux" (String.mk (List.replicate 109 'a')) =
      some .ErrSocketPathTooLong :=
  ⟨(sock_path_length "darwin" _ ⟨fun _ => .ok true, fun _ => none⟩).2.2.2.2.1 (by decide),
    by decide,
    (sock_path_length "linux" _ ⟨fun _ => .ok true, fun _ => none⟩).2.2.2.2.1 (by decide),
    by decide⟩

end ssh_agent

namespace helpers_for_werf_helm

/-! ## The service values -/

/-- Reading a key just assigned gives the value assigned. -/
theorem Map.lookup_assign_same (m : Map) (k : String) (v : Value) :
    Map.lookup (Map.assign m k v) k = some v := by
  induction m with
  | nil => simp [Map.assign, Map.lookup]
  | cons e rest ih =>
    obtain ⟨k', old⟩ := e
    by_cases hk : k' = k
    · simp [Map.assign, Map.lookup, hk]
    · simp [Map.assign, Map.lookup, hk, ih]

/-- An assignment leaves the other keys as they are. -/
theorem Map.lookup_assign_ne (m : Map) (k k' : String) (v : Value) (h : k' ≠ k) :
    Map.lookup (Map.assign m k v) k' = Map.lookup m k' := by
  induction m with
  | nil => simp [Map.assign, Map.lookup, Ne.symm h]
  | cons e rest ih =>
    obtain ⟨k0, old⟩ := e
    by_cases hk : k0 = k
    · subst hk
      simp [Map.assign, Map.lookup, Ne.symm h]
    · by_cases hk' : k0 = k'
      · subst hk'
        simp [Map.assign, Map.lookup, hk]
      · simp [Map.assign, Map.lookup, hk, hk', ih]

/-- The assignment inside a map that is there. -/
theorem Map.assignIn_of_lookup (m inner : Map) (outer key : String) (v : Value)
    (h : Map.lookup m outer = some (.map inner)) :
    Map.assignIn m outer key v
      = some (Map.assign m outer (.map (Map.assign inner key v))) := by
  unfold Map.assignIn
  rw [h]

/-- Assigning one value to a list of keys: the keys of the list hold it, the others are
as before. -/
theorem Map.lookup_foldl_assign (v : Value) (names : List String) :
    ∀ (init : Map) (k : String),
      Map.lookup (names.foldl (fun acc n => Map.assign acc n v) init) k
        = if k ∈ names then some v else Map.lookup init k := by
  induction names with
  | nil => intro init k; simp
  | cons n rest ih =>
    intro init k
    rw [List.foldl_cons, ih]
    by_cases hr : k ∈ rest
    · simp [hr]
    · by_cases hk : k = n
      · subst hk
        simp [hr, Map.lookup_assign_same]
      · simp [hr, hk, Map.lookup_assign_ne _ _ _ _ hk]

/-- The loop over the stub image names ends, having assigned the stub image and the stub
tag to each name and nothing else. -/
theorem stubLoop_spec (stubImage stubTag : String) (names : List String) :
    ∀ (m img tg : Map), Map.lookup m "image" = some (.map img) →
      Map.lookup m "tag" = some (.map tg) →
      ∃ m', stubLoop stubImage stubTag m names = some m' ∧
        Map.lookup m' "image"
          = some (.map (names.foldl (fun acc n => Map.assign acc n (.str stubImage)) img)) ∧
        Map.lookup m' "tag"
          = some (.map (names.foldl (fun acc n => Map.assign acc n (.str stubTag)) tg)) ∧
        ∀ k, k ≠ "image" → k ≠ "tag" → Map.lookup m' k = Map.lookup m k := by
  induction names with
  | nil =>
    intro m img tg hi ht
    exact ⟨m, rfl, hi, ht, fun _ _ _ => rfl⟩
  | cons name rest ih =>
    intro m img tg hi ht
    have h1 := Map.assignIn_of_lookup m img "image" name (.str stubImage) hi
    have ht1 : Map.lookup (Map.assign m "image" (.map (Map.assign img name (.str stubImage))))
        "tag" = some (.map tg) := by
      rw [Map.lookup_assign_ne _ _ _ _ (by decide)]; exact ht
    have h2 := Map.assignIn_of_lookup _ tg "tag" name (.str stubTag) ht1
    have hi2 : Map.lookup
        (Map.assign (Map.assign m "image" (.map (Map.assign img name (.str stubImage))))
          "tag" (.map (Map.assign tg name (.str stubTag)))) "image"
        = some (.map (Map.assign img name (.str stubImage))) := by
      rw [Map.lookup_assign_ne _ _ _ _ (by decide), Map.lookup_assign_same]
    obtain ⟨m', hrun, hi', ht', hother⟩ := ih _ _ _ hi2 (Map.lookup_assign_same _ _ _)
    refine ⟨m', ?_, hi', ht', ?_⟩
    · show (match Map.assignIn m "image" name (.str stubImage) with
        | none => none
        | some withImage =>
          match Map.assignIn withImage "tag" name (.str stubTag) with
          | none => none
          | some withTag => stubLoop stubImage stubTag withTag rest) = some m'
      rw [h1]
      show (match Map.assignIn _ "tag" name (.str stubTag) with
          | none => none
          | some withTag => stubLoop stubImage stubTag withTag rest) = some m'
      rw [h2]
      exact hrun
    · intro k hki hkt
      rw [hother k hki hkt, Map.lookup_assign_ne _ _ _ _ hkt, Map.lookup_assign_ne _ _ _ _ hki]

/-- The loop over the image info getters ends; it leaves `image` and `tag` maps, and
changes no key but `image`, `tag`, `is_nameless_image` and `nameless_image`. -/
theorem getterLoop_spec (getters : List InfoGetter) :
    ∀ (m img tg : Map), Map.lookup m "image" = some (.map img) →
      Map.lookup m "tag" = some (.map tg) →
      ∃ m' img' tg', getterLoop m getters = some m' ∧
        Map.lookup m' "image" = some (.map img') ∧
        Map.lookup m' "tag" = some (.map tg') ∧
        ∀ k, k ≠ "image" → k ≠ "tag" → k ≠ "is_nameless_image" → k ≠ "nameless_image" →
          Map.lookup m' k = Map.lookup m k := by
  induction getters with
  | nil =>
    intro m img tg hi ht
    exact ⟨m, img, tg, rfl, hi, ht, fun _ _ _ _ _ => rfl⟩
  | cons g rest ih =>
    intro m img tg hi ht
    by_cases hn : g.Nameless = true
    · have hi1 : Map.lookup
          (Map.assign (Map.assign m "is_nameless_image" (.bool true)) "nameless_image"
            (.str g.Name)) "image" = some (.map img) := by
        rw [Map.lookup_assign_ne _ _ _ _ (by decide), Map.lookup_assign_ne _ _ _ _ (by decide)]
        exact hi
      have ht1 : Map.lookup
          (Map.assign (Map.assign m "is_nameless_image" (.bool true)) "nameless_image"
            (.str g.Name)) "tag" = some (.map tg) := by
        rw [Map.lookup_assign_ne _ _ _ _ (by decide), Map.lookup_assign_ne _ _ _ _ (by decide)]
        exact ht
      obtain ⟨m', img', tg', hrun, hi', ht', hother⟩ := ih _ _ _ hi1 ht1
      refine ⟨m', img', tg', ?_, hi', ht', ?_⟩
      · unfold getterLoop
        simp only [hn, if_true]
        exact hrun
      · intro k hki hkt hk1 hk2
        rw [hother k hki hkt hk1 hk2, Map.lookup_assign_ne _ _ _ _ hk2,
          Map.lookup_assign_ne _ _ _ _ hk1]
    · have h1 := Map.assignIn_of_lookup m img "image" g.WerfImageName (.str g.Name) hi
      have ht1 : Map.lookup
          (Map.assign m "image" (.map (Map.assign img g.WerfImageName (.str g.Name))))
          "tag" = some (.map tg) := by
        rw [Map.lookup_assign_ne _ _ _ _ (by decide)]; exact ht
      have h2 := Map.assignIn_of_lookup _ tg "tag" g.WerfImageName (.str g.Tag) ht1
      have hi2 : Map.lookup
          (Map.assign
            (Map.assign m "image" (.map (Map.assign img g.WerfImageName (.str g.Name))))
            "tag" (.map (Map.assign tg g.WerfImageName (.str g.Tag)))) "image"
          = some (.map (Map.assign img g.WerfImageName (.str g.Name))) := by
        rw [Map.lookup_assign_ne _ _ _ _ (by decide), Map.lookup_assign_same]
      obtain ⟨m', img', tg', hrun, hi', ht', hother⟩ :=
        ih _ _ _ hi2 (Map.lookup_assign_same _ _ _)
      refine ⟨m', img', tg', ?_, hi', ht', ?_⟩
      · unfold getterLoop
        simp only [hn, h1, h2]
        exact hrun
      · intro k hki hkt _ _
        rw [hother k hki hkt ‹_› ‹_›, Map.lookup_assign_ne _ _ _ _ hkt,
          Map.lookup_assign_ne _ _ _ _ hki]

/-- A successful `writeDockerConfigJsonValue` changes no key but `dockerconfigjson`. -/
theorem writeDockerConfigJsonValue_ok (table : Char → Bool) (sys : System)
    (values : Map) (dockerConfigPath : String) (res : Map)
    (h : writeDockerConfigJsonValue table sys values dockerConfigPath = .ok res) :
    ∀ k, k ≠ "dockerconfigjson" → Map.lookup res k = Map.lookup values k := by
  unfold writeDockerConfigJsonValue at h
  dsimp only at h
  split at h
  · cases h; intro k _; rfl
  · cases h
  · split at h
    · cases h
    · cases h; intro k hk; exact Map.lookup_assign_ne _ _ _ _ hk

/-- The stub block of `GetServiceValues`. -/
theorem stubbed_spec (repo : String) (opts : ServiceValuesOptions) (W W3 : Map)
    (hi : Map.lookup W "image" = some (.map [])) (ht : Map.lookup W "tag" = some (.map []))
    (h1 : Map.lookup W "is_stub" = none) (h2 : Map.lookup W "stub_image" = none)
    (h : (if opts.IsStub = true then
        stubLoop (repo ++ ":" ++ "TAG") "TAG"
          (Map.assign (Map.assign W "is_stub" (.bool true)) "stub_image"
            (.str (repo ++ ":" ++ "TAG")))
          opts.StubImageNameList
      else some W) = some W3) :
    (∀ k, k ≠ "image" → k ≠ "tag" → k ≠ "is_stub" → k ≠ "stub_image" →
      Map.lookup W3 k = Map.lookup W k) ∧
    ∃ image tag, Map.lookup W3 "image" = some (.map image) ∧
      Map.lookup W3 "tag" = some (.map tag) ∧
      (opts.IsStub = true →
        Map.lookup W3 "is_stub" = some (.bool true) ∧
        Map.lookup W3 "stub_image" = some (.str (repo ++ ":" ++ "TAG")) ∧
        image = opts.StubImageNameList.foldl
          (fun acc n => Map.assign acc n (.str (repo ++ ":" ++ "TAG"))) [] ∧
        tag = opts.StubImageNameList.foldl (fun acc n => Map.assign acc n (.str "TAG")) []) ∧
      (opts.IsStub = false →
        image = [] ∧ tag = [] ∧ Map.lookup W3 "is_stub" = none ∧
        Map.lookup W3 "stub_image" = none) := by
  by_cases hs : opts.IsStub = true
  · rw [if_pos hs] at h
    have hi' : Map.lookup
        (Map.assign (Map.assign W "is_stub" (.bool true)) "stub_image"
          (.str (repo ++ ":" ++ "TAG"))) "image" = some (.map []) := by
      rw [Map.lookup_assign_ne _ _ _ _ (by decide), Map.lookup_assign_ne _ _ _ _ (by decide)]
      exact hi
    have ht' : Map.lookup
        (Map.assign (Map.assign W "is_stub" (.bool true)) "stub_image"
          (.str (repo ++ ":" ++ "TAG"))) "tag" = some (.map []) := by
      rw [Map.lookup_assign_ne _ _ _ _ (by decide), Map.lookup_assign_ne _ _ _ _ (by decide)]
      exact ht
    obtain ⟨m', hrun, hi3, ht3, hother⟩ :=
      stubLoop_spec (repo ++ ":" ++ "TAG") "TAG" opts.StubImageNameList _ _ _ hi' ht'
    rw [hrun] at h
    cases h
    refine ⟨?_, _, _, hi3, ht3, ?_, ?_⟩
    · intro k hki hkt hk1 hk2
      rw [hother k hki hkt, Map.lookup_assign_ne _ _ _ _ hk2, Map.lookup_assign_ne _ _ _ _ hk1]
    · intro _
      refine ⟨?_, ?_, rfl, rfl⟩
      · rw [hother _ (by decide) (by decide), Map.lookup_assign_ne _ _ _ _ (by decide),
          Map.lookup_assign_same]
      · rw [hother _ (by decide) (by decide), Map.lookup_assign_same]
    · intro hf
      rw [hf] at hs
      cases hs
  · rw [if_neg hs] at h
    cases h
    refine ⟨fun _ _ _ _ _ => rfl, [], [], hi, ht, fun hst => absurd hst hs, ?_⟩
    intro _
    exact ⟨rfl, rfl, h1, h2⟩

/-- The end of `GetServiceValues`, from the map `res` on. -/
theorem finish_spec (table : Char → Bool) (sys : System) (opts : ServiceValuesOptions)
    (W4 G res : Map)
    (h : (if opts.SetDockerConfigJsonValue = true then
        match writeDockerConfigJsonValue table sys
            (if exposeGlobalServiceValues sys = true then
              Map.assign [("werf", .map W4)] "global" (.map G)
            else [("werf", .map W4)])
            opts.DockerConfigPath with
        | .error err => Returned.error ("error writing docker config value: " ++ err)
        | .ok res => .ok res
      else
        .ok (if exposeGlobalServiceValues sys = true then
            Map.assign [("werf", .map W4)] "global" (.map G)
          else [("werf", .map W4)])) = Returned.ok res) :
    Map.lookup res "werf" = some (.map W4) ∧
    (exposeGlobalServiceValues sys = true → Map.lookup res "global" = some (.map G)) := by
  have hbase : Map.lookup
      (if exposeGlobalServiceValues sys = true then
        Map.assign [("werf", .map W4)] "global" (.map G)
      else [("werf", .map W4)]) "werf" = some (.map W4) ∧
      (exposeGlobalServiceValues sys = true →
        Map.lookup
          (if exposeGlobalServiceValues sys = true then
            Map.assign [("werf", .map W4)] "global" (.map G)
          else [("werf", .map W4)]) "global" = some (.map G)) := by
    by_cases he : exposeGlobalServiceValues sys = true
    · rw [if_pos he]
      exact ⟨by rw [Map.lookup_assign_ne _ _ _ _ (by decide)]; rfl,
        fun _ => Map.lookup_assign_same _ _ _⟩
    · rw [if_neg he]
      exact ⟨rfl, fun h => absurd h he⟩
  by_cases hd : opts.SetDockerConfigJsonValue = true
  · rw [if_pos hd] at h
    split at h
    · cases h
    · rename_i res' hw
      cases h
      have hkeep := writeDockerConfigJsonValue_ok _ _ _ _ _ hw
      exact ⟨by rw [hkeep _ (by decide)]; exact hbase.1,
        fun he => by rw [hkeep _ (by decide)]; exact hbase.2 he⟩
  · rw [if_neg hd] at h
    cases h
    exact hbase

/-- The two branches on `Env` and the branch on `Namespace`: no key but `env` and
`namespace` is touched, and `env` is as the branches say. -/
theorem env_spec (c1 c2 c3 : Prop) [Decidable c1] [Decidable c2] [Decidable c3]
    (W0 : Map) (a b ns : Value) (h0 : Map.lookup W0 "env" = none) :
    (∀ k, k ≠ "env" → k ≠ "namespace" →
      Map.lookup
        (if c3 then
          Map.assign
            (if c1 then Map.assign W0 "env" a
              else if c2 then Map.assign W0 "env" b else W0)
            "namespace" ns
        else
          if c1 then Map.assign W0 "env" a
          else if c2 then Map.assign W0 "env" b else W0) k = Map.lookup W0 k) ∧
    Map.lookup
        (if c3 then
          Map.assign
            (if c1 then Map.assign W0 "env" a
              else if c2 then Map.assign W0 "env" b else W0)
            "namespace" ns
        else
          if c1 then Map.assign W0 "env" a
          else if c2 then Map.assign W0 "env" b else W0) "env"
      = if c1 then some a else if c2 then some b else none := by
  constructor
  · intro k hke hkn
    split_ifs <;>
      simp only [Map.lookup_assign_ne _ _ _ _ hke, Map.lookup_assign_ne _ _ _ _ hkn]
  · split_ifs <;>
      simp only [Map.lookup_assign_ne _ "namespace" "env" _ (by decide),
        Map.lookup_assign_same, h0]

/-- The two branches on `Env` in the `global` section. -/
theorem global_env_spec (c1 c2 : Prop) [Decidable c1] [Decidable c2]
    (G0 : Map) (a b : Value) (h0 : Map.lookup G0 "env" = none) :
    Map.lookup
        (if c1 then Map.assign G0 "env" a
          else if c2 then Map.assign G0 "env" b else G0) "env"
      = if c1 then some a else if c2 then some b else none := by
  split_ifs <;> simp only [Map.lookup_assign_same, h0]

/-- How a call of `GetServiceValues` with a commit date goes: both loops end, and the call
ends as its last lines do on the sections `werfInfo` and `globalInfo` built until then. -/
theorem GetServiceValues_analysis (table : Char → Bool) (sys : System)
    (Version projectName repo : String) (getters : List InfoGetter)
    (opts : ServiceValuesOptions) (commitDate : Time)
    (hdate : opts.CommitDate = some commitDate) :
    ∃ werfInfo globalInfo image tag : Map,
      GetServiceValues table sys Version projectName repo getters opts
        = (if opts.SetDockerConfigJsonValue = true then
            match writeDockerConfigJsonValue table sys
                (if exposeGlobalServiceValues sys = true then
                  Map.assign [("werf", .map werfInfo)] "global" (.map globalInfo)
                else [("werf", .map werfInfo)])
                opts.DockerConfigPath with
            | .error err => Returned.error ("error writing docker config value: " ++ err)
            | .ok res => .ok res
          else
            .ok (if exposeGlobalServiceValues sys = true then
                Map.assign [("werf", .map werfInfo)] "global" (.map globalInfo)
              else [("werf", .map werfInfo)])) ∧
      Map.lookup werfInfo "env"
        = (if opts.Env ≠ "" then some (.str opts.Env)
          else if (opts.IsStub && !opts.DisableEnvStub) = true then some (.str "")
          else none) ∧
      Map.lookup globalInfo "env"
        = (if opts.Env ≠ "" then some (.str opts.Env)
          else if (opts.IsStub && !opts.DisableEnvStub) = true then some (.str "")
          else none) ∧
      Map.lookup werfInfo "image" = some (.map image) ∧
      Map.lookup werfInfo "tag" = some (.map tag) ∧
      (getters = [] →
        (opts.IsStub = true →
          Map.lookup werfInfo "is_stub" = some (.bool true) ∧
          Map.lookup werfInfo "stub_image" = some (.str (repo ++ ":" ++ "TAG")) ∧
          image = opts.StubImageNameList.foldl
            (fun acc n => Map.assign acc n (.str (repo ++ ":" ++ "TAG"))) [] ∧
          tag = opts.StubImageNameList.foldl
            (fun acc n => Map.assign acc n (.str "TAG")) []) ∧
        (opts.IsStub = false →
          image = [] ∧ tag = [] ∧ Map.lookup werfInfo "is_stub" = none ∧
          Map.lookup werfInfo "stub_image" = none)) := by
  have hW0 := env_spec (opts.Env ≠ "") ((opts.IsStub && !opts.DisableEnvStub) = true)
    (opts.Namespace ≠ "")
    [("name", .str projectName), ("version", .str Version), ("repo", .str repo),
      ("image", .map []), ("tag", .map []),
      ("commit", .map
        [("hash", .str opts.CommitHash),
          ("date", .map
            [("human", .str commitDate.String), ("unix", .int commitDate.Unix)])])]
    (.str opts.Env) (.str "") (.str opts.Namespace) rfl
  have hG0 := global_env_spec (opts.Env ≠ "")
    ((opts.IsStub && !opts.DisableEnvStub) = true)
    [("werf", .map [("name", .str projectName), ("version", .str Version)])]
    (.str opts.Env) (.str "") rfl
  generalize hr : GetServiceValues table sys Version projectName repo getters opts = r
  unfold GetServiceValues at hr
  rw [hdate] at hr
  dsimp only at hr
  split at hr
  · rename_i hW3
    exfalso
    by_cases hs : opts.IsStub = true
    · rw [if_pos hs] at hW3
      obtain ⟨m', hrun, _⟩ :=
        stubLoop_spec (repo ++ ":" ++ "TAG") "TAG" opts.StubImageNameList _ [] []
          ((Map.lookup_assign_ne _ "stub_image" "image" _ (by decide)).trans
            ((Map.lookup_assign_ne _ "is_stub" "image" _ (by decide)).trans
              ((hW0.1 "image" (by decide) (by decide)).trans rfl)))
          ((Map.lookup_assign_ne _ "stub_image" "tag" _ (by decide)).trans
            ((Map.lookup_assign_ne _ "is_stub" "tag" _ (by decide)).trans
              ((hW0.1 "tag" (by decide) (by decide)).trans rfl)))
      rw [hrun] at hW3
      cases hW3
    · rw [if_neg hs] at hW3
      cases hW3
  · rename_i W3 hW3
    obtain ⟨hkeep3, image, tag, hi3, ht3, hstub, hnostub⟩ :=
      stubbed_spec repo opts _ W3
        ((hW0.1 "image" (by decide) (by decide)).trans rfl)
        ((hW0.1 "tag" (by decide) (by decide)).trans rfl)
        ((hW0.1 "is_stub" (by decide) (by decide)).trans rfl)
        ((hW0.1 "stub_image" (by decide) (by decide)).trans rfl) hW3
    obtain ⟨m', img', tg', hrun, hi4, ht4, hkeep4⟩ :=
      getterLoop_spec getters W3 image tag hi3 ht3
    split at hr
    · rename_i hW4
      rw [hrun] at hW4
      cases hW4
    · rename_i W4 hW4
      rw [hrun] at hW4
      cases hW4
      refine ⟨m', _, img', tg', hr.symm, ?_, hG0, hi4, ht4, ?_⟩
      · rw [hkeep4 "env" (by decide) (by decide) (by decide) (by decide),
          hkeep3 "env" (by decide) (by decide) (by decide) (by decide)]
        exact hW0.2
      · intro hg
        subst hg
        have hm : W3 = m' := Option.some.inj hrun
        subst hm
        have hii : image = img' := by
          have := hi3.symm.trans hi4
          injection this with this
          injection this
        have htt : tag = tg' := by
          have := ht3.symm.trans ht4
          injection this with this
          injection this
        subst hii
        subst htt
        exact ⟨hstub, hnostub⟩

/-- A key that `lookup` does not find is the key of no entry. -/
theorem Map.lookup_none_of_mem (m : Map) (k : String) (h : Map.lookup m k = none) :
    ∀ entry ∈ m, entry.1 ≠ k := by
  induction m with
  | nil => intro entry he; cases he
  | cons e rest ih =>
    obtain ⟨k0, v0⟩ := e
    intro entry he
    by_cases hk : k0 = k
    · simp [Map.lookup, hk] at h
    · simp only [Map.lookup, if_neg hk] at h
      rcases List.mem_cons.mp he with rfl | hin
      · exact hk
      · exact ih h entry hin

/-- With a commit date given, `GetServiceValues` returns: the map, or the error of
`writeDockerConfigJsonValue` when the docker config value was asked for. -/
theorem GetServiceValues_returns (table : Char → Bool) (sys : System)
    (Version projectName repo : String) (getters : List InfoGetter)
    (opts : ServiceValuesOptions) (commitDate : Time)
    (hdate : opts.CommitDate = some commitDate) :
    (∃ res, GetServiceValues table sys Version projectName repo getters opts = .ok res) ∨
    (opts.SetDockerConfigJsonValue = true ∧
      ∃ err, GetServiceValues table sys Version projectName repo getters opts
        = .error ("error writing docker config value: " ++ err)) := by
  obtain ⟨werfInfo, globalInfo, image, tag, heq, _⟩ :=
    GetServiceValues_analysis table sys Version projectName repo getters opts commitDate hdate
  rw [heq]
  by_cases hd : opts.SetDockerConfigJsonValue = true
  · rw [if_pos hd]
    cases hw : writeDockerConfigJsonValue table sys
        (if exposeGlobalServiceValues sys = true then
          Map.assign [("werf", .map werfInfo)] "global" (.map globalInfo)
        else [("werf", .map werfInfo)]) opts.DockerConfigPath with
    | error err => exact Or.inr ⟨hd, err, rfl⟩
    | ok res => exact Or.inl ⟨res, rfl⟩
  · rw [if_neg hd]
    exact Or.inl ⟨_, rfl⟩

/-- C23: a call of `GetServiceValues` with a commit date returns (the map, or the error of
the docker config value when that was asked for), and in every map it returns the entry
`env` of the section `werf` is the given `Env` when `Env` is non-empty, is the empty
string when `Env` is empty, `IsStub` is true and `DisableEnvStub` is false, and is absent
when `Env` is empty and either `IsStub` is false or `DisableEnvStub` is true. When the
section `global` is exposed, it is in the map and its entry `env` follows the same
rule. -/
theorem werf_env (table : Char → Bool) (sys : System)
    (Version projectName repo : String) (getters : List InfoGetter)
    (opts : ServiceValuesOptions) (commitDate : Time)
    (hdate : opts.CommitDate = some commitDate) :
    ((∃ res, GetServiceValues table sys Version projectName repo getters opts = .ok res) ∨
      (opts.SetDockerConfigJsonValue = true ∧
        ∃ err, GetServiceValues table sys Version projectName repo getters opts
          = .error ("error writing docker config value: " ++ err))) ∧
    ∀ res, GetServiceValues table sys Version projectName repo getters opts = .ok res →
      (∃ werfInfo, Map.lookup res "werf" = some (.map werfInfo) ∧
        (opts.Env ≠ "" → Map.lookup werfInfo "env" = some (.str opts.Env)) ∧
        (opts.Env = "" → opts.IsStub = true → opts.DisableEnvStub = false →
          Map.lookup werfInfo "env" = some (.str "")) ∧
        (opts.Env = "" → opts.IsStub = false ∨ opts.DisableEnvStub = true →
          Map.lookup werfInfo "env" = none)) ∧
      (exposeGlobalServiceValues sys = true →
        ∃ globalInfo, Map.lookup res "global" = some (.map globalInfo) ∧
          (opts.Env ≠ "" → Map.lookup globalInfo "env" = some (.str opts.Env)) ∧
          (opts.Env = "" → opts.IsStub = true → opts.DisableEnvStub = false →
            Map.lookup globalInfo "env" = some (.str "")) ∧
          (opts.Env = "" → opts.IsStub = false ∨ opts.DisableEnvStub = true →
            Map.lookup globalInfo "env" = none)) := by
  refine ⟨GetServiceValues_returns table sys Version projectName repo getters opts
    commitDate hdate, ?_⟩
  intro res hres
  obtain ⟨werfInfo, globalInfo, image, tag, heq, hwenv, hgenv, _⟩ :=
    GetServiceValues_analysis table sys Version projectName repo getters opts commitDate hdate
  rw [heq] at hres
  obtain ⟨hwerf, hglobal⟩ := finish_spec table sys opts werfInfo globalInfo res hres
  have hrule : ∀ m : Map,
      Map.lookup m "env"
        = (if opts.Env ≠ "" then some (.str opts.Env)
          else if (opts.IsStub && !opts.DisableEnvStub) = true then some (.str "")
          else none) →
      (opts.Env ≠ "" → Map.lookup m "env" = some (.str opts.Env)) ∧
      (opts.Env = "" → opts.IsStub = true → opts.DisableEnvStub = false →
        Map.lookup m "env" = some (.str "")) ∧
      (opts.Env = "" → opts.IsStub = false ∨ opts.DisableEnvStub = true →
        Map.lookup m "env" = none) := by
    intro m hm
    refine ⟨?_, ?_, ?_⟩
    · intro he
      rw [hm, if_pos he]
    · intro he hs hd
      rw [hm, if_neg (not_not.mpr he), hs, hd]
      rfl
    · intro he hor
      rw [hm, if_neg (not_not.mpr he)]
      rcases hor with hs | hd
      · rw [hs]; rfl
      · rw [hd]
        cases opts.IsStub <;> rfl
  exact ⟨⟨werfInfo, hwerf, hrule werfInfo hwenv⟩,
    fun he => ⟨globalInfo, hglobal he, hrule globalInfo hgenv⟩⟩

/-- C23 on a stub call without `Env` and with the env stub enabled, `global` exposed:
both `werf.env` and `global.env` are the empty string. -/
theorem werf_env_witness :
    ∃ res werfInfo globalInfo,
      GetServiceValues (fun _ => true)
          ⟨false, "/home/me", fun a b => a ++ "/" ++ b, fun _ => .notExist,
            fun _ => .error "no such file", fun data => data⟩
          "v2.0.0" "myproject" "REPO" []
          ⟨"", "", true, ["backend"], false, "0123abc",
            some ⟨"2024-01-01 00:00:00 +0000 UTC", 1704067200⟩, false, ""⟩ = .ok res ∧
      Map.lookup res "werf" = some (.map werfInfo) ∧
      Map.lookup werfInfo "env" = some (.str "") ∧
      Map.lookup res "global" = some (.map globalInfo) ∧
      Map.lookup globalInfo "env" = some (.str "") := by
  have h := werf_env (fun _ => true)
    ⟨false, "/home/me", fun a b => a ++ "/" ++ b, fun _ => .notExist,
      fun _ => .error "no such file", fun data => data⟩
    "v2.0.0" "myproject" "REPO" []
    ⟨"", "", true, ["backend"], false, "0123abc",
      some ⟨"2024-01-01 00:00:00 +0000 UTC", 1704067200⟩, false, ""⟩
    ⟨"2024-01-01 00:00:00 +0000 UTC", 1704067200⟩ rfl
  obtain ⟨hret, hok⟩ := h
  rcases hret with ⟨res, hres⟩ | ⟨hd, _⟩
  · obtain ⟨⟨werfInfo, hwerf, _, hw, _⟩, hg⟩ := hok res hres
    obtain ⟨globalInfo, hglobal, _, hge, _⟩ := hg rfl
    exact ⟨res, werfInfo, globalInfo, hres, hwerf, hw rfl rfl rfl, hglobal, hge rfl rfl rfl⟩
  · cases hd

/-- C24: a call of `GetServiceValues` with a commit date and no image info getters
returns (the map, or the error of the docker config value when that was asked for), and
in every map it returns the section `werf` holds maps `image` and `tag` such that, when
`IsStub` is true, `is_stub` is true, `stub_image` is `<repo>:TAG`, every name of
`StubImageNameList` has `<repo>:TAG` in `image` and `TAG` in `tag`, and every key of
`image` and of `tag` is a name of the list; and such that, when `IsStub` is false,
`image` and `tag` are empty and `is_stub` and `stub_image` are absent. -/
theorem stub_values (table : Char → Bool) (sys : System)
    (Version projectName repo : String) (opts : ServiceValuesOptions) (commitDate : Time)
    (hdate : opts.CommitDate = some commitDate) :
    ((∃ res, GetServiceValues table sys Version projectName repo [] opts = .ok res) ∨
      (opts.SetDockerConfigJsonValue = true ∧
        ∃ err, GetServiceValues table sys Version projectName repo [] opts
          = .error ("error writing docker config value: " ++ err))) ∧
    ∀ res, GetServiceValues table sys Version projectName repo [] opts = .ok res →
      ∃ werfInfo image tag,
        Map.lookup res "werf" = some (.map werfInfo) ∧
        Map.lookup werfInfo "image" = some (.map image) ∧
        Map.lookup werfInfo "tag" = some (.map tag) ∧
        (opts.IsStub = true →
          Map.lookup werfInfo "is_stub" = some (.bool true) ∧
          Map.lookup werfInfo "stub_image" = some (.str (repo ++ ":TAG")) ∧
          (∀ name ∈ opts.StubImageNameList,
            Map.lookup image name = some (.str (repo ++ ":TAG")) ∧
            Map.lookup tag name = some (.str "TAG")) ∧
          (∀ entry ∈ image, entry.1 ∈ opts.StubImageNameList) ∧
          (∀ entry ∈ tag, entry.1 ∈ opts.StubImageNameList)) ∧
        (opts.IsStub = false →
          image = [] ∧ tag = [] ∧ Map.lookup werfInfo "is_stub" = none ∧
          Map.lookup werfInfo "stub_image" = none) := by
  refine ⟨GetServiceValues_returns table sys Version projectName repo [] opts
    commitDate hdate, ?_⟩
  intro res hres
  obtain ⟨werfInfo, globalInfo, image, tag, heq, _, _, hi, ht, hstub⟩ :=
    GetServiceValues_analysis table sys Version projectName repo [] opts commitDate hdate
  rw [heq] at hres
  obtain ⟨hwerf, _⟩ := finish_spec table sys opts werfInfo globalInfo res hres
  obtain ⟨hyes, hno⟩ := hstub rfl
  have hcolon : repo ++ ":" ++ "TAG" = repo ++ ":TAG" := by
    rw [String.append_assoc]
    rfl
  refine ⟨werfInfo, image, tag, hwerf, hi, ht, ?_, hno⟩
  intro hs
  obtain ⟨h1, h2, himage, htag⟩ := hyes hs
  rw [hcolon] at h2 himage
  refine ⟨h1, h2, ?_, ?_, ?_⟩
  · intro name hname
    rw [himage, htag, Map.lookup_foldl_assign, Map.lookup_foldl_assign, if_pos hname,
      if_pos hname]
    exact ⟨rfl, rfl⟩
  · intro entry he
    by_contra hnot
    have hnone : Map.lookup image entry.1 = none := by
      rw [himage, Map.lookup_foldl_assign, if_neg hnot]
      rfl
    exact Map.lookup_none_of_mem image entry.1 hnone entry he rfl
  · intro entry he
    by_contra hnot
    have hnone : Map.lookup tag entry.1 = none := by
      rw [htag, Map.lookup_foldl_assign, if_neg hnot]
      rfl
    exact Map.lookup_none_of_mem tag entry.1 hnone entry he rfl

/-- C24 on the call of `werf helm get-autogenerated-values` outside a repository: stub
values for the images `backend` and `frontend` of the repository `REPO`. -/
theorem stub_values_witness :
    GetServiceValues (fun _ => true)
        ⟨false, "/home/me", fun a b => a ++ "/" ++ b, fun _ => .notExist,
          fun _ => .error "no such file", fun data => data⟩
        "v2.0.0" "myproject" "REPO" []
        ⟨"", "", true, ["backend", "frontend"], true, "0123abc",
          some ⟨"2024-01-01 00:00:00 +0000 UTC", 1704067200⟩, false, ""⟩
      = .ok
        [("werf", .map
            [("name", .str "myproject"), ("version", .str "v2.0.0"), ("repo", .str "REPO"),
              ("image", .map [("backend", .str "REPO:TAG"), ("frontend", .str "REPO:TAG")]),
              ("tag", .map [("backend", .str "TAG"), ("frontend", .str "TAG")]),
              ("commit", .map
                [("hash", .str "0123abc"),
                  ("date", .map
                    [("human", .str "2024-01-01 00:00:00 +0000 UTC"),
                      ("unix", .int 1704067200)])]),
              ("is_stub", .bool true), ("stub_image", .str "REPO:TAG")]),
          ("global", .map
            [("werf", .map [("name", .str "myproject"), ("version", .str "v2.0.0")])])] ∧
    ∃ werfInfo image tag,
      Map.lookup werfInfo "image" = some (.map image) ∧
      Map.lookup werfInfo "tag" = some (.map tag) ∧
      Map.lookup werfInfo "is_stub" = some (.bool true) ∧
      Map.lookup werfInfo "stub_image" = some (.str "REPO:TAG") ∧
      Map.lookup image "frontend" = some (.str "REPO:TAG") ∧
      Map.lookup tag "frontend" = some (.str "TAG") := by
  refine ⟨rfl, ?_⟩
  obtain ⟨werfInfo, image, tag, _, hi, ht, hyes, _⟩ :=
    (stub_values (fun _ => true)
      ⟨false, "/home/me", fun a b => a ++ "/" ++ b, fun _ => .notExist,
        fun _ => .error "no such file", fun data => data⟩
      "v2.0.0" "myproject" "REPO"
      ⟨"", "", true, ["backend", "frontend"], true, "0123abc",
        some ⟨"2024-01-01 00:00:00 +0000 UTC", 1704067200⟩, false, ""⟩
      ⟨"2024-01-01 00:00:00 +0000 UTC", 1704067200⟩ rfl).2 _ rfl
  obtain ⟨h1, h2, hnames, _⟩ := hyes rfl
  exact ⟨werfInfo, image, tag, hi, ht, h1, h2,
    (hnames "frontend" (by decide)).1, (hnames "frontend" (by decide)).2⟩

end helpers_for_werf_helm

namespace retention

/-! ## Dependency closure and deletion plan -/

/-- The edges of a record: its parent and its import sources. -/
theorem mem_edges (metadata : StageMetadata) (x : StageDigest) :
    x ∈ metadata.edges ↔
      metadata.parentStageDigest = some x ∨ x ∈ metadata.importSourceStageDigests := by
  unfold StageMetadata.edges
  rw [List.mem_append]
  cases metadata.parentStageDigest with
  | none => simp
  | some p =>
    simp only [Option.toList, List.mem_singleton, Option.some.injEq]
    constructor
    · rintro (h | h)
      · exact Or.inl h.symm
      · exact Or.inr h
    · rintro (h | h)
      · exact Or.inl h.symm
      · exact Or.inr h

/-- The dependencies of a digest: the edges of the records under it. -/
theorem mem_dependencies (store : Store) (digest x : StageDigest) :
    x ∈ dependencies store digest ↔
      ∃ metadata, (digest, metadata) ∈ store ∧ x ∈ metadata.edges := by
  unfold dependencies
  simp only [List.mem_flatMap, List.mem_filter, decide_eq_true_eq]
  constructor
  · rintro ⟨⟨d, metadata⟩, ⟨hin, hd⟩, hx⟩
    simp only at hd
    subst hd
    exact ⟨metadata, hin, hx⟩
  · rintro ⟨metadata, hin, hx⟩
    exact ⟨(digest, metadata), ⟨hin, rfl⟩, hx⟩

/-- The digests of one round. -/
theorem mem_newDigests (store : Store) (keep : List StageDigest) (x : StageDigest) :
    x ∈ newDigests store keep ↔
      (∃ d ∈ keep, x ∈ dependencies store d) ∧ x ∉ keep := by
  unfold newDigests
  simp only [List.mem_dedup, List.mem_filter, List.mem_flatMap, decide_eq_true_eq]

/-- Every dependency is named by a record of the store. -/
theorem dependencies_subset (store : Store) (digest x : StageDigest)
    (h : x ∈ dependencies store digest) :
    x ∈ store.flatMap (fun entry => entry.2.edges) := by
  obtain ⟨metadata, hin, hx⟩ := (mem_dependencies store digest x).mp h
  exact List.mem_flatMap.mpr ⟨(digest, metadata), hin, hx⟩

/-- The loop only adds. -/
theorem closureLoop_superset (store : Store) (fuel : Nat) :
    ∀ keep : List StageDigest, ∀ d ∈ keep, d ∈ closureLoop store fuel keep := by
  induction fuel with
  | zero => intro keep d hd; exact hd
  | succ fuel ih =>
    intro keep d hd
    unfold closureLoop
    split_ifs
    · exact hd
    · exact ih _ d (List.mem_append_left _ hd)

/-- The loop adds nothing that a set holding the seed and closed under the edges lacks. -/
theorem closureLoop_least (store : Store) (S : StageDigest → Prop)
    (hclosed : ∀ d, S d → ∀ x ∈ dependencies store d, S x) (fuel : Nat) :
    ∀ keep : List StageDigest, (∀ d ∈ keep, S d) →
      ∀ d ∈ closureLoop store fuel keep, S d := by
  induction fuel with
  | zero => intro keep hkeep d hd; exact hkeep d hd
  | succ fuel ih =>
    intro keep hkeep d hd
    unfold closureLoop at hd
    split_ifs at hd
    · exact hkeep d hd
    · refine ih _ ?_ d hd
      intro y hy
      rcases List.mem_append.mp hy with hy | hy
      · exact hkeep y hy
      · obtain ⟨⟨d0, hd0, hx⟩, _⟩ := (mem_newDigests store keep y).mp hy
        exact hclosed d0 (hkeep d0 hd0) y hx

/-- With as many rounds as there are digests named by the store and not kept yet, the
loop ends at a fixed point: a further round adds no digest. -/
theorem closureLoop_fixed (store : Store) (fuel : Nat) :
    ∀ keep : List StageDigest,
      ((store.flatMap (fun entry => entry.2.edges)).toFinset \ keep.toFinset).card ≤ fuel →
      newDigests store (closureLoop store fuel keep) = [] := by
  induction fuel with
  | zero =>
    intro keep hcard
    show newDigests store keep = []
    rw [List.eq_nil_iff_forall_not_mem]
    intro x hx
    obtain ⟨⟨d, _, hdep⟩, hnot⟩ := (mem_newDigests store keep x).mp hx
    have hempty := Finset.card_eq_zero.mp (Nat.le_zero.mp hcard)
    have hmem : x ∈ (store.flatMap (fun entry => entry.2.edges)).toFinset \ keep.toFinset :=
      Finset.mem_sdiff.mpr
        ⟨List.mem_toFinset.mpr (dependencies_subset store d x hdep),
          fun h => hnot (List.mem_toFinset.mp h)⟩
    rw [hempty] at hmem
    exact absurd hmem (Finset.not_mem_empty x)
  | succ fuel ih =>
    intro keep hcard
    unfold closureLoop
    split_ifs with hnew
    · exact hnew
    · apply ih
      obtain ⟨x, hx⟩ := List.exists_mem_of_ne_nil _ hnew
      obtain ⟨⟨d, _, hdep⟩, hnot⟩ := (mem_newDigests store keep x).mp hx
      have hlt :
          ((store.flatMap (fun entry => entry.2.edges)).toFinset
              \ (keep ++ newDigests store keep).toFinset).card
            < ((store.flatMap (fun entry => entry.2.edges)).toFinset \ keep.toFinset).card := by
        apply Finset.card_lt_card
        rw [Finset.ssubset_iff_of_subset]
        · refine ⟨x, Finset.mem_sdiff.mpr
            ⟨List.mem_toFinset.mpr (dependencies_subset store d x hdep),
              fun h => hnot (List.mem_toFinset.mp h)⟩, ?_⟩
          intro hmem
          exact (Finset.mem_sdiff.mp hmem).2
            (List.mem_toFinset.mpr (List.mem_append_right _ hx))
        · intro y hy
          obtain ⟨hy1, hy2⟩ := Finset.mem_sdiff.mp hy
          exact Finset.mem_sdiff.mpr
            ⟨hy1, fun h => hy2 (List.mem_toFinset.mpr
              (List.mem_append_left _ (List.mem_toFinset.mp h)))⟩
      omega

/-- The closure is a fixed point of the rounds. -/
theorem DependencyClosure_fixed (store : Store) (keep : List StageDigest) :
    newDigests store (DependencyClosure store keep) = [] := by
  unfold DependencyClosure
  apply closureLoop_fixed
  rw [← List.card_toFinset]
  exact Finset.card_le_card Finset.sdiff_subset

/-- The closure is the least set that holds the seed and is closed under the edges. -/
theorem DependencyClosure_least (store : Store) (keep : List StageDigest)
    (S : StageDigest → Prop) (hkeep : ∀ d ∈ keep, S d)
    (hclosed : ∀ d, S d → ∀ x ∈ dependencies store d, S x) :
    ∀ d ∈ DependencyClosure store keep, S d :=
  closureLoop_least store S hclosed _ keep hkeep

/-- The closure holds the dependencies of its members. -/
theorem DependencyClosure_closed (store : Store) (keep : List StageDigest)
    (d x : StageDigest) (hd : d ∈ DependencyClosure store keep)
    (hx : x ∈ dependencies store d) : x ∈ DependencyClosure store keep := by
  by_contra hnot
  have hmem : x ∈ newDigests store (DependencyClosure store keep) :=
    (mem_newDigests store _ x).mpr ⟨⟨d, hd, hx⟩, hnot⟩
  rw [DependencyClosure_fixed] at hmem
  cases hmem

/-- The deletion plan holds no digest of the closure. -/
theorem not_mem_deletionPlan (disableCleanup : Bool) (store : Store)
    (keep : List StageDigest) (d : StageDigest) (hd : d ∈ DependencyClosure store keep) :
    d ∉ deletionPlan disableCleanup store keep := by
  unfold deletionPlan
  split_ifs
  · exact List.not_mem_nil d
  · intro hmem
    have := (List.mem_filter.mp hmem).2
    simp only [decide_eq_true_eq] at this
    exact this hd

/-- C22: for every store and every keep set, the dependency closure of §4.6 holds the
keep set and, for every stage in it, the parent stage and every import-source stage of
each record the store holds for that stage. So when `A` is kept, `B` is the parent of `A`
and `C` is an import source of `B`, the closure holds `A`, `B` and `C`, and the deletion
plan holds none of them, whether cleanup is disabled or not. -/
theorem dependencyClosure_keeps_dependencies (store : Store) (keep : List StageDigest) :
    (∀ d ∈ keep, d ∈ DependencyClosure store keep) ∧
    (∀ d ∈ DependencyClosure store keep, ∀ metadata, (d, metadata) ∈ store →
      (∀ parent, metadata.parentStageDigest = some parent →
        parent ∈ DependencyClosure store keep) ∧
      (∀ source ∈ metadata.importSourceStageDigests,
        source ∈ DependencyClosure store keep)) ∧
    (∀ (A B C : StageDigest) (metadataA metadataB : StageMetadata),
      A ∈ keep → (A, metadataA) ∈ store → metadataA.parentStageDigest = some B →
      (B, metadataB) ∈ store → C ∈ metadataB.importSourceStageDigests →
      (A ∈ DependencyClosure store keep ∧ B ∈ DependencyClosure store keep ∧
        C ∈ DependencyClosure store keep) ∧
      ∀ disableCleanup : Bool,
        A ∉ deletionPlan disableCleanup store keep ∧
        B ∉ deletionPlan disableCleanup store keep ∧
        C ∉ deletionPlan disableCleanup store keep) := by
  have hseed : ∀ d ∈ keep, d ∈ DependencyClosure store keep :=
    closureLoop_superset store _ keep
  have hedge : ∀ d ∈ DependencyClosure store keep, ∀ metadata, (d, metadata) ∈ store →
      ∀ x ∈ metadata.edges, x ∈ DependencyClosure store keep := by
    intro d hd metadata hin x hx
    exact DependencyClosure_closed store keep d x hd
      ((mem_dependencies store d x).mpr ⟨metadata, hin, hx⟩)
  refine ⟨hseed, ?_, ?_⟩
  · intro d hd metadata hin
    exact ⟨fun parent hp => hedge d hd metadata hin parent
        ((mem_edges metadata parent).mpr (Or.inl hp)),
      fun source hs => hedge d hd metadata hin source
        ((mem_edges metadata source).mpr (Or.inr hs))⟩
  · intro A B C metadataA metadataB hA hinA hparent hinB hsource
    have hAc := hseed A hA
    have hBc := hedge A hAc metadataA hinA B ((mem_edges metadataA B).mpr (Or.inl hparent))
    have hCc := hedge B hBc metadataB hinB C ((mem_edges metadataB C).mpr (Or.inr hsource))
    exact ⟨⟨hAc, hBc, hCc⟩, fun disableCleanup =>
      ⟨not_mem_deletionPlan disableCleanup store keep A hAc,
        not_mem_deletionPlan disableCleanup store keep B hBc,
        not_mem_deletionPlan disableCleanup store keep C hCc⟩⟩

/-- C22 on a store of four stages: `A` is kept, `B` is the parent of `A`, `C` is an import
source of `B`, and `D` is a stage nothing depends on. The closure is `A`, `B`, `C`, and
the deletion plan is `D` alone. -/
theorem dependencyClosure_keeps_dependencies_witness :
    DependencyClosure
        [("C", ⟨30, none, "base", none, []⟩), ("D", ⟨10, none, "old", some "C", []⟩),
          ("B", ⟨20, none, "builder", none, ["C"]⟩),
          ("A", ⟨40, some "0123abc", "app", some "B", []⟩)] ["A"] = ["A", "B", "C"] ∧
    deletionPlan false
        [("C", ⟨30, none, "base", none, []⟩), ("D", ⟨10, none, "old", some "C", []⟩),
          ("B", ⟨20, none, "builder", none, ["C"]⟩),
          ("A", ⟨40, some "0123abc", "app", some "B", []⟩)] ["A"] = ["D"] ∧
    (∀ disableCleanup : Bool,
      "A" ∉ deletionPlan disableCleanup
        [("C", ⟨30, none, "base", none, []⟩), ("D", ⟨10, none, "old", some "C", []⟩),
          ("B", ⟨20, none, "builder", none, ["C"]⟩),
          ("A", ⟨40, some "0123abc", "app", some "B", []⟩)] ["A"] ∧
      "B" ∉ deletionPlan disableCleanup
        [("C", ⟨30, none, "base", none, []⟩), ("D", ⟨10, none, "old", some "C", []⟩),
          ("B", ⟨20, none, "builder", none, ["C"]⟩),
          ("A", ⟨40, some "0123abc", "app", some "B", []⟩)] ["A"] ∧
      "C" ∉ deletionPlan disableCleanup
        [("C", ⟨30, none, "base", none, []⟩), ("D", ⟨10, none, "old", some "C", []⟩),
          ("B", ⟨20, none, "builder", none, ["C"]⟩),
          ("A", ⟨40, some "0123abc", "app", some "B", []⟩)] ["A"]) :=
  ⟨by decide, by decide,
    ((dependencyClosure_keeps_dependencies
      [("C", ⟨30, none, "base", none, []⟩), ("D", ⟨10, none, "old", some "C", []⟩),
        ("B", ⟨20, none, "builder", none, ["C"]⟩),
        ("A", ⟨40, some "0123abc", "app", some "B", []⟩)] ["A"]).2.2
      "A" "B" "C" ⟨40, some "0123abc", "app", some "B", []⟩ ⟨20, none, "builder", none, ["C"]⟩
      (by simp) (by simp) rfl (by simp) (by simp)).2⟩

end retention

end Werf

